import Mathlib

/-!
Verification development for the safety-gated chat pipeline
(backend/app: agents/safety.py, agents/mood.py, agents/skillcards.py,
orchestrator.py).

Text is modeled as `List Char` over the ASCII fragment: on ASCII input,
Python's `unicodedata.normalize("NFKC", s)` and NFKD-based accent
stripping are the identity, so the embedding treats them as such; all
concrete inputs appearing in the claims are ASCII.  Python `re` patterns
used by the code are embedded either as dedicated substitution functions
(for the slang-expansion `re.sub` calls, whose patterns are word-bounded
literals, plus one pattern with `\W*` gaps) or through a small
backtracking regex engine (for the search-only pattern batteries).
-/

namespace MHC

/-- Text as a list of characters. -/
abbrev Str := List Char

/-- ASCII apostrophe (written via its code point). -/
def aposC : Char := Char.ofNat 39

/-- Python `\w` on lowercase ASCII text: `[a-zA-Z0-9_]`. -/
def isWordChar (c : Char) : Bool :=
  c.isAlpha || c.isDigit || c = '_'

/-- Python `\s` (ASCII): space, tab, newline, carriage return, vertical tab, form feed. -/
def isWsChar (c : Char) : Bool :=
  c = ' ' || c = '\t' || c = '\n' || c = '\r' || c = Char.ofNat 11 || c = Char.ofNat 12

/-- ASCII lower-casing of one character (`str.lower` restricted to ASCII). -/
def lowerC (c : Char) : Char :=
  if 'A' ≤ c && c ≤ 'Z' then Char.ofNat (c.toNat + 32) else c

/-- `s.lower()` on ASCII text. -/
def lowerStr (s : Str) : Str := s.map lowerC

/-- `unicodedata.normalize("NFKC", s)` (safety.py:20) restricted to the
compatibility characters this development exercises: the mathematical
sans-serif alphabet U+1D5A0-U+1D5D3 maps to its NFKC image (the ASCII
letters).  NFKC is the identity on ASCII, and every other character is
left unchanged — an under-approximation of the full compatibility table,
exact on all inputs the theorems below evaluate. -/
def nfkcC (c : Char) : Char :=
  if 0x1D5A0 ≤ c.toNat ∧ c.toNat ≤ 0x1D5B9 then
    Char.ofNat (c.toNat - 0x1D5A0 + 65)
  else if 0x1D5BA ≤ c.toNat ∧ c.toNat ≤ 0x1D5D3 then
    Char.ofNat (c.toNat - 0x1D5BA + 97)
  else c

def nfkcAscii (s : Str) : Str := s.map nfkcC

/-- `_strip_accents` (safety.py:15-16): NFKD followed by removal of
combining marks.  Modeled as the identity, which is exact on text without
accented or decomposable characters; every concrete input evaluated below
stays in that fragment. -/
def stripAccents (s : Str) : Str := s

/-- safety.py:22 — `s.replace("’", "'").replace("–", "-").replace("—", "-")`,
a per-character replacement. -/
def quoteC (c : Char) : Char :=
  if c = '’' then aposC
  else if c = '–' then '-'
  else if c = '—' then '-'
  else c

def quoteUnify (s : Str) : Str := s.map quoteC

lemma len_dropWhile_le (p : Char → Bool) : ∀ l : Str, (l.dropWhile p).length ≤ l.length
  | [] => by simp
  | c :: t => by
    by_cases h : p c
    · simpa [List.dropWhile, h] using Nat.le_succ_of_le (len_dropWhile_le p t)
    · simp [List.dropWhile, h]

/-- safety.py:23 — `re.sub(r"(.)\1{2,}", r"\1\1", s)`: any run of three or
more equal characters collapses to two (`.` does not match a newline, so
newline runs are kept).  Implemented as a single left-to-right scan that
emits at most the first two characters of every non-newline run, which is
exactly what the greedy leftmost substitution produces. -/
def collapseRunsGo (prev : Char) (count : Nat) : Str → Str
  | [] => []
  | c :: t =>
    if c = prev ∧ c ≠ '\n' then
      if count < 2 then c :: collapseRunsGo prev (count + 1) t
      else collapseRunsGo prev count t
    else c :: collapseRunsGo c 1 t

def collapseRuns : Str → Str
  | [] => []
  | c :: t => c :: collapseRunsGo c 1 t

/-- safety.py:24 — `re.sub(r"[_​‌‍]", " ", s)`. -/
def zwC (c : Char) : Char :=
  if c = '_' || c = Char.ofNat 0x200b || c = Char.ofNat 0x200c || c = Char.ofNat 0x200d then ' '
  else c

def zwToSpace (s : Str) : Str := s.map zwC

/-- safety.py:25 — `re.sub(r"\s+", " ", s)`: every whitespace run becomes
one space (scan with a "previous character was whitespace" flag). -/
def wsCollapseGo (prevWs : Bool) : Str → Str
  | [] => []
  | c :: t =>
    if isWsChar c then
      if prevWs then wsCollapseGo true t else ' ' :: wsCollapseGo true t
    else c :: wsCollapseGo false t

def wsCollapse (s : Str) : Str := wsCollapseGo false s

/-- Python `str.strip()` (ASCII whitespace). -/
def stripWs (s : Str) : Str :=
  (s.dropWhile isWsChar).reverse.dropWhile isWsChar |>.reverse

/-- `_normalize` (safety.py:18-26): lowercase, NFKC, accent stripping,
quote/dash unification, repeated-character collapsing, zero-width and
underscore removal, whitespace collapsing, strip. -/
def pyNormalize (s : Str) : Str :=
  stripWs (wsCollapse (zwToSpace (collapseRuns (quoteUnify (stripAccents (nfkcAscii (lowerStr s)))))))

/-! ### Slang expansion (`_expand_slang`, safety.py:28-50)

Each entry of `SLANG_MAP` becomes one `re.sub` over the running text.
After `re.escape` and the `\*`/`\/` rewrites, every key's pattern is the
word-bounded literal key, except `"k*m*s"` whose `*` characters become
`\W*` gaps (`\/` never fires because `re.escape` leaves `/` unescaped).
The replacement text is the value surrounded by single spaces. -/

/-- Word-boundary test used before a pattern that starts (or after one that
ends) with a word character: the adjacent character, if any, must not be a
word character. -/
def noWordAt : Option Char → Bool
  | none => true
  | some c => !isWordChar c

def headOpt : Str → Option Char
  | [] => none
  | c :: _ => some c

/-- One `re.sub(rf"\b{key}\b", f" {v} ", text)` pass for a literal key
(scans left to right, replaces every non-overlapping match, resumes after
each match).  `prev` is the character just before the current position;
`skip` counts characters of an already-replaced match that remain to be
consumed, so the recursion is structural in the text. -/
def subLitGo (key val : Str) : Nat → Option Char → Str → Str
  | 0, _, [] => []
  | 0, prev, c :: t =>
    if noWordAt prev ∧ key.isPrefixOf (c :: t) ∧
       noWordAt (headOpt ((c :: t).drop key.length)) ∧ key ≠ [] then
      (' ' :: val ++ [' ']) ++ subLitGo key val (key.length - 1) (some c) t
    else
      c :: subLitGo key val 0 (some c) t
  | _ + 1, _, [] => []
  | skip + 1, _, c :: t => subLitGo key val skip (some c) t

def subLit (key val : Str) (t : Str) : Str := subLitGo key val 0 none t

/-- One `re.sub` pass for the `"k*m*s"` key, whose compiled pattern is
`\bk\W*m\W*s\b`.  Each `\W*` gap is forced: it greedily eats non-word
characters and the following literal is a word character, so the match at
a position is unique when it exists. -/
def kmsGap (t : Str) : Str := t.dropWhile (fun c => !isWordChar c)

def kmsMatchEnd (t : Str) : Option Str :=
  match t with
  | 'k' :: t1 =>
    match kmsGap t1 with
    | 'm' :: t2 =>
      match kmsGap t2 with
      | 's' :: t3 => if noWordAt (headOpt t3) then some t3 else none
      | _ => none
    | _ => none
  | _ => none

def subKmsStarGo (val : Str) : Nat → Option Char → Str → Str
  | 0, _, [] => []
  | 0, prev, c :: t =>
    match (if noWordAt prev then kmsMatchEnd (c :: t) else none) with
    | some after =>
      (' ' :: val ++ [' ']) ++ subKmsStarGo val ((c :: t).length - after.length - 1) (some c) t
    | none => c :: subKmsStarGo val 0 (some c) t
  | _ + 1, _, [] => []
  | skip + 1, _, c :: t => subKmsStarGo val skip (some c) t

def subKmsStar (val : Str) (t : Str) : Str := subKmsStarGo val 0 none t

def SLANG_KMS_VAL : Str := "kill myself".toList

/-- `SLANG_MAP` (safety.py:28-40) as the ordered list of literal-key
substitutions; the `"k*m*s"` entry is handled by `subKmsStar` in
`expandSlang` at its position in the map order. -/
def slangLits1 : List (Str × Str) :=
  [("kms".toList, "kill myself".toList),
   ("k m s".toList, "kill myself".toList)]

def slangLits2 : List (Str × Str) :=
  [("k/ms".toList, "kill myself".toList),
   ("s/h".toList, "self harm".toList),
   ("unalive".toList, "suicide".toList),
   ("end it".toList, "end my life".toList),
   ("end myself".toList, "end my life".toList),
   ("off myself".toList, "kill myself".toList),
   ("i cant go on".toList, "end my life".toList),
   ("take my life".toList, "end my life".toList)]

/-- `_expand_slang` (safety.py:42-50): pad with one space on each side, run
the `SLANG_MAP` substitutions in insertion order, then collapse whitespace
and strip. -/
def expandSlang (s : Str) : Str :=
  let t0 := ' ' :: s ++ [' ']
  let t1 := slangLits1.foldl (fun acc kv => subLit kv.1 kv.2 acc) t0
  let t2 := subKmsStar SLANG_KMS_VAL t1
  let t3 := slangLits2.foldl (fun acc kv => subLit kv.1 kv.2 acc) t2
  stripWs (wsCollapse t3)

/-! ### A small regex engine for the search-only patterns

Constructs used by `SELF_HARM_PATTERNS`, `OTHER_HARM_PATTERNS` and the
orchestrator gate regexes: literals, character classes, concatenation,
alternation, `*` over a character class (`\s*`, `\W*`, `[-\s]*`, `.?`),
and the word-boundary assertion `\b`.  `matchEnds` enumerates every
possible end state of a match, so the Boolean search is exactly
"some position admits a match", matching Python `re.search` truthiness. -/

inductive Rx where
  | eps
  | lit (c : Char)
  | cls (f : Char → Bool)
  | seq (a b : Rx)
  | alt (a b : Rx)
  | starC (f : Char → Bool)
  | wb

/-- `\b`: exactly one side of the position is a word character
(a missing side counts as non-word). -/
def atBoundary (p : Option Char) (t : Str) : Bool :=
  (match p with | some c => isWordChar c | none => false) !=
  (match t with | c :: _ => isWordChar c | [] => false)

/-- All states `(rest, prev)` reachable by consuming zero or more
class characters from the front. -/
def clsRun (f : Char → Bool) : Str → Option Char → List (Str × Option Char)
  | [], p => [([], p)]
  | c :: t, p => ((c :: t : Str), p) :: (if f c then clsRun f t (some c) else [])

/-- All end states of a match of `r` starting at the front of `t`,
with `p` the character just before `t`. -/
def matchEnds : Rx → Str → Option Char → List (Str × Option Char)
  | .eps, t, p => [(t, p)]
  | .lit _, [], _ => []
  | .lit c, x :: t, _ => if x = c then [((t : Str), some x)] else []
  | .cls _, [], _ => []
  | .cls f, x :: t, _ => if f x then [((t : Str), some x)] else []
  | .seq a b, t, p => (matchEnds a t p).flatMap (fun s => matchEnds b s.1 s.2)
  | .alt a b, t, p => matchEnds a t p ++ matchEnds b t p
  | .starC f, t, p => clsRun f t p
  | .wb, t, p => if atBoundary p t then [(t, p)] else []

def searchGo (r : Rx) (p : Option Char) : Str → Bool
  | [] => !(matchEnds r [] p).isEmpty
  | c :: t => !(matchEnds r (c :: t) p).isEmpty || searchGo r (some c) t

/-- `compiled_pattern.search(t)` truthiness. -/
def rxSearch (r : Rx) (t : Str) : Bool := searchGo r none t

/-! Pattern combinators. -/

def rcat (l : List Rx) : Rx := l.foldr Rx.seq Rx.eps

def ralt : List Rx → Rx
  | [] => Rx.eps
  | [r] => r
  | r :: rs => .alt r (ralt rs)

def rstr (s : String) : Rx := rcat (s.toList.map Rx.lit)

def ropt (r : Rx) : Rx := .alt r .eps

def wsPlus : Rx := .seq (.cls isWsChar) (.starC isWsChar)

def wsStar : Rx := .starC isWsChar

/-! ### `SELF_HARM_PATTERNS` (safety.py:57-69) -/

/-- `IM = (?:i\s*am|i'?m|im)` (safety.py:55). -/
def rxIM : Rx :=
  ralt [rcat [rstr "i", wsStar, rstr "am"],
        rcat [.lit 'i', ropt (.lit aposC), .lit 'm'],
        rstr "im"]

def selfHarmPatterns : List Rx :=
  [ rcat [.wb, rstr "kill", wsPlus, rstr "myself", .wb],
    rcat [.wb, rstr "end", wsPlus, rstr "my", wsPlus, rstr "life", .wb],
    rcat [.wb, rstr "take", wsPlus, rstr "my", wsPlus, rstr "life", .wb],
    rcat [.wb, ralt [rstr "hurt", rstr "cut"], wsPlus, rstr "myself", .wb],
    rcat [.wb, rstr "suicide", .wb],
    rcat [.wb, rstr "self", .starC (fun c => c = '-' || isWsChar c), rstr "harm", .wb],
    rcat [.wb,
          ralt [rcat [rstr "i", wsPlus, rstr "want", wsPlus, rstr "to"],
                rcat [rstr "im", wsPlus, rstr "going", wsPlus, rstr "to"],
                rstr "gonna"],
          wsStar,
          ralt [rstr "die",
                rcat [rstr "end", wsStar, ralt [rstr "it", rstr "everything"]],
                rcat [rstr "kill", wsStar, rstr "myself"]],
          .wb],
    rcat [.wb, ralt [rstr "end it all", rstr "i want to die", rstr "i want to end it"], .wb],
    rcat [.wb,
          ralt [rcat [rstr "can", ropt (.lit aposC), rstr "t go on"],
                rstr "no reason to live"],
          .wb],
    rcat [.wb,
          ralt [rcat [rstr "unalive", wsPlus, rstr "myself"],
                rcat [rstr "end", wsPlus, rstr "my", wsPlus, rstr "own", wsPlus, rstr "life"],
                rcat [rstr "take", wsPlus, rstr "my", wsPlus, rstr "own", wsPlus, rstr "life"]],
          .wb],
    rcat [.wb, rxIM, wsPlus, ropt (rcat [rstr "a", wsPlus]),
          rstr "danger", ropt (rstr "ous"), wsPlus, rstr "to", wsPlus,
          ralt [rstr "myself", rstr "me"], .wb] ]

/-! ### `OTHER_HARM_PATTERNS` (safety.py:71-89) -/

def rxSomeones : Rx := rcat [rstr "someone", .lit aposC, rstr "s"]

def otherHarmPatterns : List Rx :=
  [ rcat [.wb, rstr "kill", wsPlus,
          ralt [rstr "him", rstr "her", rstr "them", rstr "you", rstr "people",
                rstr "someone", rstr "others", rstr "everyone"], .wb],
    rcat [.wb, rstr "stab", wsPlus,
          ralt [rstr "him", rstr "her", rstr "them", rstr "you", rstr "someone", rstr "people"], .wb],
    rcat [.wb, rstr "shoot", wsPlus,
          ralt [rstr "him", rstr "her", rstr "them", rstr "you", rstr "someone", rstr "people"], .wb],
    rcat [.wb, rstr "hurt", wsPlus,
          ralt [rstr "him", rstr "her", rstr "them", rstr "you", rstr "someone", rstr "people"], .wb],
    rcat [.wb,
          ralt [rcat [rstr "i", wsPlus, rstr "want", wsPlus, rstr "to"],
                rcat [rstr "im", wsPlus, rstr "going", wsPlus, rstr "to"],
                rstr "gonna"],
          wsStar,
          ralt [rstr "hurt", rstr "kill", rstr "stab", rstr "shoot"], .wb],
    rcat [.wb, ralt [rstr "homicidal", rstr "violent", rstr "violence"],
          wsPlus, ropt (ralt [rstr "urges", rstr "thoughts"]), .wb],
    rcat [.wb, rxIM, wsPlus, ropt (rcat [rstr "a", wsPlus]),
          ralt [rstr "danger", rstr "dangerous", rstr "threat"],
          ropt (rcat [wsPlus, rstr "to", wsPlus,
                      ralt [rstr "others", rstr "people", rstr "everyone", rstr "them", rstr "someone"]]),
          .wb],
    rcat [.wb, rxIM, wsPlus,
          ralt [rstr "might", rstr "am going to", rstr "will"], wsPlus,
          ralt [rstr "hurt", rstr "harm", rstr "attack", rstr "stab", rstr "shoot"], wsPlus,
          ralt [rstr "someone", rstr "people", rstr "others", rstr "him", rstr "her",
                rstr "them", rstr "everyone"], .wb],
    rcat [.wb, ralt [rstr "unalive", rstr "end", rstr "take"], wsPlus,
          ralt [rstr "someone", rstr "people", rstr "others", rstr "him", rstr "her",
                rstr "them", rstr "everyone", rcat [rstr "a", wsPlus, rstr "life"]], .wb],
    rcat [.wb, rstr "take", wsPlus, ralt [rxSomeones, rstr "their"], wsPlus, rstr "life", .wb],
    rcat [.wb, rstr "end", wsPlus, ralt [rxSomeones, rstr "their"], wsPlus, rstr "life", .wb],
    rcat [.wb, ralt [rcat [rstr "shoot", wsStar, rstr "up"], rstr "shoot-up"],
          wsPlus, ropt (rcat [rstr "a", wsPlus]),
          ralt [rstr "school", rstr "mall", rstr "store", rstr "place", rstr "church",
                rstr "synagogue", rstr "office", rstr "work", rstr "public", rstr "crowd"], .wb],
    rcat [.wb, rstr "school", wsPlus, rstr "shoot", ralt [rstr "ing", rstr "er"], .wb],
    rcat [.wb, rstr "mass", wsPlus,
          ralt [rstr "shooting", rstr "murder", rstr "violence", rstr "attack"], .wb],
    rcat [.wb, ralt [rcat [rstr "blow", wsPlus, rstr "up"], rstr "bomb", rstr "detonate"],
          wsPlus, ropt (rcat [rstr "a", wsPlus]),
          ralt [rstr "school", rstr "building", rstr "place", rstr "office", rstr "train",
                rstr "bus", rstr "airport", rstr "mall", rstr "crowd"], .wb],
    rcat [.wb, ralt [rstr "knife", rstr "stab"], wsPlus,
          ralt [rstr "people", rstr "others", rstr "someone", rstr "them", rstr "classmates"], .wb],
    rcat [.wb, ralt [rstr "assault", rstr "rape"], wsPlus,
          ralt [rstr "someone", rstr "people", rstr "her", rstr "him", rstr "them"], .wb] ]

/-- `_self_harm_re.search(t)` truthiness (the compiled `|`-join of the battery). -/
def selfHarmSearch (t : Str) : Bool := selfHarmPatterns.any (fun r => rxSearch r t)

/-- `_other_harm_re.search(t)` truthiness. -/
def otherHarmSearch (t : Str) : Bool := otherHarmPatterns.any (fun r => rxSearch r t)

/-- Python substring containment `needle in hay`. -/
def occursIn (needle : Str) : Str → Bool
  | [] => needle.isPrefixOf []
  | c :: t => needle.isPrefixOf (c :: t) || occursIn needle t

/-- `_fast_other_harm_hits` (safety.py:94-103). -/
def fastOtherHarmHits (t : Str) : Bool :=
  (occursIn "im danger".toList t || occursIn "i am danger".toList t ||
   occursIn "im dangerous".toList t || occursIn "i am dangerous".toList t) ||
  (occursIn "im a danger".toList t || occursIn "i am a danger".toList t ||
   occursIn "im a threat".toList t || occursIn "i am a threat".toList t) ||
  ((["danger to", "dangerous to", "threat to"].any (fun kw => occursIn kw.toList t)) &&
   (["others", "people", "everyone", "someone", "them", "him", "her", "public",
     "classmates", "coworkers", "family"].any (fun trg => occursIn trg.toList t)))

/-- The crisis verdict. -/
inductive Crisis where
  | none
  | self_harm
  | other_harm
deriving DecidableEq, Repr

/-- `detect_crisis` (safety.py:155-173). -/
def detectCrisis (userText : Str) : Crisis :=
  if userText = [] then .none
  else
    let n := pyNormalize userText
    let e := expandSlang n
    if fastOtherHarmHits e then .other_harm
    else if selfHarmSearch e then .self_harm
    else if otherHarmSearch e then .other_harm
    else if occursIn "kill myself".toList e &&
            !(occursIn "microsoft kms".toList e) &&
            !(occursIn "key management service".toList e) then .self_harm
    else .none

/-- `detect_crisis_with_moderation` (safety.py:175-181), with the optional
LLM moderation verdict supplied as an oracle value (`Option.none` models
"moderation disabled / failed / no opinion"). -/
def detectCrisisWithModeration (modOracle : Option Crisis) (userText : Str) : Crisis :=
  let rule := detectCrisis userText
  if rule ≠ .none then rule
  else modOracle.getD .none

/-! ### Orchestrator (orchestrator.py) -/

/-- One history message (`{role, content}` dict). -/
structure Msg where
  role : Str
  content : Str

/-- `CRISIS_MESSAGE` (orchestrator.py:19-23). -/
def CRISIS_MESSAGE : Str :=
  ("I’m really concerned about safety here. I can’t help with anything that could put " ++
   "you or others at risk. Please contact local emergency services or a crisis hotline right now. " ++
   "If you can, reach out to someone you trust so you’re not alone.").toList

/-- `TurnState` (orchestrator.py:25-33). -/
structure TurnState where
  user_text : Str
  history : List Msg
  crisis : Crisis := .none
  mood : Str := "neutral".toList
  strategy : Str := []
  encouragement : Str := []
  advice_given : Bool := false

/-- `UNSAFE_HINTS` (orchestrator.py:39-42). -/
def UNSAFE_HINTS : List Str :=
  ["kill", "suicide", "stab", "shoot", "harm", "hurt", "explode", "bomb",
   "attack", "poison", "unalive"].map String.toList

/-- `_likely_unsafe` (orchestrator.py:44-46). -/
def likelyUnsafe (s : Str) : Bool :=
  UNSAFE_HINTS.any (fun k => occursIn k (lowerStr s))

/-- Python `str.rstrip()` (ASCII whitespace). -/
def rstripWs (s : Str) : Str := (s.reverse.dropWhile isWsChar).reverse

/-- `validate_and_repair` (orchestrator.py:72-110). -/
def validateAndRepair (st : TurnState) : TurnState :=
  if st.crisis ≠ .none then
    { st with mood := "unknown".toList, strategy := [],
              encouragement := CRISIS_MESSAGE, advice_given := false }
  else if likelyUnsafe st.strategy || likelyUnsafe st.encouragement then
    { st with crisis := .self_harm, mood := "unknown".toList, strategy := [],
              encouragement := CRISIS_MESSAGE, advice_given := false }
  else
    let st1 :=
      if st.advice_given ∧ st.strategy ≠ [] ∧
         ¬(occursIn (lowerStr (st.strategy.take 20)) (lowerStr st.encouragement) = true) then
        { st with encouragement :=
            rstripWs st.encouragement ++ "\n\nWhy this:\n- ".toList ++ st.strategy }
      else st
    if st1.advice_given = false then { st1 with strategy := [] } else st1

/-! Gate regexes (orchestrator.py:49-56), compiled with `re.I`; searching the
lowercased text models the case-insensitive flag on ASCII input. -/

def reHelp : Rx :=
  rcat [.wb, ralt [rstr "help", rstr "what should i do", rstr "advice", rstr "suggest",
                   rstr "tip", rstr "how do i", rstr "can you help", rstr "how to"], .wb]

def reQword : Rx :=
  rcat [.wb, ralt [rstr "what", rstr "how", rstr "why", rstr "when", rstr "where", rstr "who",
                   rstr "should", rstr "could", rstr "can", rstr "would", rstr "will",
                   rstr "do", rstr "did", rstr "am", rstr "is", rstr "are",
                   rstr "may", rstr "might"], .wb]

def reAskName : Rx :=
  rcat [.wb,
        ralt [rcat [rstr "what", ralt [rcat [ropt (.lit aposC), .lit 's'], rstr " is"],
                    wsPlus, rstr "your", wsPlus, rstr "name"],
              rcat [rstr "who", wsPlus, rstr "are", wsPlus, rstr "you"]],
        .wb]

def reSmall : Rx :=
  rcat [.wb, ralt [rstr "how are you",
                   rcat [rstr "what", ropt (.lit aposC), rstr "s up"],
                   rstr "wyd"], .wb]

def reDistress : Rx :=
  rcat [.wb,
        ralt [rstr "stress", rstr "stressed", rstr "overwhelm", rstr "overwhelmed",
              rstr "anxious", rstr "anxiety", rstr "panic", rstr "sad", rstr "down",
              rstr "depress", rstr "lonely", rstr "alone", rstr "angry", rstr "upset",
              rstr "worried", rstr "scared", rstr "afraid", rstr "tired", rstr "exhausted",
              rcat [rstr "burn", ralt [rstr "ed", rstr "t"], .wb],
              rcat [rstr "can", ropt (.cls (fun c => c ≠ '\n')), .lit 't', wsPlus,
                    ralt [rstr "cope", rstr "focus", rstr "sleep"]]]]

/-- Python `str.split()` with no argument: split on whitespace runs,
dropping empty pieces (scan accumulating the current word reversed). -/
def splitWsGo (cur : Str) : Str → List Str
  | [] => if cur = [] then [] else [cur.reverse]
  | c :: t =>
    if isWsChar c then
      if cur = [] then splitWsGo [] t else cur.reverse :: splitWsGo [] t
    else splitWsGo (c :: cur) t

def splitWs (s : Str) : List Str := splitWsGo [] s

/-- `_should_offer_step` (orchestrator.py:112-144). -/
def shouldOfferStep (user_text mood : Str) : Bool :=
  let t := lowerStr user_text
  if rxSearch reAskName t || rxSearch reSmall t then false
  else
    let helpy := rxSearch reHelp t
    let qAbout := (occursIn "?".toList t || rxSearch reQword t) && !(rxSearch reAskName t)
    let distress := rxSearch reDistress t
    let primary := helpy || qAbout || distress
    if !primary then false
    else
      let moodL := lowerStr mood
      if (moodL = "joy".toList || moodL = "optimism".toList) && !helpy then false
      else if (splitWs t).length < 5 then false
      else true

/-- `_safety_summary` (orchestrator.py:61-70); the `re.I` distress search on
the raw text is modeled by searching its lowercasing. -/
def safetySummary (st : TurnState) : Str × Str :=
  if st.crisis = .self_harm then ("crisis_self".toList, "Self-harm risk detected".toList)
  else if st.crisis = .other_harm then ("crisis_others".toList, "Risk to others detected".toList)
  else if rxSearch reDistress (lowerStr st.user_text) then
    ("watch".toList, "Tense or distressed language".toList)
  else ("safe".toList, "No crisis indicators found".toList)

/-- The dict returned by `best_strategy_entry` (skillcards.py:285-315). -/
structure Entry where
  tag : Str
  label : Str
  step : Str
  source_name : Str
  source_url : Str

/-- The dict returned by `run_pipeline` (orchestrator.py:149-268). -/
structure PipelineResult where
  mood : Str
  strategy : Str
  encouragement : Str
  crisis_detected : Bool
  safety : Str × Str
  advice_given : Bool
  strategy_source : Option (Str × Str)

/-- `run_pipeline` (orchestrator.py:149-268).  External collaborators are
oracle parameters: `modOracle` is the optional LLM moderation verdict,
`moodRes` the `detect_mood` result, `entry` the `best_strategy_entry`
result, `converseMsg`/`encourageMsg` the generated texts, and
`criticOk`/`criticMsg` the critic verdict. -/
def runPipeline (modOracle : Option Crisis) (moodRes : Str) (entry : Option Entry)
    (converseMsg encourageMsg : Str) (criticOk : Bool) (criticMsg : Str)
    (user_text : Str) (history : List Msg) : PipelineResult :=
  let st0 : TurnState := { user_text := user_text, history := history }
  let crisis1 := detectCrisisWithModeration modOracle user_text
  if crisis1 ≠ .none then
    let st := validateAndRepair { st0 with crisis := crisis1 }
    ⟨st.mood, st.strategy, st.encouragement, true, safetySummary st, st.advice_given, none⟩
  else
    let mood := if moodRes = [] then "neutral".toList else moodRes
    let st1 : TurnState := { st0 with crisis := crisis1, mood := mood }
    let branch : Str × Bool × Option (Str × Str) × Str :=
      if shouldOfferStep user_text mood then
        match entry with
        | some e =>
          (e.step, true, some (e.source_name, e.source_url),
           "Based on what you shared, a tiny next step you could try is:\n\n- ".toList ++
           e.step ++
           "\n\nIf that doesn’t fit, tell me what feels hard and we’ll adjust it together.".toList)
        | none => ([], false, none, converseMsg)
      else ([], false, none, converseMsg)
    let st2 : TurnState := { st1 with strategy := branch.1, advice_given := branch.2.1 }
    let src := branch.2.2.1
    if detectCrisis st2.strategy ≠ .none then
      let st := validateAndRepair { st2 with crisis := .self_harm }
      ⟨st.mood, st.strategy, st.encouragement, true, safetySummary st, st.advice_given, src⟩
    else
      let st3 : TurnState := { st2 with encouragement := encourageMsg }
      if criticOk = false then
        let st := validateAndRepair { st3 with crisis := .self_harm }
        ⟨st.mood, st.strategy, st.encouragement, true, safetySummary st, st.advice_given, src⟩
      else
        let st4 : TurnState := { st3 with encouragement := criticMsg }
        let st := validateAndRepair st4
        ⟨st.mood, st.strategy, st.encouragement, decide (st.crisis ≠ .none),
         safetySummary st, st.advice_given, src⟩

/-! ### Mood estimator (agents/mood.py)

Scores are modeled over `ℚ` (the Python floats); the Hugging Face pipeline
call is an oracle `pipe : Str → Except Unit (List (Str × ℚ))` whose
`.error` value models a raised exception.  mood.py contains no
`try`/`except`, so in the embedding every failure simply propagates
through the `Except` bind. -/

/-- An insertion-ordered dict of rational scores. -/
abbrev ScoreDict := List (Str × ℚ)

def dGet (d : ScoreDict) (k : Str) : ℚ :=
  ((d.find? (fun p => decide (p.1 = k))).map (·.2)).getD 0

def dSet (d : ScoreDict) (k : Str) (v : ℚ) : ScoreDict :=
  if d.any (fun p => decide (p.1 = k)) then
    d.map (fun p => if p.1 = k then (k, v) else p)
  else d ++ [(k, v)]

def dTotal (d : ScoreDict) : ℚ := (d.map (·.2)).sum

/-- `LABEL_MAP` (mood.py:8-15). -/
def LABEL_MAP : List (Str × Str) :=
  [("anger", "anger"), ("disgust", "anger"), ("fear", "distress"),
   ("sadness", "sadness"), ("joy", "joy"), ("neutral", "neutral")].map
    (fun p => (p.1.toList, p.2.toList))

/-- `_map_label` (mood.py:50-51). -/
def mapLabel (lbl : Str) : Str :=
  (((LABEL_MAP.find? (fun p => decide (p.1 = lowerStr lbl))).map (·.2)).getD "neutral".toList)

/-- `_scores_for` (mood.py:53-60): call the model, bucket the labels, and
normalize.  A model exception propagates (there is no handler). -/
def scoresFor (pipe : Str → Except Unit (List (Str × ℚ))) (text : Str) :
    Except Unit ScoreDict := do
  let raw ← pipe text
  let out := raw.foldl
    (fun acc item => dSet acc (mapLabel item.1) (dGet acc (mapLabel item.1) + item.2)) []
  let total := dTotal out
  let total := if total = 0 then 1 else total
  pure (out.map (fun p => (p.1, p.2 / total)))

/-- `_apply_emoji_prior` (mood.py:31-43).  The emoji table is a parameter
(`prior : List (Str × List Char)`, bucket ↦ emoji characters). -/
def applyEmojiPrior (prior : List (Str × List Char)) (scores : ScoreDict) (text : Str) :
    ScoreDict :=
  match prior.find? (fun b => b.2.any (fun e => text.contains e)) with
  | Option.none => scores
  | some b =>
    let s2 := dSet scores b.1 (dGet scores b.1 + 1/10)
    let total := dTotal s2
    if 0 < total then s2.map (fun p => (p.1, p.2 / total)) else s2

/-- `_blend_with_decay` (mood.py:62-82) with the default
`DECAY = 0.6` and `CURRENT_BOOST = 1.2`. -/
def blendWithDecay (probSeq : List ScoreDict) : ScoreDict :=
  let n := probSeq.length
  if h : n = 1 then probSeq.headD []
  else
    let decay : ℚ := 3/5
    let weights := (List.range n).map (fun i => decay ^ (n - 1 - i))
    let weights :=
      match weights.reverse with
      | [] => []
      | w :: ws => (ws.reverse) ++ [w * max (6/5 : ℚ) 0]
    let wsum := weights.sum
    let wsum := if wsum = 0 then 1 else wsum
    let weights := weights.map (· / wsum)
    let acc := (probSeq.zip weights).foldl
      (fun acc pw => pw.1.foldl (fun a kv => dSet a kv.1 (dGet a kv.1 + pw.2 * kv.2)) acc) []
    let total := dTotal acc
    let total := if total = 0 then 1 else total
    acc.map (fun p => (p.1, p.2 / total))

/-- `sorted(blended.items(), key=lambda kv: kv[1], reverse=True)`:
stable sort, descending by score. -/
def sortRank (d : ScoreDict) : ScoreDict :=
  d.mergeSort (fun a b => decide (b.2 ≤ a.2))

/-- `detect_mood_plus` (mood.py:84-119) with the default
`CONF_THRESHOLD = 0.55` and `HISTORY_K = 5`.  The empty ranking case
models the `rank[0]` `IndexError`. -/
def detectMoodPlus (pipe : Str → Except Unit (List (Str × ℚ)))
    (prior : List (Str × List Char)) (text : Str) (histTexts : List Str) :
    Except Unit (Str × ℚ × List (Str × ℚ)) :=
  if text = [] ∨ stripWs text = [] then
    .ok ("neutral".toList, 1, [("neutral".toList, 1)])
  else do
    let s ← scoresFor pipe text
    let current := applyEmojiPrior prior s text
    let window := histTexts.drop (histTexts.length - 5)
    let seqH ← (window.filter (fun h => h ≠ [] ∧ stripWs h ≠ [])).mapM (scoresFor pipe)
    let seq := seqH ++ [current]
    let blended := if 1 < seq.length then blendWithDecay seq else current
    let rank := sortRank blended
    match rank with
    | [] => .error ()
    | top :: _ =>
      let label := if (11 : ℚ)/20 ≤ top.2 then top.1 else "neutral".toList
      .ok (label, top.2, rank.take 3)

/-! ### Strategy retriever (agents/skillcards.py)

The BM25-lite floating-point score (`_score`/`_idf`, skillcards.py:114-188)
is abstracted as a parameter `score : Card → ℚ`: the ranking, duplicate
suppression, anti-repetition and padding logic hold for every scoring
function, and Python floats have no exact embedding. -/

/-- A card as stored in the index / returned by the ranker. -/
structure Card where
  tag : Str
  label : Str
  step : Str
  why : Str

/-- `FALLBACK_CARDS` (skillcards.py:10-29), as `{tag, label, step}`. -/
def FALLBACK_CARDS : List Card :=
  [⟨"breathing".toList, "Box Breathing (1 min)".toList,
    "Inhale 4, hold 4, exhale 4, hold 4 — repeat 4 times.".toList, []⟩,
   ⟨"grounding".toList, "5–4–3–2–1 Grounding".toList,
    "Name 5 things you see, 4 you can touch, 3 you hear, 2 you smell, 1 you taste.".toList, []⟩,
   ⟨"hydrate".toList, "Hydration reset".toList,
    "Drink a glass of water and notice the temperature for a few sips.".toList, []⟩,
   ⟨"stretch".toList, "Shoulder release".toList,
    "Unclench your jaw and roll your shoulders slowly for 60 seconds.".toList, []⟩,
   ⟨"microtask".toList, "2-minute start".toList,
    "Pick a 2-minute task and start it badly—momentum matters.".toList, []⟩,
   ⟨"exam".toList, "10-minute focus".toList,
    "Set a 10-minute timer and review just one small section.".toList, []⟩,
   ⟨"relationship".toList, "Soften & pause".toList,
    "Step away for 2 minutes, breathe, then write one need in one sentence.".toList, []⟩,
   ⟨"sleep".toList, "Dim & breathe".toList,
    "Dim your screen and take 5 slow breaths before the next step.".toList, []⟩,
   ⟨"walk".toList, "Window / step away".toList,
    "Look out a window or walk for 2 minutes and notice 3 details.".toList, []⟩]

/-- `_last_tag_from_history` (skillcards.py:193-203). -/
def lastTagScan (index : List Card) : List Msg → Option Str
  | [] => Option.none
  | m :: rest =>
    if m.role ≠ "assistant".toList then lastTagScan index rest
    else
      match index.find? (fun d => occursIn (lowerStr d.step) (lowerStr m.content)) with
      | some d => some d.tag
      | Option.none => lastTagScan index rest

def lastTagFromHistory (index : List Card) (history : List Msg) : Option Str :=
  lastTagScan index history.reverse

/-- The main selection walk of `rank_strategies_from_db`
(skillcards.py:240-255): skip the last-suggested tag and already-seen tags,
stop after `k` cards.  Returns the collected cards and the final `seen`
set (as an insertion-ordered list). -/
def mainSelect (lastTag : Option Str) (k : Nat) :
    List Card → List Str → Nat → List Card × List Str
  | [], seen, _ => ([], seen)
  | d :: rest, seen, outLen =>
    if lastTag = some d.tag then mainSelect lastTag k rest seen outLen
    else if seen.any (fun s => decide (s = d.tag)) then mainSelect lastTag k rest seen outLen
    else if k ≤ outLen + 1 then ([d], d.tag :: seen)
    else
      let r := mainSelect lastTag k rest (d.tag :: seen) (outLen + 1)
      (d :: r.1, r.2)

/-- The append-back step (skillcards.py:257-261). -/
def appendBack (ranked : List Card) (lastTag : Option Str) (seen : List Str)
    (out : List Card) (k : Nat) : List Card :=
  if decide (out.length < k) && (match lastTag with | some t => !t.isEmpty | Option.none => false) then
    match ranked.find? (fun d =>
        decide (lastTag = some d.tag) && !(seen.any (fun s => decide (s = d.tag)))) with
    | some d => out ++ [d]
    | Option.none => out
  else out

/-- The fallback padding loop (skillcards.py:263-269). -/
def padFallback (k : Nat) : List Card → List Str → Nat → List Card
  | [], _, _ => []
  | c :: rest, seen, outLen =>
    if seen.any (fun s => decide (s = c.tag)) then padFallback k rest seen outLen
    else if k ≤ outLen + 1 then [⟨c.tag, c.label, c.step, []⟩]
    else ⟨c.tag, c.label, c.step, []⟩ :: padFallback k rest (c.tag :: seen) (outLen + 1)

/-- `rank_strategies_from_db` (skillcards.py:208-270) given the built index
and the scoring function.  `sorted(..., key=score, reverse=True)` is the
stable descending sort. -/
def rankStrategiesFromDb (score : Card → ℚ) (index : List Card)
    (history : List Msg) (k : Nat) : List Card :=
  let ranked := index.mergeSort (fun a b => decide (score b ≤ score a))
  let lastTag := lastTagFromHistory index history
  let ms := mainSelect lastTag k ranked [] 0
  let out := appendBack ranked lastTag ms.2 ms.1 k
  if out.length < k then out ++ padFallback k FALLBACK_CARDS ms.2 out.length
  else out

/-! ### Helper lemmas about substring occurrence -/

lemma occursIn_iff (k u : Str) : occursIn k u = true ↔ ∃ a b, u = a ++ (k ++ b) := by
  induction u with
  | nil =>
    simp only [occursIn, List.isPrefixOf_iff_prefix]
    constructor
    · intro h
      rcases List.prefix_nil.mp h with rfl
      exact ⟨[], [], rfl⟩
    · rintro ⟨a, b, h⟩
      have h2 := h.symm
      rw [List.append_eq_nil] at h2
      rw [List.append_eq_nil] at h2
      rcases h2 with ⟨-, rfl, -⟩
      exact List.nil_prefix
  | cons c t ih =>
    simp only [occursIn, Bool.or_eq_true, List.isPrefixOf_iff_prefix, ih]
    constructor
    · rintro (⟨b, hb⟩ | ⟨a, b, rfl⟩)
      · exact ⟨[], b, by simp [hb]⟩
      · exact ⟨c :: a, b, rfl⟩
    · rintro ⟨a, b, h⟩
      cases a with
      | nil => exact Or.inl ⟨b, by simpa using h.symm⟩
      | cons a0 a' =>
        rw [List.cons_append] at h
        rw [List.cons.injEq] at h
        exact Or.inr ⟨a', b, h.2⟩

lemma occursIn_append_of_right {k v : Str} (u : Str) (h : occursIn k v = true) :
    occursIn k (u ++ v) = true := by
  rcases (occursIn_iff k v).mp h with ⟨a, b, rfl⟩
  exact (occursIn_iff _ _).mpr ⟨u ++ a, b, by simp⟩

lemma occursIn_append_of_left {k u : Str} (v : Str) (h : occursIn k u = true) :
    occursIn k (u ++ v) = true := by
  rcases (occursIn_iff k u).mp h with ⟨a, b, rfl⟩
  exact (occursIn_iff _ _).mpr ⟨a, b ++ v, by simp⟩

lemma occursIn_of_prefix {k u w : Str} (h : occursIn k u = true) (hp : u <+: w) :
    occursIn k w = true := by
  rcases hp with ⟨rest, rfl⟩
  exact occursIn_append_of_left rest h

lemma occursIn_take (w : Str) (n : Nat) : occursIn (w.take n) w = true :=
  (occursIn_iff _ _).mpr ⟨[], w.drop n, by simp⟩

/-- An occurrence in `u ++ v` lies in `u`, lies in `v`, or spans the seam. -/
lemma occursIn_append_cases {k u v : Str} (h : occursIn k (u ++ v) = true) :
    occursIn k u = true ∨ occursIn k v = true ∨
      ∃ k1 k2, k = k1 ++ k2 ∧ k1 ≠ [] ∧ k2 ≠ [] ∧ k1 <:+ u ∧ k2 <+: v := by
  rcases (occursIn_iff k (u ++ v)).mp h with ⟨a, b, hab⟩
  by_cases hau : u.length ≤ a.length
  · -- the occurrence starts at or after the end of `u`: it lies in `v`
    have hu : u <+: a := by
      have h1 : u <+: u ++ v := ⟨v, rfl⟩
      have h2 : a <+: u ++ v := ⟨k ++ b, by simpa using hab.symm⟩
      exact List.prefix_of_prefix_length_le h1 h2 hau
    rcases hu with ⟨a', rfl⟩
    have h3 : u ++ v = u ++ (a' ++ (k ++ b)) := by simpa [List.append_assoc] using hab
    exact Or.inr (Or.inl ((occursIn_iff _ _).mpr ⟨a', b, List.append_cancel_left h3⟩))
  · push_neg at hau
    by_cases hak : a.length + k.length ≤ u.length
    · -- the occurrence ends inside `u`
      have hu : a ++ k <+: u := by
        have h1 : a ++ k <+: u ++ v := ⟨b, by simpa [List.append_assoc] using hab.symm⟩
        have h2 : u <+: u ++ v := ⟨v, rfl⟩
        exact List.prefix_of_prefix_length_le h1 h2 (by simpa using hak)
      rcases hu with ⟨rest, hrest⟩
      exact Or.inl ((occursIn_iff _ _).mpr ⟨a, rest, by simpa [List.append_assoc] using hrest.symm⟩)
    · -- the occurrence spans the seam
      push_neg at hak
      refine Or.inr (Or.inr ⟨k.take (u.length - a.length), k.drop (u.length - a.length),
        (List.take_append_drop _ _).symm, ?_, ?_, ?_, ?_⟩)
      · have hlen : (k.take (u.length - a.length)).length = u.length - a.length := by
          rw [List.length_take]
          omega
        intro hnil
        rw [hnil] at hlen
        simp at hlen
        omega
      · have hlen : (k.drop (u.length - a.length)).length = k.length - (u.length - a.length) := by
          rw [List.length_drop]
        intro hnil
        rw [hnil] at hlen
        simp at hlen
        omega
      · -- `k.take (u.length - a.length)` is a suffix of `u`
        have hu : u = a ++ k.take (u.length - a.length) := by
          have h1 : (u ++ v).take u.length = u := by simp
          rw [hab] at h1
          rw [List.take_append_eq_append_take] at h1
          have ha : a.take u.length = a := List.take_of_length_le (le_of_lt hau)
          rw [ha] at h1
          rw [List.take_append_eq_append_take] at h1
          have hkt : (k.take (u.length - a.length)).length = u.length - a.length := by
            rw [List.length_take]
            omega
          have hb0 : u.length - a.length - k.length = 0 := by omega
          rw [hb0] at h1
          simpa using h1.symm
        exact ⟨a, hu.symm⟩
      · -- `k.drop (u.length - a.length)` is a prefix of `v`
        have hv : v = k.drop (u.length - a.length) ++ b := by
          have h1 : (u ++ v).drop u.length = v := by simp
          rw [hab] at h1
          rw [List.drop_append_eq_append_drop] at h1
          have ha : a.drop u.length = [] := by
            rw [List.drop_eq_nil_iff]
            omega
          rw [ha] at h1
          rw [List.drop_append_eq_append_drop] at h1
          have hb0 : u.length - a.length - k.length = 0 := by omega
          rw [hb0] at h1
          simpa using h1.symm
        exact ⟨b, hv.symm⟩

/-- A word containing neither newline nor space cannot occur across a
separator that starts with a newline and ends with a space: every
occurrence lies wholly in `X` or wholly in `Y`. -/
lemma occursIn_sandwich {k S : Str} (X Y : Str)
    (hS : occursIn k S = false) (hn : ('\n' : Char) ∉ k) (hsp : (' ' : Char) ∉ k)
    (hhead : S.head? = some '\n') (hlast : S.getLast? = some ' ')
    (h : occursIn k (X ++ (S ++ Y)) = true) :
    occursIn k X = true ∨ occursIn k Y = true := by
  have hSne : S ≠ [] := by
    intro h0
    rw [h0] at hhead
    cases hhead
  rcases occursIn_append_cases h with hX | hSY | ⟨k1, k2, hk, hk1, hk2, hsuf, hpre⟩
  · exact Or.inl hX
  · rcases occursIn_append_cases hSY with hS' | hY | ⟨k1, k2, hk, hk1, hk2, hsuf, hpre⟩
    · rw [hS] at hS'
      cases hS'
    · exact Or.inr hY
    · -- `k1` is a nonempty suffix of `S`, so its last character is the space
      exfalso
      rcases hsuf with ⟨w, rfl⟩
      have hl : (w ++ k1).getLast? = k1.getLast? := List.getLast?_append_of_ne_nil w hk1
      rw [hlast] at hl
      have : (' ' : Char) ∈ k1 := List.mem_of_mem_getLast? hl.symm
      exact hsp (hk ▸ List.mem_append_left _ this)
  · -- `k2` is a nonempty prefix of `S ++ Y`, so its first character is the newline
    exfalso
    rcases hpre with ⟨w, hw⟩
    have hh : (k2 ++ w).head? = k2.head? := List.head?_append_of_ne_nil k2 hk2
    rw [hw] at hh
    rw [List.head?_append_of_ne_nil S hSne] at hh
    rw [hhead] at hh
    have : ('\n' : Char) ∈ k2 := List.mem_of_mem_head? hh.symm
    exact hn (hk ▸ List.mem_append_right _ this)

lemma rstripWs_isPre (s : Str) : rstripWs s <+: s := by
  unfold rstripWs
  have h := List.dropWhile_suffix (l := s.reverse) isWsChar
  have := List.reverse_prefix.mpr h
  simpa using this

/-- The lowered echo separator. -/
lemma lowerStr_echoSep :
    lowerStr "\n\nWhy this:\n- ".toList = "\n\nwhy this:\n- ".toList := by decide

/-- Appending the strategy echo cannot introduce an unsafe hint:
the hints are space- and newline-free words, so the occurrence would have
to lie in the (hint-free) separator or in one of the two safe parts. -/
lemma likelyUnsafe_echo {enc strat : Str}
    (he : likelyUnsafe enc = false) (hs : likelyUnsafe strat = false) :
    likelyUnsafe (rstripWs enc ++ "\n\nWhy this:\n- ".toList ++ strat) = false := by
  unfold likelyUnsafe at *
  rw [List.any_eq_false] at *
  intro k hk
  intro hcon
  have hassoc : rstripWs enc ++ "\n\nWhy this:\n- ".toList ++ strat =
      rstripWs enc ++ ("\n\nWhy this:\n- ".toList ++ strat) := by
    rw [List.append_assoc]
  rw [hassoc] at hcon
  unfold lowerStr at hcon
  rw [List.map_append, List.map_append] at hcon
  have hsepl : List.map lowerC "\n\nWhy this:\n- ".toList = "\n\nwhy this:\n- ".toList :=
    lowerStr_echoSep
  rw [hsepl] at hcon
  have hXe : occursIn k (List.map lowerC (rstripWs enc)) = true →
      occursIn k (lowerStr enc) = true := fun hx =>
    occursIn_of_prefix hx (List.IsPrefix.map lowerC (rstripWs_isPre enc))
  have key : occursIn k (List.map lowerC (rstripWs enc)) = true ∨
      occursIn k (List.map lowerC strat) = true := by
    fin_cases hk <;>
      exact occursIn_sandwich _ _ (by decide) (by decide) (by decide) (by decide) (by decide) hcon
  rcases key with hx | hy
  · exact (he k hk) (hXe hx)
  · exact (hs k hk) (by simpa [lowerStr] using hy)

/-! ### Branch characterizations of `validate_and_repair` -/

lemma likelyUnsafe_nil : likelyUnsafe [] = false := by decide

lemma vr_crisis (st : TurnState) (h : st.crisis ≠ Crisis.none) :
    validateAndRepair st =
      { st with mood := "unknown".toList, strategy := [],
                encouragement := CRISIS_MESSAGE, advice_given := false } := by
  unfold validateAndRepair
  rw [if_pos h]

lemma vr_flagged (st : TurnState) (h0 : st.crisis = Crisis.none)
    (h : (likelyUnsafe st.strategy || likelyUnsafe st.encouragement) = true) :
    validateAndRepair st =
      { st with crisis := Crisis.self_harm, mood := "unknown".toList, strategy := [],
                encouragement := CRISIS_MESSAGE, advice_given := false } := by
  unfold validateAndRepair
  rw [if_neg (by simp [h0]), if_pos h]

lemma vr_main_false (st : TurnState) (h0 : st.crisis = Crisis.none)
    (h : (likelyUnsafe st.strategy || likelyUnsafe st.encouragement) = false)
    (ha : st.advice_given = false) :
    validateAndRepair st = { st with strategy := [] } := by
  unfold validateAndRepair
  rw [if_neg (by simp [h0]), if_neg (by simp [h])]
  have hecho : ¬(st.advice_given = true ∧ st.strategy ≠ [] ∧
      ¬occursIn (lowerStr (List.take 20 st.strategy)) (lowerStr st.encouragement) = true) := by
    rintro ⟨hA, -, -⟩
    simp [ha] at hA
  rw [if_neg hecho]
  rw [if_pos ha]

lemma vr_fix (st : TurnState) (h0 : st.crisis = Crisis.none)
    (h : (likelyUnsafe st.strategy || likelyUnsafe st.encouragement) = false)
    (ha : st.advice_given = true)
    (hcon : st.strategy = [] ∨
      occursIn (lowerStr (st.strategy.take 20)) (lowerStr st.encouragement) = true) :
    validateAndRepair st = st := by
  unfold validateAndRepair
  rw [if_neg (by simp [h0]), if_neg (by simp [h])]
  have hecho : ¬(st.advice_given = true ∧ st.strategy ≠ [] ∧
      ¬occursIn (lowerStr (List.take 20 st.strategy)) (lowerStr st.encouragement) = true) := by
    rintro ⟨-, hB, hC⟩
    rcases hcon with hc | hc
    · exact hB hc
    · exact hC hc
  rw [if_neg hecho]
  rw [if_neg (by simp [ha])]

lemma vr_main_append (st : TurnState) (h0 : st.crisis = Crisis.none)
    (h : (likelyUnsafe st.strategy || likelyUnsafe st.encouragement) = false)
    (ha : st.advice_given = true) (hs : st.strategy ≠ [])
    (hc : occursIn (lowerStr (st.strategy.take 20)) (lowerStr st.encouragement) = false) :
    validateAndRepair st =
      { st with encouragement :=
          rstripWs st.encouragement ++ "\n\nWhy this:\n- ".toList ++ st.strategy } := by
  unfold validateAndRepair
  rw [if_neg (by simp [h0]), if_neg (by simp [h])]
  have hecho : st.advice_given = true ∧ st.strategy ≠ [] ∧
      ¬occursIn (lowerStr (List.take 20 st.strategy)) (lowerStr st.encouragement) = true :=
    ⟨ha, hs, by simp [hc]⟩
  rw [if_pos hecho]
  rw [if_neg (by simp [ha])]

/-- The echoed message contains the lowered 20-character prefix of the strategy. -/
lemma occursIn_echo_prefix (enc strat : Str) :
    occursIn (lowerStr (strat.take 20))
      (lowerStr (rstripWs enc ++ "\n\nWhy this:\n- ".toList ++ strat)) = true := by
  unfold lowerStr
  rw [List.map_append]
  apply occursIn_append_of_right
  rw [List.map_take]
  exact occursIn_take _ _

/-! ### Claim theorems -/

/-- C10: the final validate-and-repair pass is idempotent: applying
`validate_and_repair` twice yields the same state as applying it once;
in particular the strategy-echo append is never performed a second time
and the crisis override is a fixed point. -/
theorem validateAndRepair_idempotent (st : TurnState) :
    validateAndRepair (validateAndRepair st) = validateAndRepair st := by
  by_cases h1 : st.crisis = Crisis.none
  case neg =>
    rw [vr_crisis st h1]
    rw [vr_crisis _ (by simpa using h1)]
  case pos =>
    by_cases h2 : (likelyUnsafe st.strategy || likelyUnsafe st.encouragement) = true
    · rw [vr_flagged st h1 h2]
      rw [vr_crisis _ (by simp)]
    · rw [Bool.not_eq_true] at h2
      by_cases ha : st.advice_given = true
      case neg =>
        rw [Bool.not_eq_true] at ha
        rw [vr_main_false st h1 h2 ha]
        rw [vr_main_false _ (by simpa using h1)
          (by simpa [likelyUnsafe_nil] using (Bool.or_eq_false_iff.mp h2).2) (by simpa using ha)]
      case pos =>
        by_cases hs : st.strategy = []
        · rw [vr_fix st h1 h2 ha (Or.inl hs), vr_fix st h1 h2 ha (Or.inl hs)]
        · by_cases hc : occursIn (lowerStr (st.strategy.take 20)) (lowerStr st.encouragement) = true
          · rw [vr_fix st h1 h2 ha (Or.inr hc), vr_fix st h1 h2 ha (Or.inr hc)]
          · rw [Bool.not_eq_true] at hc
            rw [vr_main_append st h1 h2 ha hs hc]
            have h2' := Bool.or_eq_false_iff.mp h2
            refine vr_fix _ (by simpa using h1) ?_ (by simpa using ha) ?_
            · simp only [Bool.or_eq_false_iff]
              exact ⟨h2'.1, likelyUnsafe_echo h2'.2 h2'.1⟩
            · exact Or.inr (by simpa using occursIn_echo_prefix st.encouragement st.strategy)

/-- C4 counterexample: a state with `advice_given = true` and an empty
strategy passes the final repair unchanged — the claim that
`advice_given = true` forces a non-empty `chosen_strategy` after repair is
false on the code. -/
theorem validateAndRepair_advice_empty_cex :
    (validateAndRepair ⟨[], [], Crisis.none, "joy".toList, [], "hello".toList, true⟩).advice_given = true ∧
    (validateAndRepair ⟨[], [], Crisis.none, "joy".toList, [], "hello".toList, true⟩).strategy = [] := by
  constructor <;> decide

/-- C4 (amended): after the final validate-and-repair pass, if
`advice_given` is false then `chosen_strategy` is forced to the empty
string; if `advice_given` is true and `chosen_strategy` is non-empty then
the final message contains the lowered 20-character prefix of the chosen
strategy, and when the containment check failed before the pass the repair
appended the strategy verbatim exactly once.  (`advice_given = true` does
not force the strategy to be non-empty.) -/
theorem validateAndRepair_advice_invariant (st : TurnState) :
    ((validateAndRepair st).advice_given = false → (validateAndRepair st).strategy = []) ∧
    ((validateAndRepair st).advice_given = true → (validateAndRepair st).strategy ≠ [] →
      occursIn (lowerStr ((validateAndRepair st).strategy.take 20))
        (lowerStr (validateAndRepair st).encouragement) = true) ∧
    (st.crisis = Crisis.none →
     (likelyUnsafe st.strategy || likelyUnsafe st.encouragement) = false →
     st.advice_given = true → st.strategy ≠ [] →
     occursIn (lowerStr (st.strategy.take 20)) (lowerStr st.encouragement) = false →
     (validateAndRepair st).encouragement =
       rstripWs st.encouragement ++ "\n\nWhy this:\n- ".toList ++ st.strategy) := by
  by_cases h1 : st.crisis = Crisis.none
  case neg =>
    rw [vr_crisis st h1]
    exact ⟨fun _ => rfl, fun h => by simp at h, fun h0 => absurd h0 h1⟩
  case pos =>
    by_cases h2 : (likelyUnsafe st.strategy || likelyUnsafe st.encouragement) = true
    · rw [vr_flagged st h1 h2]
      exact ⟨fun _ => rfl, fun h => (by simp at h), fun _ h2' => (by rw [h2'] at h2; cases h2)⟩
    · rw [Bool.not_eq_true] at h2
      by_cases ha : st.advice_given = true
      case pos =>
        by_cases hs : st.strategy = []
        · rw [vr_fix st h1 h2 ha (Or.inl hs)]
          exact ⟨fun h => (by rw [ha] at h; cases h), fun _ h => absurd hs h,
                 fun _ _ _ h => absurd hs h⟩
        · by_cases hc : occursIn (lowerStr (st.strategy.take 20)) (lowerStr st.encouragement) = true
          · rw [vr_fix st h1 h2 ha (Or.inr hc)]
            exact ⟨fun h => (by rw [ha] at h; cases h), fun _ _ => hc,
                   fun _ _ _ _ hcf => (by rw [hcf] at hc; cases hc)⟩
          · rw [Bool.not_eq_true] at hc
            rw [vr_main_append st h1 h2 ha hs hc]
            refine ⟨fun h => by simpa [ha] using h, fun _ _ => ?_, fun _ _ _ _ _ => rfl⟩
            simpa using occursIn_echo_prefix st.encouragement st.strategy
      case neg =>
        rw [Bool.not_eq_true] at ha
        rw [vr_main_false st h1 h2 ha]
        exact ⟨fun _ => rfl, fun h => by simpa [ha] using h,
               fun _ _ ha' => by rw [ha'] at ha; cases ha⟩

/-- C4 witness for the amended invariant: a concrete state on which the
repair appends the echo once and all three conjuncts evaluate. -/
theorem validateAndRepair_advice_invariant_witness :
    (validateAndRepair ⟨[], [], Crisis.none, "sadness".toList, "Take a walk".toList, "hi there".toList, true⟩).encouragement =
      rstripWs "hi there".toList ++ "\n\nWhy this:\n- ".toList ++ "Take a walk".toList :=
  (validateAndRepair_advice_invariant _).2.2 (by decide) (by decide) (by decide)
    (by decide) (by decide)

/-- C7: the deterministic rule-based classifier is total: it is a function
defined on every string (so it cannot raise), always returns one of the
three labels, and returns `none` on the empty string. -/
theorem detectCrisis_total :
    detectCrisis [] = Crisis.none ∧
    ∀ s : Str, detectCrisis s = Crisis.none ∨ detectCrisis s = Crisis.self_harm ∨
      detectCrisis s = Crisis.other_harm := by
  refine ⟨by decide, fun s => ?_⟩
  cases hd : detectCrisis s
  · exact Or.inl rfl
  · exact Or.inr (Or.inl rfl)
  · exact Or.inr (Or.inr rfl)

/-- C2 (code bug evidence): `classify("kms")` is `self_harm` as claimed, but
`classify("renewing our microsoft kms license")` is also `self_harm`, not
the claimed `none`.  The mechanism, proved on the expanded text: slang
expansion rewrites the `kms` abbreviation to `kill myself` inside the
text, so the expanded text no longer contains `microsoft kms` — the guard
(safety.py:170) can never see its own trigger phrase — and the self-harm
battery fires at the earlier branch (safety.py:164). -/
theorem detectCrisis_kms_guard_dead :
    detectCrisis "kms".toList = Crisis.self_harm ∧
    detectCrisis "renewing our microsoft kms license".toList =
      Crisis.self_harm ∧
    expandSlang (pyNormalize "renewing our microsoft kms license".toList) =
      "renewing our microsoft kill myself license".toList ∧
    occursIn "microsoft kms".toList
      (expandSlang (pyNormalize "renewing our microsoft kms license".toList)) =
      false ∧
    selfHarmSearch
      (expandSlang (pyNormalize "renewing our microsoft kms license".toList)) =
      true := by
  refine ⟨by decide, by decide, by decide, by decide, by decide⟩

/-- C3 (code bug evidence): `detect_mood_plus` has no exception handler, so
a raising emotion-model invocation propagates to the caller instead of
being mapped to `(neutral, 0, [])`. -/
theorem detectMoodPlus_error_propagates :
    detectMoodPlus (fun _ => Except.error ()) [] "hello".toList [] = Except.error () ∧
    detectMoodPlus (fun _ => Except.error ()) [] "hello".toList [] ≠
      Except.ok ("neutral".toList, 0, []) := by
  constructor
  · rfl
  · intro h
    cases h

/-- C1: when the stage-1 risk verdict is `self_harm` or `other_harm`, the
pipeline short-circuits: the returned result has an empty strategy,
`advice_given = false`, the fixed crisis message as its final text, and
`crisis_detected = true` — no later stage runs. -/
theorem runPipeline_crisis_short_circuit
    (modOracle : Option Crisis) (moodRes : Str) (entry : Option Entry)
    (converseMsg encourageMsg : Str) (criticOk : Bool) (criticMsg : Str)
    (user_text : Str) (history : List Msg)
    (h : detectCrisisWithModeration modOracle user_text = Crisis.self_harm ∨
         detectCrisisWithModeration modOracle user_text = Crisis.other_harm) :
    (runPipeline modOracle moodRes entry converseMsg encourageMsg criticOk criticMsg
        user_text history).strategy = [] ∧
    (runPipeline modOracle moodRes entry converseMsg encourageMsg criticOk criticMsg
        user_text history).advice_given = false ∧
    (runPipeline modOracle moodRes entry converseMsg encourageMsg criticOk criticMsg
        user_text history).encouragement = CRISIS_MESSAGE ∧
    (runPipeline modOracle moodRes entry converseMsg encourageMsg criticOk criticMsg
        user_text history).crisis_detected = true := by
  have hne : detectCrisisWithModeration modOracle user_text ≠ Crisis.none := by
    rcases h with h | h <;> rw [h] <;> intro hx <;> cases hx
  unfold runPipeline
  rw [if_pos hne]
  rw [vr_crisis _ (by simpa using hne)]
  exact ⟨rfl, rfl, rfl, rfl⟩

/-- C1 witness: the rule stage fires on "kms" and the result carries the
crisis fields. -/
theorem runPipeline_crisis_short_circuit_witness :
    (detectCrisisWithModeration Option.none "kms".toList = Crisis.self_harm ∨
     detectCrisisWithModeration Option.none "kms".toList = Crisis.other_harm) ∧
    (runPipeline Option.none [] Option.none [] [] true [] "kms".toList []).encouragement =
      CRISIS_MESSAGE :=
  ⟨Or.inl (by decide),
   (runPipeline_crisis_short_circuit Option.none [] Option.none [] [] true [] "kms".toList []
      (Or.inl (by decide))).2.2.1⟩

/-- C8: an utterance with fewer than five whitespace-separated tokens never
selects the advice branch, whatever the other signals say. -/
theorem shouldOfferStep_short_false (user_text mood : Str)
    (h : (splitWs (lowerStr user_text)).length < 5) :
    shouldOfferStep user_text mood = false := by
  unfold shouldOfferStep
  dsimp only
  split_ifs with h1 h2 h3 h4 <;> first | rfl | exact absurd h h4

/-- C8 witness: a three-token explicit help request is still gated out. -/
theorem shouldOfferStep_short_false_witness :
    (splitWs (lowerStr "please help me".toList)).length < 5 ∧
    shouldOfferStep "please help me".toList "neutral".toList = false :=
  ⟨by decide, shouldOfferStep_short_false _ _ (by decide)⟩

/-- C6: when both the self-harm and the other-harm pattern families match
the expanded normalized text, the classifier returns `other_harm` exactly
when the dedicated other-harm fast-path substring checks fire, and
`self_harm` otherwise (the fast path runs first, then the self-harm
battery before the other-harm battery); the result is a single label. -/
theorem detectCrisis_precedence (s : Str)
    (hself : selfHarmSearch (expandSlang (pyNormalize s)) = true)
    (hother : otherHarmSearch (expandSlang (pyNormalize s)) = true) :
    detectCrisis s =
      (if fastOtherHarmHits (expandSlang (pyNormalize s)) then Crisis.other_harm
       else Crisis.self_harm) := by
  have hs : s ≠ [] := by
    rintro rfl
    rw [show selfHarmSearch (expandSlang (pyNormalize ([] : Str))) = false from by decide]
      at hself
    cases hself
  unfold detectCrisis
  rw [if_neg hs]
  by_cases hf : fastOtherHarmHits (expandSlang (pyNormalize s)) = true
  · simp [hf]
  · rw [Bool.not_eq_true] at hf
    simp [hf, hself]

/-- C6 witness: a message matching both batteries, with the fast path not
firing, classified as `self_harm`. -/
theorem detectCrisis_precedence_witness :
    selfHarmSearch (expandSlang (pyNormalize "i want to kill myself and kill them".toList)) = true ∧
    otherHarmSearch (expandSlang (pyNormalize "i want to kill myself and kill them".toList)) = true ∧
    detectCrisis "i want to kill myself and kill them".toList = Crisis.self_harm := by
  refine ⟨by decide, by decide, ?_⟩
  rw [detectCrisis_precedence _ (by decide) (by decide)]
  decide

/-! ### Selection-walk lemmas for the strategy ranker -/

/-- If the main walk over `ranked` with an empty `seen` set collected
nothing, every card in `ranked` carried the last-suggested tag,
and `seen` stayed empty. -/
lemma mainSelect_nil_all (lt : Option Str) (k : Nat) :
    ∀ (ranked : List Card) (n : Nat),
      (mainSelect lt k ranked [] n).1 = [] →
      (∀ d ∈ ranked, lt = some d.tag) ∧ (mainSelect lt k ranked [] n).2 = [] := by
  intro ranked
  induction ranked with
  | nil => exact fun n _ => ⟨by simp, rfl⟩
  | cons d rest ih =>
    intro n h
    by_cases hd : lt = some d.tag
    · rw [mainSelect, if_pos hd] at h ⊢
      rcases ih n h with ⟨h1, h2⟩
      refine ⟨?_, h2⟩
      intro x hx
      rcases List.mem_cons.mp hx with rfl | hx
      · exact hd
      · exact h1 x hx
    · exfalso
      rw [mainSelect, if_neg hd] at h
      rw [if_neg (by simp)] at h
      by_cases hk : k ≤ n + 1
      · rw [if_pos hk] at h
        cases h
      · rw [if_neg hk] at h
        cases h

/-- If every card carries the last-suggested tag, the main walk collects
nothing and leaves `seen` untouched. -/
lemma mainSelect_all_nil (lt : Option Str) (k : Nat) :
    ∀ (ranked : List Card) (seen : List Str) (n : Nat),
      (∀ d ∈ ranked, lt = some d.tag) →
      mainSelect lt k ranked seen n = ([], seen) := by
  intro ranked
  induction ranked with
  | nil => intro seen n _; rfl
  | cons d rest ih =>
    intro seen n hall
    rw [mainSelect, if_pos (hall d (List.mem_cons_self d rest))]
    exact ih seen n (fun x hx => hall x (List.mem_cons_of_mem d hx))

/-- The first collected card never carries the last-suggested tag. -/
lemma mainSelect_head_not_last (lt : Option Str) (k : Nat) :
    ∀ (ranked : List Card) (seen : List Str) (n : Nat) (c : Card) (out' : List Card),
      (mainSelect lt k ranked seen n).1 = c :: out' → lt ≠ some c.tag := by
  intro ranked
  induction ranked with
  | nil => intro seen n c out' h; cases h
  | cons d rest ih =>
    intro seen n c out' h
    by_cases hd : lt = some d.tag
    · rw [mainSelect, if_pos hd] at h
      exact ih seen n c out' h
    · rw [mainSelect, if_neg hd] at h
      by_cases hseen : (seen.any fun s => decide (s = d.tag)) = true
      · rw [if_pos hseen] at h
        exact ih seen n c out' h
      · rw [if_neg hseen] at h
        by_cases hk : k ≤ n + 1
        · rw [if_pos hk] at h
          simp only [List.cons.injEq] at h
          rw [← h.1]
          exact hd
        · rw [if_neg hk] at h
          simp only [List.cons.injEq] at h
          rw [← h.1]
          exact hd

/-- A last-suggested tag always names a card of the index. -/
lemma lastTagScan_mem (index : List Card) :
    ∀ (msgs : List Msg) (t : Str), lastTagScan index msgs = some t →
      ∃ d ∈ index, d.tag = t := by
  intro msgs
  induction msgs with
  | nil => intro t h; cases h
  | cons m rest ih =>
    intro t h
    rw [lastTagScan] at h
    by_cases hr : m.role ≠ "assistant".toList
    · rw [if_pos hr] at h
      exact ih t h
    · rw [if_neg hr] at h
      cases hfind : index.find? (fun d => occursIn (lowerStr d.step) (lowerStr m.content)) with
      | none => rw [hfind] at h; exact ih t h
      | some d =>
        rw [hfind] at h
        cases h
        exact ⟨d, List.mem_of_find?_eq_some hfind, rfl⟩

lemma lastTagFromHistory_mem {index : List Card} {history : List Msg} {t : Str}
    (h : lastTagFromHistory index history = some t) : ∃ d ∈ index, d.tag = t :=
  lastTagScan_mem index history.reverse t h

/-- Appending the last-suggested card back never changes a nonempty head. -/
lemma appendBack_head (ranked : List Card) (lt : Option Str) (seen : List Str)
    (c0 : Card) (out' : List Card) (k : Nat) :
    (appendBack ranked lt seen (c0 :: out') k).head? = some c0 := by
  unfold appendBack
  split_ifs
  · cases hf : ranked.find? (fun d =>
        decide (lt = some d.tag) && !(seen.any fun s => decide (s = d.tag))) with
    | none => rfl
    | some d => rfl
  · rfl

/-- C9: the ranker is deterministic, never returns the last-suggested tag in
first position unless every card of the corpus carries that tag, and in
that exhausted case the last-suggested card is the one appended back (it
leads the returned list). -/
theorem rankStrategies_anti_repeat (score : Card → ℚ) (index : List Card)
    (history : List Msg) (k : Nat) :
    (rankStrategiesFromDb score index history k =
       rankStrategiesFromDb score index history k) ∧
    (∀ t c, lastTagFromHistory index history = some t →
       (rankStrategiesFromDb score index history k).head? = some c → c.tag = t →
       ∀ d ∈ index, d.tag = t) ∧
    (∀ t, lastTagFromHistory index history = some t → t ≠ [] → 1 ≤ k →
       (∀ d ∈ index, d.tag = t) →
       ∃ c, (rankStrategiesFromDb score index history k).head? = some c ∧ c.tag = t) := by
  have hperm := List.mergeSort_perm index (fun a b => decide (score b ≤ score a))
  refine ⟨rfl, ?_, ?_⟩
  · intro t c hlt hhead htag d hd
    unfold rankStrategiesFromDb at hhead
    dsimp only at hhead
    rw [hlt] at hhead
    cases hout : (mainSelect (some t) k
        (index.mergeSort fun a b => decide (score b ≤ score a)) [] 0).1 with
    | nil =>
      have hall := (mainSelect_nil_all (some t) k _ 0 hout).1
      have hdr : d ∈ index.mergeSort (fun a b => decide (score b ≤ score a)) :=
        hperm.mem_iff.mpr hd
      exact (Option.some.inj (hall d hdr)).symm
    | cons c0 out' =>
      exfalso
      have hne := mainSelect_head_not_last (some t) k _ [] 0 c0 out' hout
      rw [hout] at hhead
      have hab := appendBack_head (index.mergeSort fun a b => decide (score b ≤ score a))
        (some t) (mainSelect (some t) k
          (index.mergeSort fun a b => decide (score b ≤ score a)) [] 0).2 c0 out' k
      set u := appendBack (index.mergeSort fun a b => decide (score b ≤ score a)) (some t)
        (mainSelect (some t) k
          (index.mergeSort fun a b => decide (score b ≤ score a)) [] 0).2 (c0 :: out') k
        with hu
      have hune : u ≠ [] := by
        intro h0
        rw [h0] at hab
        cases hab
      have hfinal : (if u.length < k then
          u ++ padFallback k FALLBACK_CARDS (mainSelect (some t) k
            (index.mergeSort fun a b => decide (score b ≤ score a)) [] 0).2 u.length
        else u).head? = some c0 := by
        split_ifs
        · rw [List.head?_append_of_ne_nil _ hune]
          exact hab
        · exact hab
      rw [hfinal] at hhead
      cases hhead
      exact hne (congrArg some htag.symm)
  · intro t hlt hne1 hk hall
    have hallr : ∀ d ∈ index.mergeSort (fun a b => decide (score b ≤ score a)),
        (some t : Option Str) = some d.tag := by
      intro d hd
      rw [hall d (hperm.mem_iff.mp hd)]
    have hms : mainSelect (some t) k
        (index.mergeSort fun a b => decide (score b ≤ score a)) [] 0 = ([], []) :=
      mainSelect_all_nil (some t) k _ [] 0 hallr
    obtain ⟨d0, hd0, hd0t⟩ := lastTagFromHistory_mem hlt
    have hd0r : d0 ∈ index.mergeSort (fun a b => decide (score b ≤ score a)) :=
      hperm.mem_iff.mpr hd0
    cases hr : index.mergeSort (fun a b => decide (score b ≤ score a)) with
    | nil =>
      rw [hr] at hd0r
      cases hd0r
    | cons r0 rr =>
      have hr0tag : r0.tag = t := by
        have := hallr r0 (by rw [hr]; exact List.mem_cons_self _ _)
        exact (Option.some.inj this).symm
      refine ⟨r0, ?_, hr0tag⟩
      unfold rankStrategiesFromDb
      dsimp only
      rw [hlt, hms]
      have hfind : (index.mergeSort fun a b => decide (score b ≤ score a)).find?
          (fun d => decide ((some t : Option Str) = some d.tag) &&
            !(([] : List Str).any fun s => decide (s = d.tag))) = some r0 := by
        rw [hr]
        exact List.find?_cons_of_pos _ (by simp [hr0tag])
      have hab : appendBack (index.mergeSort fun a b => decide (score b ≤ score a))
          (some t) [] [] k = [r0] := by
        unfold appendBack
        rw [if_pos ?side]
        case side =>
          simp only [List.length_nil, Bool.and_eq_true, decide_eq_true_eq]
          refine ⟨by omega, ?_⟩
          cases t with
          | nil => exact absurd rfl hne1
          | cons a b => simp [List.isEmpty]
        rw [hfind]
        rfl
      rw [hab]
      split_ifs
      · rw [List.head?_append_of_ne_nil _ (by simp)]
        rfl
      · rfl

/-- C9 witness: a one-card corpus whose card was just suggested — the walk
is exhausted and the card is appended back, leading the result. -/
theorem rankStrategies_anti_repeat_witness :
    lastTagFromHistory [⟨"a".toList, "l".toList, "sa".toList, "w".toList⟩]
        [⟨"assistant".toList, "try sa now".toList⟩] = some "a".toList ∧
    ∃ c, (rankStrategiesFromDb (fun _ => (0 : ℚ))
        [⟨"a".toList, "l".toList, "sa".toList, "w".toList⟩]
        [⟨"assistant".toList, "try sa now".toList⟩] 3).head? = some c ∧
      c.tag = "a".toList :=
  ⟨by decide,
   (rankStrategies_anti_repeat (fun _ => (0 : ℚ))
      [⟨"a".toList, "l".toList, "sa".toList, "w".toList⟩]
      [⟨"assistant".toList, "try sa now".toList⟩] 3).2.2 "a".toList
     (by decide) (by decide) (by decide) (by decide)⟩

/-! ### Toward C5: match positions of a word-bounded literal pattern -/

/-- `matchAt key prev t`: the pattern `\bkey\b` matches at the start of `t`,
where `prev` is the character just before `t`. -/
def matchAt (key : Str) (prev : Option Char) (t : Str) : Bool :=
  noWordAt prev && key.isPrefixOf t && noWordAt (headOpt (t.drop key.length))

/-- No position of `t` (with left context `prev`) starts a `\bkey\b` match. -/
def noLitMatch (key : Str) : Option Char → Str → Bool
  | _, [] => true
  | prev, c :: t => !(matchAt key prev (c :: t)) && noLitMatch key (some c) t

/-- The left context after scanning past `a`. -/
def ctxAfter (prev : Option Char) (a : Str) : Option Char :=
  Option.or a.getLast? prev

lemma ctxAfter_nil (prev : Option Char) : ctxAfter prev [] = prev := rfl

lemma ctxAfter_cons (prev : Option Char) (c : Char) (a : Str) :
    ctxAfter prev (c :: a) = ctxAfter (some c) a := by
  cases a with
  | nil => simp [ctxAfter]
  | cons d a2 =>
    unfold ctxAfter
    rw [List.getLast?_cons_cons]
    cases h : (d :: a2).getLast? with
    | none => simp at h
    | some x => rfl

lemma ctxAfter_append (prev : Option Char) (a b : Str) :
    ctxAfter prev (a ++ b) = ctxAfter (ctxAfter prev a) b := by
  induction a generalizing prev with
  | nil => rfl
  | cons c a2 ih => rw [List.cons_append, ctxAfter_cons, ctxAfter_cons, ih]

/-- `noLitMatch` says exactly: no decomposition of `t` exposes a match
position. -/
lemma noLitMatch_iff (key : Str) :
    ∀ (t : Str) (prev : Option Char),
      noLitMatch key prev t = true ↔
      ∀ a b, t = a ++ b → b ≠ [] → matchAt key (ctxAfter prev a) b = false := by
  intro t
  induction t with
  | nil =>
    intro prev
    simp only [noLitMatch, true_iff]
    intro a b hab hb
    have := List.append_eq_nil.mp hab.symm
    exact absurd this.2 hb
  | cons c t ih =>
    intro prev
    simp only [noLitMatch, Bool.and_eq_true, Bool.not_eq_true']
    constructor
    · rintro ⟨h0, hrest⟩ a b hab hb
      cases a with
      | nil =>
        simp only [List.nil_append] at hab
        rw [ctxAfter_nil, ← hab]
        exact h0
      | cons a0 a2 =>
        rw [List.cons_append, List.cons.injEq] at hab
        rcases hab with ⟨rfl, htb⟩
        rw [ctxAfter_cons]
        exact (ih (some c)).mp hrest a2 b htb hb
    · intro h
      refine ⟨?_, ?_⟩
      · have := h [] (c :: t) rfl (List.cons_ne_nil c t)
        rwa [ctxAfter_nil] at this
      · rw [ih (some c)]
        intro a b hab hb
        have := h (c :: a) b (by rw [hab, List.cons_append]) hb
        rwa [ctxAfter_cons] at this

/-- Join a list of fragments with a separator (own definition so the
equations are definitional). -/
def icalate (sep : Str) : List Str → Str
  | [] => []
  | [f] => f
  | f :: g :: l => f ++ sep ++ icalate sep (g :: l)

lemma icalate_cons_head (sep : Str) (c : Char) (f : Str) (l : List Str) :
    icalate sep ((c :: f) :: l) = c :: icalate sep (f :: l) := by
  cases l with
  | nil => rfl
  | cons g l2 => simp [icalate]

lemma icalate_cons_cons (sep f g : Str) (l : List Str) :
    icalate sep (f :: g :: l) = f ++ sep ++ icalate sep (g :: l) := rfl

lemma matchAt_iff (key : Str) (prev : Option Char) (t : Str) :
    matchAt key prev t = true ↔
      noWordAt prev = true ∧ key.isPrefixOf t = true ∧
      noWordAt (headOpt (t.drop key.length)) = true := by
  simp [matchAt, Bool.and_eq_true, and_assoc]

lemma subLitGo_match (key val : Str) (prev : Option Char) (c : Char) (t : Str)
    (hk : key ≠ []) (hm : matchAt key prev (c :: t) = true) :
    subLitGo key val 0 prev (c :: t) =
      (' ' :: val ++ [' ']) ++ subLitGo key val (key.length - 1) (some c) t := by
  rw [matchAt_iff] at hm
  rw [subLitGo, if_pos ⟨hm.1, hm.2.1, hm.2.2, hk⟩]

lemma subLitGo_nomatch (key val : Str) (prev : Option Char) (c : Char) (t : Str)
    (hm : matchAt key prev (c :: t) = false) :
    subLitGo key val 0 prev (c :: t) = c :: subLitGo key val 0 (some c) t := by
  rw [subLitGo, if_neg]
  rintro ⟨h1, h2, h3, -⟩
  have hcon : matchAt key prev (c :: t) = true := (matchAt_iff _ _ _).mpr ⟨h1, h2, h3⟩
  rw [hcon] at hm
  cases hm

lemma subLitGo_skip (key val : Str) :
    ∀ (n : Nat) (u : Str) (prev : Option Char), n ≤ u.length →
      subLitGo key val n prev u =
        subLitGo key val 0 (ctxAfter prev (u.take n)) (u.drop n) := by
  intro n
  induction n with
  | zero => intro u prev _; simp [ctxAfter_nil]
  | succ m ih =>
    intro u prev hle
    cases u with
    | nil => simp at hle
    | cons c t =>
      rw [List.take_succ_cons, List.drop_succ_cons, ctxAfter_cons]
      rw [subLitGo]
      exact ih t (some c) (Nat.le_of_succ_le_succ hle)

/-- On match-free text the substitution pass is the identity. -/
lemma subLitGo_id (key val : Str) :
    ∀ (t : Str) (prev : Option Char), noLitMatch key prev t = true →
      subLitGo key val 0 prev t = t := by
  intro t
  induction t with
  | nil => intro prev _; rfl
  | cons c t ih =>
    intro prev h
    rw [noLitMatch, Bool.and_eq_true, Bool.not_eq_true'] at h
    rw [subLitGo_nomatch key val prev c t h.1, ih (some c) h.2]

lemma ctxAfter_getLast (c : Char) (l : Str) :
    ctxAfter (some c) l = (c :: l).getLast? := by
  cases l with
  | nil => simp [ctxAfter]
  | cons d l2 =>
    rw [List.getLast?_cons_cons]
    unfold ctxAfter
    cases h : (d :: l2).getLast? with
    | none => simp at h
    | some x => rfl

lemma getLast?_cons_of_ne (c : Char) {l : Str} (h : l ≠ []) :
    (c :: l).getLast? = l.getLast? := by
  cases l with
  | nil => exact absurd rfl h
  | cons d l2 => exact List.getLast?_cons_cons

lemma icalate_eq_append (sep f : Str) (l : List Str) :
    ∃ x, icalate sep (f :: l) = f ++ x := by
  cases l with
  | nil => exact ⟨[], by simp [icalate]⟩
  | cons g l2 => exact ⟨sep ++ icalate sep (g :: l2), by simp [icalate]⟩

/-- Within a fragment list, every fragment that is followed by another ends
in a non-word character (or is empty). -/
def edgeLastOK : List Str → Prop
  | [] => True
  | [_] => True
  | f :: g :: l => noWordAt f.getLast? = true ∧ edgeLastOK (g :: l)

/-- Structure of one literal-key substitution pass: the input text splits as
fragments joined by copies of the key, the output is the same fragments
joined by copies of the replacement block, no fragment contains a further
match, every fragment that is followed by a replacement ends in a non-word
character, and every fragment after a replacement starts with a non-word
character. -/
theorem subLitGo_struct (key val : Str)
    (hkh : noWordAt (headOpt key) = false)
    (hkl : noWordAt key.getLast? = false) :
    ∀ (n : Nat) (t : Str), t.length ≤ n → ∀ (prev : Option Char),
      ∃ (f0 : Str) (rest : List Str),
        t = icalate key (f0 :: rest) ∧
        subLitGo key val 0 prev t = icalate (' ' :: val ++ [' ']) (f0 :: rest) ∧
        noLitMatch key prev f0 = true ∧
        (∀ f ∈ rest, noLitMatch key key.getLast? f = true) ∧
        edgeLastOK (f0 :: rest) ∧
        (∀ f ∈ rest, noWordAt (headOpt f) = true) ∧
        (f0 = [] → rest ≠ [] → noWordAt prev = true) := by
  have hk : key ≠ [] := by
    intro h0
    rw [h0] at hkh
    exact absurd hkh (by decide)
  intro n
  induction n with
  | zero =>
    intro t hle prev
    have h0 : t = [] := List.length_eq_zero.mp (Nat.le_zero.mp hle)
    subst h0
    exact ⟨[], [], rfl, rfl, rfl, by simp, trivial, by simp,
      fun _ h => absurd rfl h⟩
  | succ m ih =>
    intro t hle prev
    cases t with
    | nil =>
      exact ⟨[], [], rfl, rfl, rfl, by simp, trivial, by simp,
        fun _ h => absurd rfl h⟩
    | cons c t2 =>
      have hlen2 : t2.length ≤ m := by
        simp only [List.length_cons] at hle
        omega
      cases hm : matchAt key prev (c :: t2) with
      | true =>
        -- a match at this position
        obtain ⟨hnw, hpf, hbd⟩ := (matchAt_iff _ _ _).mp hm
        obtain ⟨u, hu⟩ := List.isPrefixOf_iff_prefix.mp hpf
        cases key with
        | nil => exact absurd rfl hk
        | cons kh ktail =>
          rw [List.cons_append, List.cons.injEq] at hu
          obtain ⟨rfl, hu2⟩ := hu
          -- hu2 : ktail ++ u = t2
          have hul : u.length ≤ m := by
            rw [← hu2] at hlen2
            simp only [List.length_append] at hlen2
            omega
          obtain ⟨f0, rest, hS1, hS2, hS3, hS4, hS5, hS6, hS7⟩ :=
            ih u hul (kh :: ktail).getLast?
          have hbd2 : noWordAt (headOpt u) = true := by
            have hdrop : (kh :: t2).drop (kh :: ktail).length = u := by
              have : kh :: t2 = (kh :: ktail) ++ u := by
                rw [List.cons_append, hu2]
              rw [this, List.drop_left]
            rwa [hdrop] at hbd
          refine ⟨[], f0 :: rest, ?_, ?_, rfl, ?_, ?_, ?_, fun _ _ => hnw⟩
          · rw [icalate_cons_cons, List.nil_append, ← hS1, List.cons_append, hu2]
          · rw [subLitGo_match (kh :: ktail) val prev kh t2 hk hm]
            have hsk : (kh :: ktail).length - 1 = ktail.length := by simp
            have htk : t2 = ktail ++ u := hu2.symm
            rw [hsk, htk,
              subLitGo_skip (kh :: ktail) val ktail.length (ktail ++ u) (some kh)
                (by simp), List.take_left, List.drop_left, ctxAfter_getLast,
              icalate_cons_cons, List.nil_append, hS2]
          · intro f hf
            rcases List.mem_cons.mp hf with rfl | hf2
            · exact hS3
            · exact hS4 f hf2
          · exact ⟨by decide, hS5⟩
          · intro f hf
            rcases List.mem_cons.mp hf with rfl | hf2
            · by_cases hf0 : f = []
              · rw [hf0]; decide
              · obtain ⟨x, hx⟩ := icalate_eq_append (kh :: ktail) f rest
                have hhead : headOpt f = headOpt u := by
                  rw [hS1, hx]
                  cases f with
                  | nil => exact absurd rfl hf0
                  | cons d l => rfl
                rwa [hhead]
            · exact hS6 f hf2
      | false =>
        obtain ⟨f0, rest, hS1, hS2, hS3, hS4, hS5, hS6, hS7⟩ :=
          ih t2 hlen2 (some c)
        have hmf : matchAt key prev (c :: f0) = false := by
          cases hm2 : matchAt key prev (c :: f0) with
          | false => rfl
          | true =>
            exfalso
            obtain ⟨hnw, hpf, hbd2⟩ := (matchAt_iff _ _ _).mp hm2
            obtain ⟨u, hu⟩ := List.isPrefixOf_iff_prefix.mp hpf
            cases rest with
            | nil =>
              have ht2 : t2 = f0 := hS1
              rw [← ht2] at hm2
              rw [hm2] at hm
              cases hm
            | cons g l =>
              cases u with
              | nil =>
                rw [List.append_nil] at hu
                by_cases hf0 : f0 = []
                · subst hf0
                  have h1 : noWordAt (some c) = true :=
                    hS7 rfl (List.cons_ne_nil g l)
                  rw [hu] at hkh
                  simp [headOpt, noWordAt] at hkh h1
                  simp [hkh] at h1
                · obtain ⟨h51, -⟩ := hS5
                  rw [hu, getLast?_cons_of_ne c hf0] at hkl
                  rw [h51] at hkl
                  cases hkl
              | cons u0 ul =>
                obtain ⟨x, hx⟩ := icalate_eq_append key f0 (g :: l)
                have htx : c :: t2 = key ++ ((u0 :: ul) ++ x) := by
                  rw [hS1, hx, ← List.cons_append, ← hu, List.append_assoc]
                have hpf2 : key.isPrefixOf (c :: t2) = true :=
                  List.isPrefixOf_iff_prefix.mpr ⟨(u0 :: ul) ++ x, htx.symm⟩
                have hb3 : noWordAt (headOpt ((c :: t2).drop key.length)) = true := by
                  rw [htx, List.drop_left]
                  have : (c :: f0).drop key.length = u0 :: ul := by
                    rw [← hu, List.drop_left]
                  rw [this] at hbd2
                  exact hbd2
                have : matchAt key prev (c :: t2) = true :=
                  (matchAt_iff _ _ _).mpr ⟨hnw, hpf2, hb3⟩
                rw [this] at hm
                cases hm
        refine ⟨c :: f0, rest, ?_, ?_, ?_, hS4, ?_, hS6, fun h _ => absurd h (List.cons_ne_nil c f0)⟩
        · rw [icalate_cons_head, ← hS1]
        · rw [subLitGo_nomatch key val prev c t2 hm, icalate_cons_head, ← hS2]
        · rw [noLitMatch, Bool.and_eq_true, Bool.not_eq_true']
          exact ⟨hmf, hS3⟩
        · cases rest with
          | nil => trivial
          | cons g l =>
            obtain ⟨h51, h52⟩ := hS5
            refine ⟨?_, h52⟩
            by_cases hf0 : f0 = []
            · subst hf0
              have h1 : noWordAt (some c) = true := hS7 rfl (List.cons_ne_nil g l)
              simpa [List.getLast?] using h1
            · rwa [getLast?_cons_of_ne c hf0]

/-! ### Structure of the `k*m*s` star pass -/

/-- Join an initial fragment with (match span, following fragment) pairs. -/
def kJoin (f0 : Str) : List (Str × Str) → Str
  | [] => f0
  | (m, f) :: l => f0 ++ m ++ kJoin f l

/-- No position of `t` (with left context `prev`) starts a `\bk\W*m\W*s\b`
match. -/
def noKmsMatch : Option Char → Str → Bool
  | _, [] => true
  | prev, c :: t =>
    !(noWordAt prev && (kmsMatchEnd (c :: t)).isSome) && noKmsMatch (some c) t

/-- The text a `k\W*m\W*s` match consumes. -/
def KmsShaped (m : Str) : Prop :=
  ∃ g1 g2, m = 'k' :: g1 ++ 'm' :: g2 ++ ['s'] ∧
    (∀ c ∈ g1, isWordChar c = false) ∧ (∀ c ∈ g2, isWordChar c = false)

lemma kmsGap_append {g : Str} (hg : ∀ c ∈ g, isWordChar c = false)
    {d : Char} (hd : isWordChar d = true) (r : Str) :
    kmsGap (g ++ d :: r) = d :: r := by
  induction g with
  | nil => simp [kmsGap, List.dropWhile, hd]
  | cons c g2 ih =>
    have hc : isWordChar c = false := hg c (List.mem_cons_self c g2)
    rw [List.cons_append, kmsGap, List.dropWhile]
    simp only [hc]
    exact ih fun x hx => hg x (List.mem_cons_of_mem c hx)

lemma kmsMatchEnd_shape {g1 g2 : Str}
    (h1 : ∀ c ∈ g1, isWordChar c = false) (h2 : ∀ c ∈ g2, isWordChar c = false)
    (r : Str) :
    kmsMatchEnd (('k' :: g1 ++ 'm' :: g2 ++ ['s']) ++ r) =
      if noWordAt (headOpt r) then some r else none := by
  have e : ('k' :: g1 ++ 'm' :: g2 ++ ['s']) ++ r =
      'k' :: (g1 ++ 'm' :: (g2 ++ 's' :: r)) := by
    simp [List.append_assoc]
  have hg1 : kmsGap (g1 ++ 'm' :: (g2 ++ 's' :: r)) = 'm' :: (g2 ++ 's' :: r) :=
    kmsGap_append h1 (show isWordChar 'm' = true by decide) (g2 ++ 's' :: r)
  have hg2 : kmsGap (g2 ++ 's' :: r) = 's' :: r :=
    kmsGap_append h2 (show isWordChar 's' = true by decide) r
  rw [e]
  simp only [kmsMatchEnd, hg1, hg2]

lemma kmsMatchEnd_spec {t after : Str} (h : kmsMatchEnd t = some after) :
    ∃ g1 g2, t = 'k' :: g1 ++ 'm' :: g2 ++ 's' :: after ∧
      (∀ c ∈ g1, isWordChar c = false) ∧ (∀ c ∈ g2, isWordChar c = false) ∧
      noWordAt (headOpt after) = true := by
  rw [kmsMatchEnd.eq_def] at h
  split at h
  case _ t1 =>
    split at h
    case _ t2 heq1 =>
      split at h
      case _ t3 heq2 =>
        split at h
        case isTrue hbd =>
          injection h with h
          subst h
          refine ⟨t1.takeWhile (fun c => !isWordChar c),
            t2.takeWhile (fun c => !isWordChar c), ?_, ?_, ?_, hbd⟩
          · have e1 : t1 = t1.takeWhile (fun c => !isWordChar c) ++ 'm' :: t2 := by
              conv_lhs => rw [← List.takeWhile_append_dropWhile
                (fun c => !isWordChar c) t1]
              rw [show t1.dropWhile (fun c => !isWordChar c) = kmsGap t1 from rfl, heq1]
            have e2 : t2 = t2.takeWhile (fun c => !isWordChar c) ++ 's' :: t3 := by
              conv_lhs => rw [← List.takeWhile_append_dropWhile
                (fun c => !isWordChar c) t2]
              rw [show t2.dropWhile (fun c => !isWordChar c) = kmsGap t2 from rfl, heq2]
            conv_lhs => rw [e1, e2]
            simp [List.append_assoc]
          · intro c hc
            have := List.mem_takeWhile_imp hc
            simpa using this
          · intro c hc
            have := List.mem_takeWhile_imp hc
            simpa using this
        case isFalse => cases h
      case _ => cases h
    case _ => cases h
  case _ => cases h

lemma ctxAfter_of_getLast {a : Str} {x : Char} (h : a.getLast? = some x)
    (prev : Option Char) : ctxAfter prev a = some x := by
  unfold ctxAfter
  rw [h]
  rfl

lemma subKmsStarGo_skip (val : Str) :
    ∀ (n : Nat) (u : Str) (prev : Option Char), n ≤ u.length →
      subKmsStarGo val n prev u =
        subKmsStarGo val 0 (ctxAfter prev (u.take n)) (u.drop n) := by
  intro n
  induction n with
  | zero => intro u prev _; simp [ctxAfter_nil]
  | succ m ih =>
    intro u prev hle
    cases u with
    | nil => simp at hle
    | cons c t =>
      rw [List.take_succ_cons, List.drop_succ_cons, ctxAfter_cons]
      rw [subKmsStarGo]
      exact ih t (some c) (Nat.le_of_succ_le_succ hle)

lemma subKmsStarGo_match (val : Str) (prev : Option Char) (c : Char)
    (t after : Str) (hnw : noWordAt prev = true)
    (hme : kmsMatchEnd (c :: t) = some after) :
    subKmsStarGo val 0 prev (c :: t) =
      (' ' :: val ++ [' ']) ++
        subKmsStarGo val ((c :: t).length - after.length - 1) (some c) t := by
  rw [subKmsStarGo, if_pos hnw, hme]

lemma subKmsStarGo_nomatch (val : Str) (prev : Option Char) (c : Char) (t : Str)
    (hni : (noWordAt prev && (kmsMatchEnd (c :: t)).isSome) = false) :
    subKmsStarGo val 0 prev (c :: t) = c :: subKmsStarGo val 0 (some c) t := by
  rw [subKmsStarGo]
  cases hp : noWordAt prev with
  | false => simp
  | true =>
    rw [hp, Bool.true_and] at hni
    cases hme : kmsMatchEnd (c :: t) with
    | none => simp [hme]
    | some a => rw [hme] at hni; cases hni

/-- On kms-match-free text the star pass is the identity. -/
lemma subKmsStarGo_id (val : Str) :
    ∀ (t : Str) (prev : Option Char), noKmsMatch prev t = true →
      subKmsStarGo val 0 prev t = t := by
  intro t
  induction t with
  | nil => intro prev _; rfl
  | cons c t ih =>
    intro prev h
    rw [noKmsMatch, Bool.and_eq_true, Bool.not_eq_true'] at h
    rw [subKmsStarGo_nomatch val prev c t h.1, ih (some c) h.2]

lemma kJoin_cons_head (c : Char) (f : Str) (ps : List (Str × Str)) :
    kJoin (c :: f) ps = c :: kJoin f ps := by
  cases ps with
  | nil => rfl
  | cons p l =>
    obtain ⟨m, g⟩ := p
    simp [kJoin]

lemma kJoin_eq_append (f : Str) (ps : List (Str × Str)) :
    ∃ x, kJoin f ps = f ++ x := by
  cases ps with
  | nil => exact ⟨[], by simp [kJoin]⟩
  | cons p l =>
    obtain ⟨m, g⟩ := p
    exact ⟨m ++ kJoin g l, by simp [kJoin]⟩

lemma headOpt_append_of_ne {a : Str} (X : Str) (h : a ≠ []) :
    headOpt (a ++ X) = headOpt a := by
  cases a with
  | nil => exact absurd rfl h
  | cons d l => rfl

lemma getLast?_append_singleton (l : Str) (a : Char) :
    (l ++ [a]).getLast? = some a := by
  induction l with
  | nil => rfl
  | cons c l2 ih =>
    rw [List.cons_append, getLast?_cons_of_ne c (by simp), ih]

/-- Structure of the `k\W*m\W*s` substitution pass, in the same format as
`subLitGo_struct`, the matched spans now being recorded per junction. -/
theorem subKmsStarGo_struct (val : Str) :
    ∀ (n : Nat) (t : Str), t.length ≤ n → ∀ (prev : Option Char),
      ∃ (f0 : Str) (ps : List (Str × Str)),
        t = kJoin f0 ps ∧
        subKmsStarGo val 0 prev t =
          kJoin f0 (ps.map fun p => (' ' :: val ++ [' '], p.2)) ∧
        noKmsMatch prev f0 = true ∧
        (∀ p ∈ ps, noKmsMatch (some 's') p.2 = true) ∧
        (∀ p ∈ ps, KmsShaped p.1) ∧
        edgeLastOK (f0 :: ps.map Prod.snd) ∧
        (∀ p ∈ ps, noWordAt (headOpt p.2) = true) ∧
        (f0 = [] → ps ≠ [] → noWordAt prev = true) := by
  intro n
  induction n with
  | zero =>
    intro t hle prev
    have h0 : t = [] := List.length_eq_zero.mp (Nat.le_zero.mp hle)
    subst h0
    exact ⟨[], [], rfl, rfl, rfl, by simp, by simp, trivial, by simp,
      fun _ h => absurd rfl h⟩
  | succ m ih =>
    intro t hle prev
    cases t with
    | nil =>
      exact ⟨[], [], rfl, rfl, rfl, by simp, by simp, trivial, by simp,
        fun _ h => absurd rfl h⟩
    | cons c t2 =>
      have hlen2 : t2.length ≤ m := by
        simp only [List.length_cons] at hle
        omega
      cases hnw : noWordAt prev with
      | true =>
        cases hme : kmsMatchEnd (c :: t2) with
        | some u =>
          obtain ⟨g1, g2, hspan, hg1, hg2, hbd⟩ := kmsMatchEnd_spec hme
          simp only [List.cons_append] at hspan
          rw [List.cons.injEq] at hspan
          obtain ⟨rfl, ht2⟩ := hspan
          -- ht2 : t2 = g1 ++ 'm' :: g2 ++ 's' :: u
          have ht2p : t2 = (g1 ++ 'm' :: g2 ++ ['s']) ++ u := by
            rw [ht2]; simp [List.append_assoc]
          have hlenp : t2.length = (g1 ++ 'm' :: g2 ++ ['s']).length + u.length := by
            rw [ht2p, List.length_append]
          have hul : u.length ≤ m := by omega
          obtain ⟨f0, ps, hS1, hS2, hS3, hS4, hS5, hS6, hS7, hS8⟩ :=
            ih u hul (some 's')
          refine ⟨[], ('k' :: g1 ++ 'm' :: g2 ++ ['s'], f0) :: ps,
            ?_, ?_, rfl, ?_, ?_, ?_, ?_, fun _ _ => rfl⟩
          · show 'k' :: t2 = [] ++ ('k' :: g1 ++ 'm' :: g2 ++ ['s']) ++ kJoin f0 ps
            rw [← hS1, List.nil_append, ht2p]
            simp [List.append_assoc]
          · show subKmsStarGo val 0 prev ('k' :: t2) =
              [] ++ (' ' :: val ++ [' ']) ++
                kJoin f0 (ps.map fun p => (' ' :: val ++ [' '], p.2))
            rw [subKmsStarGo_match val prev 'k' t2 u hnw hme]
            have hskip : ('k' :: t2).length - u.length - 1 =
                (g1 ++ 'm' :: g2 ++ ['s']).length := by
              simp only [List.length_cons]
              omega
            rw [hskip, ht2p,
              subKmsStarGo_skip val (g1 ++ 'm' :: g2 ++ ['s']).length
                ((g1 ++ 'm' :: g2 ++ ['s']) ++ u) (some 'k') (by simp),
              List.take_left, List.drop_left]
            have hctx : ctxAfter (some 'k') (g1 ++ 'm' :: g2 ++ ['s']) = some 's' := by
              refine ctxAfter_of_getLast ?_ (some 'k')
              have e : g1 ++ 'm' :: g2 ++ ['s'] = (g1 ++ 'm' :: g2) ++ ['s'] := by
                simp [List.append_assoc]
              rw [e, getLast?_append_singleton]
            rw [hctx, hS2, List.nil_append]
          · intro p hp
            rcases List.mem_cons.mp hp with rfl | hp2
            · exact hS3
            · exact hS4 p hp2
          · intro p hp
            rcases List.mem_cons.mp hp with rfl | hp2
            · exact ⟨g1, g2, rfl, hg1, hg2⟩
            · exact hS5 p hp2
          · exact ⟨by decide, hS6⟩
          · intro p hp
            rcases List.mem_cons.mp hp with rfl | hp2
            · show noWordAt (headOpt f0) = true
              by_cases hf0 : f0 = []
              · rw [hf0]; decide
              · obtain ⟨x, hx⟩ := kJoin_eq_append f0 ps
                have : headOpt f0 = headOpt u := by
                  rw [hS1, hx, headOpt_append_of_ne x hf0]
                rwa [this]
            · exact hS7 p hp2
        | none =>
          have hni : (noWordAt prev && (kmsMatchEnd (c :: t2)).isSome) = false := by
            rw [hme]; simp
          obtain ⟨f0, ps, hS1, hS2, hS3, hS4, hS5, hS6, hS7, hS8⟩ :=
            ih t2 hlen2 (some c)
          have hmf : (noWordAt prev && (kmsMatchEnd (c :: f0)).isSome) = false := by
            rw [hnw, Bool.true_and]
            cases hme2 : kmsMatchEnd (c :: f0) with
            | none => rfl
            | some a =>
              exfalso
              obtain ⟨G1, G2, hspan2, hG1, hG2, hbd2⟩ := kmsMatchEnd_spec hme2
              simp only [List.cons_append] at hspan2
              cases ps with
              | nil =>
                have ht2f : t2 = f0 := hS1
                rw [← ht2f] at hme2
                rw [hme2] at hme
                cases hme
              | cons p l =>
                cases a with
                | nil =>
                  obtain ⟨h61, -⟩ := hS6
                  rw [List.cons.injEq] at hspan2
                  obtain ⟨-, hf0e⟩ := hspan2
                  have : f0.getLast? = some 's' := by
                    have e2 : f0 = (G1 ++ 'm' :: G2) ++ ['s'] := by
                      rw [hf0e]
                      try simp [List.append_assoc]
                    rw [e2, getLast?_append_singleton]
                  rw [this] at h61
                  exact absurd h61 (by decide)
                | cons a0 al =>
                  obtain ⟨x, hx⟩ := kJoin_eq_append f0 (p :: l)
                  have hfull : c :: t2 =
                      ('k' :: G1 ++ 'm' :: G2 ++ ['s']) ++ ((a0 :: al) ++ x) := by
                    rw [hS1, hx, ← List.cons_append, hspan2]
                    simp [List.append_assoc]
                  have : kmsMatchEnd (c :: t2) = some ((a0 :: al) ++ x) := by
                    rw [hfull, kmsMatchEnd_shape hG1 hG2,
                      if_pos (by rw [headOpt_append_of_ne x (by simp)]; exact hbd2)]
                  rw [this] at hme
                  cases hme
          refine ⟨c :: f0, ps, ?_, ?_, ?_, hS4, hS5, ?_, hS7,
            fun h _ => absurd h (List.cons_ne_nil c f0)⟩
          · rw [kJoin_cons_head, ← hS1]
          · rw [subKmsStarGo_nomatch val prev c t2 hni, kJoin_cons_head, ← hS2]
          · rw [noKmsMatch, Bool.and_eq_true, Bool.not_eq_true']
            exact ⟨hmf, hS3⟩
          · cases hps : ps with
            | nil => trivial
            | cons p l =>
              rw [hps] at hS6
              obtain ⟨h61, h62⟩ := hS6
              refine ⟨?_, h62⟩
              by_cases hf0 : f0 = []
              · subst hf0
                have h1 : noWordAt (some c) = true :=
                  hS8 rfl (by rw [hps]; simp)
                simpa [List.getLast?] using h1
              · rwa [getLast?_cons_of_ne c hf0]
      | false =>
        have hni : (noWordAt prev && (kmsMatchEnd (c :: t2)).isSome) = false := by
          rw [hnw]; rfl
        obtain ⟨f0, ps, hS1, hS2, hS3, hS4, hS5, hS6, hS7, hS8⟩ :=
          ih t2 hlen2 (some c)
        refine ⟨c :: f0, ps, ?_, ?_, ?_, hS4, hS5, ?_, hS7,
          fun h _ => absurd h (List.cons_ne_nil c f0)⟩
        · rw [kJoin_cons_head, ← hS1]
        · rw [subKmsStarGo_nomatch val prev c t2 hni, kJoin_cons_head, ← hS2]
        · rw [noKmsMatch, Bool.and_eq_true, Bool.not_eq_true']
          exact ⟨by rw [hnw]; rfl, hS3⟩
        · cases hps : ps with
          | nil => trivial
          | cons p l =>
            rw [hps] at hS6
            obtain ⟨h61, h62⟩ := hS6
            refine ⟨?_, h62⟩
            by_cases hf0 : f0 = []
            · subst hf0
              have h1 : noWordAt (some c) = true :=
                hS8 rfl (by rw [hps]; simp)
              simpa [List.getLast?] using h1
            · rwa [getLast?_cons_of_ne c hf0]

/-! ### Normal form of `_normalize` output -/

def noWsAt : Option Char → Bool
  | none => true
  | some c => !isWsChar c

/-- A character that every stage of `_normalize` leaves unchanged, and whose
whitespace form (if any) is the plain space. -/
def goodC (c : Char) : Bool :=
  decide (lowerC c = c) && decide (quoteC c = c) && decide (zwC c = c) &&
    (!isWsChar c || decide (c = ' '))

def noTripleB : Str → Bool
  | a :: b :: c :: t => !(decide (a = b) && decide (b = c)) && noTripleB (b :: c :: t)
  | _ => true

def noTripleNN : Str → Bool
  | a :: b :: c :: t =>
    !(decide (a = b) && decide (b = c) && !decide (a = '\n')) && noTripleNN (b :: c :: t)
  | _ => true

def noTripleNW : Str → Bool
  | a :: b :: c :: t =>
    !(decide (a = b) && decide (b = c) && !isWsChar a) && noTripleNW (b :: c :: t)
  | _ => true

def noDoubleWs : Str → Bool
  | a :: b :: t => !(isWsChar a && isWsChar b) && noDoubleWs (b :: t)
  | _ => true

/-- The invariant satisfied by `_normalize` output: every character is fixed
by the character-level stages, all whitespace is the plain space, there is
no doubled whitespace, no tripled character, and no leading or trailing
whitespace. -/
def isNorm (s : Str) : Bool :=
  s.all goodC && noTripleB s && noDoubleWs s && noWsAt (headOpt s) &&
    noWsAt s.getLast?

lemma le_iff_toNat (a b : Char) : a ≤ b ↔ a.toNat ≤ b.toNat :=
  ⟨fun h => h, fun h => h⟩

lemma toNat_ofNat_valid (n : ℕ) (h : n < 0xD800) : (Char.ofNat n).toNat = n := by
  have hv : n.isValidChar := Or.inl h
  rw [Char.ofNat, dif_pos hv]
  simp [Char.ofNatAux, Char.toNat, UInt32.toNat, BitVec.toNat_ofNatLt]

lemma lowerC_idem (c : Char) : lowerC (lowerC c) = lowerC c := by
  unfold lowerC
  by_cases h : ('A' ≤ c && c ≤ 'Z') = true
  · rw [if_pos h, if_neg]
    intro hcon
    rw [Bool.and_eq_true, decide_eq_true_iff, decide_eq_true_iff] at h hcon
    obtain ⟨h1, h2⟩ := h
    obtain ⟨h3, h4⟩ := hcon
    rw [le_iff_toNat] at h1 h2 h3 h4
    have hA : ('A' : Char).toNat = 65 := by decide
    have hZ : ('Z' : Char).toNat = 90 := by decide
    rw [hA] at h1 h3
    rw [hZ] at h2 h4
    have hv : (Char.ofNat (c.toNat + 32)).toNat = c.toNat + 32 := by
      apply toNat_ofNat_valid
      omega
    rw [hv] at h4
    omega
  · rw [if_neg h, if_neg h]

lemma quoteC_cases (c : Char) : quoteC c = c ∨ quoteC c = aposC ∨ quoteC c = '-' := by
  unfold quoteC
  split_ifs with h1 h2 h3
  · exact Or.inr (Or.inl rfl)
  · exact Or.inr (Or.inr rfl)
  · exact Or.inr (Or.inr rfl)
  · exact Or.inl rfl

lemma quoteC_idem (c : Char) : quoteC (quoteC c) = quoteC c := by
  rcases quoteC_cases c with h | h | h
  · rw [h]; exact h
  · rw [h]; decide
  · rw [h]; decide

lemma lowerC_of_quoteC (c : Char) (h : lowerC c = c) :
    lowerC (quoteC c) = quoteC c := by
  rcases quoteC_cases c with h2 | h2 | h2 <;> rw [h2]
  · exact h
  · decide
  · decide

lemma zwC_cases (c : Char) : zwC c = c ∨ zwC c = ' ' := by
  unfold zwC
  split_ifs with h
  · exact Or.inr rfl
  · exact Or.inl rfl

lemma map_id_of {f : Char → Char} :
    ∀ {s : Str}, (∀ c ∈ s, f c = c) → s.map f = s := by
  intro s
  induction s with
  | nil => intro _; rfl
  | cons c t ih =>
    intro h
    rw [List.map_cons, h c (List.mem_cons_self c t),
      ih fun x hx => h x (List.mem_cons_of_mem c hx)]

lemma noTripleB_tail {a : Char} {l : Str} (h : noTripleB (a :: l) = true) :
    noTripleB l = true := by
  match l with
  | [] => rfl
  | [x] => rfl
  | x :: y :: t =>
    rw [noTripleB, Bool.and_eq_true] at h
    exact h.2

lemma noTripleNW_tail {a : Char} {l : Str} (h : noTripleNW (a :: l) = true) :
    noTripleNW l = true := by
  match l with
  | [] => rfl
  | [x] => rfl
  | x :: y :: t =>
    rw [noTripleNW, Bool.and_eq_true] at h
    exact h.2

lemma noDoubleWs_tail {a : Char} {l : Str} (h : noDoubleWs (a :: l) = true) :
    noDoubleWs l = true := by
  match l with
  | [] => rfl
  | x :: t =>
    rw [noDoubleWs, Bool.and_eq_true] at h
    exact h.2

lemma noTripleB_cons_of (a : Char) {l : Str} (hl : noTripleB l = true)
    (hw : ∀ d e t2, l = d :: e :: t2 → ¬(a = d ∧ d = e)) :
    noTripleB (a :: l) = true := by
  match l with
  | [] => rfl
  | [x] => rfl
  | x :: y :: t =>
    rw [noTripleB, Bool.and_eq_true]
    refine ⟨?_, hl⟩
    rw [Bool.not_eq_true', Bool.and_eq_false_iff]
    by_cases hax : a = x
    · right
      rw [decide_eq_false_iff_not]
      intro hxy
      exact hw x y t rfl ⟨hax, hxy⟩
    · left
      rw [decide_eq_false_iff_not]
      exact hax

lemma noDoubleWs_cons_of (a : Char) {l : Str} (hl : noDoubleWs l = true)
    (hw : ∀ d, headOpt l = some d → (isWsChar a && isWsChar d) = false) :
    noDoubleWs (a :: l) = true := by
  match l with
  | [] => rfl
  | x :: t =>
    rw [noDoubleWs, Bool.and_eq_true]
    refine ⟨?_, hl⟩
    rw [Bool.not_eq_true']
    exact hw x rfl

lemma collapseRunsGo_id :
    ∀ (t : Str) (prev : Char),
      (noTripleB (prev :: t) = true → collapseRunsGo prev 1 t = t) ∧
      (noTripleB (prev :: prev :: t) = true → collapseRunsGo prev 2 t = t) := by
  intro t
  induction t with
  | nil => exact fun prev => ⟨fun _ => rfl, fun _ => rfl⟩
  | cons d t2 ih =>
    intro prev
    constructor
    · intro h
      rw [collapseRunsGo]
      by_cases hd : d = prev ∧ d ≠ '\n'
      · rw [if_pos hd, if_pos (by omega)]
        rw [hd.1] at h
        rw [(ih prev).2 h]
      · rw [if_neg hd, (ih d).1 (noTripleB_tail h)]
    · intro h
      rw [collapseRunsGo]
      by_cases hd : d = prev ∧ d ≠ '\n'
      · exfalso
        rw [hd.1] at h
        rw [noTripleB] at h
        simp at h
      · rw [if_neg hd, (ih d).1 (noTripleB_tail (noTripleB_tail h))]

lemma collapseRuns_id {s : Str} (h : noTripleB s = true) : collapseRuns s = s := by
  cases s with
  | nil => rfl
  | cons c t =>
    rw [collapseRuns, (collapseRunsGo_id t c).1 h]

lemma wsCollapseGo_id :
    ∀ (t : Str), (∀ c ∈ t, isWsChar c = true → c = ' ') → noDoubleWs t = true →
      (wsCollapseGo false t = t ∧
       (noWsAt (headOpt t) = true → wsCollapseGo true t = t)) := by
  intro t
  induction t with
  | nil => exact fun _ _ => ⟨rfl, fun _ => rfl⟩
  | cons c t2 ih =>
    intro hall hnd
    have hall2 : ∀ x ∈ t2, isWsChar x = true → x = ' ' :=
      fun x hx => hall x (List.mem_cons_of_mem c hx)
    obtain ⟨ihf, iht⟩ := ih hall2 (noDoubleWs_tail hnd)
    constructor
    · rw [wsCollapseGo]
      cases hw : isWsChar c with
      | false => rw [if_neg Bool.false_ne_true, ihf]
      | true =>
        rw [if_pos rfl]
        have hsp : c = ' ' := hall c (List.mem_cons_self c t2) hw
        have hh2 : noWsAt (headOpt t2) = true := by
          cases t2 with
          | nil => rfl
          | cons x t3 =>
            rw [noDoubleWs, Bool.and_eq_true] at hnd
            have := hnd.1
            rw [hw, Bool.true_and, Bool.not_eq_true'] at this
            simp only [headOpt, noWsAt]
            rw [this]
            rfl
        rw [iht hh2, hsp, if_neg Bool.false_ne_true]
    · intro hh
      simp only [noWsAt, headOpt] at hh
      rw [Bool.not_eq_true'] at hh
      rw [wsCollapseGo, if_neg (by rw [hh]; exact Bool.false_ne_true), ihf]

lemma headOpt_eq_head? (s : Str) : headOpt s = s.head? := by
  cases s <;> rfl

lemma stripWs_id {s : Str} (hh : noWsAt (headOpt s) = true)
    (hl : noWsAt s.getLast? = true) : stripWs s = s := by
  unfold stripWs
  have h1 : s.dropWhile isWsChar = s := by
    cases s with
    | nil => rfl
    | cons c t =>
      simp only [headOpt, noWsAt] at hh
      rw [Bool.not_eq_true'] at hh
      rw [List.dropWhile_cons, if_neg (by rw [hh]; exact Bool.false_ne_true)]
  rw [h1]
  have h2 : s.reverse.dropWhile isWsChar = s.reverse := by
    cases hs : s.reverse with
    | nil => rfl
    | cons c t =>
      have : s.getLast? = some c := by
        rw [← List.head?_reverse, hs]
        rfl
      rw [this] at hl
      simp only [noWsAt] at hl
      rw [Bool.not_eq_true'] at hl
      rw [List.dropWhile_cons, if_neg (by rw [hl]; exact Bool.false_ne_true)]
  rw [h2, List.reverse_reverse]

lemma mem_collapseRunsGo :
    ∀ (t : Str) (prev : Char) (count : Nat) {c : Char},
      c ∈ collapseRunsGo prev count t → c ∈ t := by
  intro t
  induction t with
  | nil => intro prev count c h; cases h
  | cons d t2 ih =>
    intro prev count c h
    rw [collapseRunsGo] at h
    split_ifs at h with h1 h2
    · rcases List.mem_cons.mp h with rfl | h3
      · exact List.mem_cons_self _ _
      · exact List.mem_cons_of_mem _ (ih prev (count + 1) h3)
    · exact List.mem_cons_of_mem _ (ih prev count h)
    · rcases List.mem_cons.mp h with rfl | h3
      · exact List.mem_cons_self _ _
      · exact List.mem_cons_of_mem _ (ih d 1 h3)

lemma mem_collapseRuns {s : Str} {c : Char} (h : c ∈ collapseRuns s) : c ∈ s := by
  cases s with
  | nil => cases h
  | cons d t =>
    rw [collapseRuns] at h
    rcases List.mem_cons.mp h with rfl | h2
    · exact List.mem_cons_self _ _
    · exact List.mem_cons_of_mem _ (mem_collapseRunsGo t d 1 h2)

lemma mem_wsCollapseGo :
    ∀ (t : Str) (b : Bool) {c : Char},
      c ∈ wsCollapseGo b t → c = ' ' ∨ (c ∈ t ∧ isWsChar c = false) := by
  intro t
  induction t with
  | nil => intro b c h; cases h
  | cons d t2 ih =>
    intro b c h
    rw [wsCollapseGo] at h
    split_ifs at h with h1 h2
    · rcases ih true h with h3 | ⟨h3, h4⟩
      · exact Or.inl h3
      · exact Or.inr ⟨List.mem_cons_of_mem _ h3, h4⟩
    · rcases List.mem_cons.mp h with rfl | h3
      · exact Or.inl rfl
      · rcases ih true h3 with h4 | ⟨h4, h5⟩
        · exact Or.inl h4
        · exact Or.inr ⟨List.mem_cons_of_mem _ h4, h5⟩
    · rcases List.mem_cons.mp h with rfl | h3
      · exact Or.inr ⟨List.mem_cons_self _ _, Bool.eq_false_iff.mpr h1⟩
      · rcases ih false h3 with h4 | ⟨h4, h5⟩
        · exact Or.inl h4
        · exact Or.inr ⟨List.mem_cons_of_mem _ h4, h5⟩

lemma mem_stripWs {s : Str} {c : Char} (h : c ∈ stripWs s) : c ∈ s := by
  unfold stripWs at h
  rw [List.mem_reverse] at h
  have h2 := (List.dropWhile_sublist _).mem h
  rw [List.mem_reverse] at h2
  exact (List.dropWhile_sublist _).mem h2

lemma noTripleNN_tail {a : Char} {l : Str} (h : noTripleNN (a :: l) = true) :
    noTripleNN l = true := by
  match l with
  | [] => rfl
  | [x] => rfl
  | x :: y :: t =>
    rw [noTripleNN, Bool.and_eq_true] at h
    exact h.2

lemma noTripleB_head {a d e : Char} {l : Str}
    (h : noTripleB (a :: d :: e :: l) = true) : ¬(a = d ∧ d = e) := by
  rw [noTripleB, Bool.and_eq_true] at h
  have h1 := h.1
  rw [Bool.not_eq_true', Bool.and_eq_false_iff] at h1
  rintro ⟨h2, h3⟩
  rcases h1 with h1 | h1
  · exact absurd h2 (of_decide_eq_false h1)
  · exact absurd h3 (of_decide_eq_false h1)

lemma noTripleNN_head {a d e : Char} {l : Str}
    (h : noTripleNN (a :: d :: e :: l) = true) (h2 : a = d) (h3 : d = e) :
    a = '\n' := by
  by_contra hn
  subst h2
  subst h3
  rw [noTripleNN, Bool.and_eq_true] at h
  have h1 := h.1
  simp [hn] at h1

lemma noTripleNW_head {a d e : Char} {l : Str}
    (h : noTripleNW (a :: d :: e :: l) = true) (h2 : a = d) (h3 : d = e) :
    isWsChar a = true := by
  by_contra hn
  subst h2
  subst h3
  rw [noTripleNW, Bool.and_eq_true] at h
  have h1 := h.1
  simp [hn] at h1

lemma noTripleNN_cons_of (a : Char) {l : Str} (hl : noTripleNN l = true)
    (hw : ∀ d e t2, l = d :: e :: t2 → a = d → d = e → a = '\n') :
    noTripleNN (a :: l) = true := by
  match l with
  | [] => rfl
  | [x] => rfl
  | x :: y :: t =>
    rw [noTripleNN, Bool.and_eq_true]
    refine ⟨?_, hl⟩
    rw [Bool.not_eq_true']
    by_cases hax : a = x
    · by_cases hxy : x = y
      · have := hw x y t rfl hax hxy
        simp [this]
      · simp [hxy]
    · simp [hax]

lemma noTripleNW_cons_of (a : Char) {l : Str} (hl : noTripleNW l = true)
    (hw : ∀ d e t2, l = d :: e :: t2 → a = d → d = e → isWsChar a = true) :
    noTripleNW (a :: l) = true := by
  match l with
  | [] => rfl
  | [x] => rfl
  | x :: y :: t =>
    rw [noTripleNW, Bool.and_eq_true]
    refine ⟨?_, hl⟩
    rw [Bool.not_eq_true']
    by_cases hax : a = x
    · by_cases hxy : x = y
      · have := hw x y t rfl hax hxy
        simp [this]
      · simp [hxy]
    · simp [hax]

lemma noTripleNN_collapseGo :
    ∀ (t : Str) (prev : Char),
      noTripleNN (prev :: collapseRunsGo prev 1 t) = true ∧
      (prev ≠ '\n' → noTripleNN (prev :: prev :: collapseRunsGo prev 2 t) = true) := by
  intro t
  induction t with
  | nil => exact fun prev => ⟨rfl, fun _ => rfl⟩
  | cons d t2 ih =>
    intro prev
    constructor
    · rw [collapseRunsGo]
      by_cases hd : d = prev ∧ d ≠ '\n'
      · obtain ⟨hdp, hdn⟩ := hd
        subst hdp
        rw [if_pos ⟨rfl, hdn⟩, if_pos (by omega)]
        exact (ih d).2 hdn
      · rw [if_neg hd]
        refine noTripleNN_cons_of prev ((ih d).1) ?_
        intro x e t3 hl hpx hxe
        rw [List.cons.injEq] at hl
        obtain ⟨rfl, -⟩ := hl
        by_contra hn
        exact hd ⟨hpx.symm, fun hdn => hn (hpx ▸ hdn)⟩
    · intro hpn
      rw [collapseRunsGo]
      by_cases hd : d = prev ∧ d ≠ '\n'
      · obtain ⟨hdp, hdn⟩ := hd
        subst hdp
        rw [if_pos ⟨rfl, hdn⟩, if_neg (by omega)]
        exact (ih d).2 hdn
      · rw [if_neg hd]
        have inner : noTripleNN (prev :: d :: collapseRunsGo d 1 t2) = true := by
          refine noTripleNN_cons_of prev ((ih d).1) ?_
          intro x e t3 hl hpx hxe
          rw [List.cons.injEq] at hl
          obtain ⟨rfl, -⟩ := hl
          by_contra hn
          exact hd ⟨hpx.symm, fun hdn => hn (hpx ▸ hdn)⟩
        refine noTripleNN_cons_of prev inner ?_
        intro x e t3 hl hpx hxe
        rw [List.cons.injEq] at hl
        obtain ⟨rfl, he⟩ := hl
        rw [List.cons.injEq] at he
        obtain ⟨rfl, -⟩ := he
        exfalso
        exact hd ⟨hxe.symm, fun hdn => hpn (hxe ▸ hdn)⟩
  
lemma noTripleNN_collapseRuns (s : Str) : noTripleNN (collapseRuns s) = true := by
  cases s with
  | nil => rfl
  | cons c t =>
    rw [collapseRuns]
    exact (noTripleNN_collapseGo t c).1

lemma noTripleNW_of_NN : ∀ {s : Str}, noTripleNN s = true → noTripleNW s = true := by
  intro s
  induction s with
  | nil => intro _; rfl
  | cons a t ih =>
    intro h
    refine noTripleNW_cons_of a (ih (noTripleNN_tail h)) ?_
    intro d e t2 hl h2 h3
    rw [hl] at h
    have := noTripleNN_head h h2 h3
    rw [this]
    decide

lemma noTripleNW_zw : ∀ {s : Str}, noTripleNW s = true → noTripleNW (zwToSpace s) = true := by
  intro s
  induction s with
  | nil => intro _; rfl
  | cons a t ih =>
    intro h
    rw [zwToSpace, List.map_cons]
    refine noTripleNW_cons_of (zwC a) (ih (noTripleNW_tail h)) ?_
    intro d e t2 hl h2 h3
    by_contra hws
    rw [Bool.not_eq_true] at hws
    have hspace : zwC a ≠ ' ' := by
      intro hsp
      rw [hsp] at hws
      exact absurd hws (by decide)
    have haa : zwC a = a := by
      rcases zwC_cases a with h4 | h4
      · exact h4
      · exact absurd h4 hspace
    cases t with
    | nil => simp [zwToSpace] at hl
    | cons x t3 =>
      cases t3 with
      | nil => simp [zwToSpace] at hl
      | cons y t4 =>
        simp only [zwToSpace, List.map_cons] at hl
        rw [List.cons.injEq] at hl
        obtain ⟨hdx, he⟩ := hl
        rw [List.cons.injEq] at he
        obtain ⟨hey, -⟩ := he
        have hx : x = a := by
          rcases zwC_cases x with h4 | h4
          · rw [← h4, hdx, ← h2]
            exact haa
          · exfalso
            rw [h4] at hdx
            rw [← hdx] at h2
            exact hspace h2
        have hy : y = a := by
          rcases zwC_cases y with h4 | h4
          · rw [← h4, hey, ← h3, ← h2]
            exact haa
          · exfalso
            rw [h4] at hey
            rw [← hey] at h3
            rw [h3] at h2
            exact hspace h2
        have := noTripleNW_head h hx.symm (by rw [hx, hy])
        rw [← haa] at this
        rw [this] at hws
        cases hws

lemma wsCollapseGo_true_head :
    ∀ (t : Str), noWsAt (headOpt (wsCollapseGo true t)) = true := by
  intro t
  induction t with
  | nil => rfl
  | cons c t2 ih =>
    rw [wsCollapseGo]
    cases hw : isWsChar c with
    | true => rw [if_pos rfl]; exact ih
    | false =>
      rw [if_neg Bool.false_ne_true]
      simp only [headOpt, noWsAt]
      rw [hw]
      rfl

lemma head_wsCollapseGo_false {z : Str} {d : Char}
    (h : headOpt (wsCollapseGo false z) = some d) (hd : isWsChar d = false) :
    headOpt z = some d := by
  cases z with
  | nil => cases h
  | cons c t =>
    rw [wsCollapseGo] at h
    cases h1 : isWsChar c with
    | true =>
      rw [if_pos h1, if_neg Bool.false_ne_true] at h
      simp only [headOpt] at h
      injection h with h
      rw [← h] at hd
      exact absurd hd (by decide)
    | false =>
      rw [if_neg (by rw [h1]; exact Bool.false_ne_true)] at h
      simp only [headOpt] at h ⊢
      exact h

lemma noDoubleWs_wsCollapseGo : ∀ (t : Str) (b : Bool),
    noDoubleWs (wsCollapseGo b t) = true := by
  intro t
  induction t with
  | nil => intro b; rfl
  | cons c t2 ih =>
    intro b
    rw [wsCollapseGo]
    split_ifs with h1 h2
    · exact ih true
    · refine noDoubleWs_cons_of ' ' (ih true) ?_
      intro d hd
      have := wsCollapseGo_true_head t2
      rw [hd] at this
      simp only [noWsAt] at this
      rw [Bool.not_eq_true'] at this
      rw [this, Bool.and_false]
    · refine noDoubleWs_cons_of c (ih false) ?_
      intro d hd
      rw [Bool.eq_false_iff.mpr h1, Bool.false_and]

lemma noTripleB_wsCollapse :
    ∀ (z : Str), noTripleNW z = true →
      noTripleB (wsCollapseGo false z) = true ∧
      noTripleB (wsCollapseGo true z) = true := by
  intro z
  induction z with
  | nil => exact fun _ => ⟨rfl, rfl⟩
  | cons c t ih =>
    intro h
    obtain ⟨ihf, iht⟩ := ih (noTripleNW_tail h)
    have main : isWsChar c = false →
        noTripleB (c :: wsCollapseGo false t) = true := by
      intro hcw
      refine noTripleB_cons_of c ihf ?_
      intro d e t2 hl hpair
      obtain ⟨hcd, hde⟩ := hpair
      have hdw : isWsChar d = false := hcd ▸ hcw
      have hhead : headOpt t = some d := by
        apply head_wsCollapseGo_false _ hdw
        rw [hl]
        rfl
      cases t with
      | nil => cases hhead
      | cons x t3 =>
        simp only [headOpt] at hhead
        injection hhead with hxd
        subst hxd
        rw [wsCollapseGo, if_neg (by rw [hdw]; exact Bool.false_ne_true)] at hl
        rw [List.cons.injEq] at hl
        obtain ⟨-, hl2⟩ := hl
        have hew : isWsChar e = false := hde ▸ hdw
        have hhead2 : headOpt t3 = some e := by
          apply head_wsCollapseGo_false _ hew
          rw [hl2]
          rfl
        cases t3 with
        | nil => cases hhead2
        | cons y t4 =>
          simp only [headOpt] at hhead2
          injection hhead2 with hye
          subst hye
          have := noTripleNW_head h hcd hde
          rw [hcw] at this
          cases this
    constructor
    · rw [wsCollapseGo]
      cases h1 : isWsChar c with
      | true =>
        rw [if_pos rfl, if_neg Bool.false_ne_true]
        refine noTripleB_cons_of ' ' iht ?_
        intro d e t2 hl hpair
        obtain ⟨hcd, hde⟩ := hpair
        have := wsCollapseGo_true_head t
        rw [hl] at this
        simp only [headOpt, noWsAt] at this
        rw [Bool.not_eq_true'] at this
        rw [← hcd] at this
        exact absurd this (by decide)
      | false =>
        rw [if_neg Bool.false_ne_true]
        exact main h1
    · rw [wsCollapseGo]
      cases h1 : isWsChar c with
      | true =>
        rw [if_pos rfl, if_pos rfl]
        exact iht
      | false =>
        rw [if_neg Bool.false_ne_true]
        exact main h1

lemma noTripleB_append_right {a b : Str} (h : noTripleB (a ++ b) = true) :
    noTripleB b = true := by
  induction a with
  | nil => exact h
  | cons x a2 ih =>
    rw [List.cons_append] at h
    exact ih (noTripleB_tail h)

lemma noTripleB_append_left {a b : Str} (h : noTripleB (a ++ b) = true) :
    noTripleB a = true := by
  induction a with
  | nil => rfl
  | cons x a2 ih =>
    rw [List.cons_append] at h
    refine noTripleB_cons_of x (ih (noTripleB_tail h)) ?_
    intro d e t2 hl
    have h2 := h
    rw [hl] at h2
    simp only [List.cons_append] at h2
    exact noTripleB_head h2

lemma noDoubleWs_head {a d : Char} {l : Str}
    (h : noDoubleWs (a :: d :: l) = true) : (isWsChar a && isWsChar d) = false := by
  rw [noDoubleWs, Bool.and_eq_true] at h
  have h1 := h.1
  rw [Bool.not_eq_true'] at h1
  exact h1

lemma noDoubleWs_append_right {a b : Str} (h : noDoubleWs (a ++ b) = true) :
    noDoubleWs b = true := by
  induction a with
  | nil => exact h
  | cons x a2 ih =>
    rw [List.cons_append] at h
    exact ih (noDoubleWs_tail h)

lemma noDoubleWs_append_left {a b : Str} (h : noDoubleWs (a ++ b) = true) :
    noDoubleWs a = true := by
  induction a with
  | nil => rfl
  | cons x a2 ih =>
    rw [List.cons_append] at h
    refine noDoubleWs_cons_of x (ih (noDoubleWs_tail h)) ?_
    intro d hd
    cases a2 with
    | nil => cases hd
    | cons y t =>
      simp only [headOpt] at hd
      injection hd with hd
      subst hd
      rw [List.cons_append] at h
      exact noDoubleWs_head h

lemma stripWs_decomp (s : Str) :
    ∃ pre suf, s = pre ++ (stripWs s ++ suf) ∧
      s.dropWhile isWsChar = stripWs s ++ suf := by
  refine ⟨s.takeWhile isWsChar,
    ((s.dropWhile isWsChar).reverse.takeWhile isWsChar).reverse, ?_, ?_⟩
  · conv_lhs => rw [← List.takeWhile_append_dropWhile isWsChar s]
    congr 1
    conv_lhs => rw [← List.reverse_reverse (s.dropWhile isWsChar),
      ← List.takeWhile_append_dropWhile isWsChar (s.dropWhile isWsChar).reverse]
    rw [List.reverse_append]
    rfl
  · conv_lhs => rw [← List.reverse_reverse (s.dropWhile isWsChar),
      ← List.takeWhile_append_dropWhile isWsChar (s.dropWhile isWsChar).reverse]
    rw [List.reverse_append]
    rfl

lemma head_dropWhile_not (p : Char → Bool) :
    ∀ (l : Str) {c : Char}, headOpt (l.dropWhile p) = some c → p c = false := by
  intro l
  induction l with
  | nil => intro c h; cases h
  | cons x t ih =>
    intro c h
    rw [List.dropWhile_cons] at h
    split_ifs at h with h1
    · exact ih h
    · simp only [headOpt] at h
      injection h with h
      rw [← h]
      exact Bool.eq_false_iff.mpr h1

lemma stripWs_head (s : Str) : noWsAt (headOpt (stripWs s)) = true := by
  cases hs : stripWs s with
  | nil => rfl
  | cons c X =>
    obtain ⟨pre, suf, hps, hd⟩ := stripWs_decomp s
    have hh : headOpt (s.dropWhile isWsChar) = some c := by
      rw [hd, hs]
      rfl
    have hc := head_dropWhile_not isWsChar s hh
    simp only [headOpt, noWsAt]
    rw [hc]
    rfl

lemma stripWs_last (s : Str) : noWsAt (stripWs s).getLast? = true := by
  have e : (stripWs s).getLast? =
      headOpt ((s.dropWhile isWsChar).reverse.dropWhile isWsChar) := by
    show ((s.dropWhile isWsChar).reverse.dropWhile isWsChar).reverse.getLast? = _
    rw [List.getLast?_reverse, headOpt_eq_head?]
  rw [e]
  cases hh : headOpt ((s.dropWhile isWsChar).reverse.dropWhile isWsChar) with
  | none => rfl
  | some c =>
    have hc := head_dropWhile_not isWsChar _ hh
    simp only [noWsAt]
    rw [hc]
    rfl

/-- Collapsing whitespace and stripping yields a normal string, provided the
input has good non-whitespace characters and no non-whitespace triples. -/
lemma isNorm_strip_collapse {z : Str}
    (hchars : ∀ c ∈ z, isWsChar c = false → goodC c = true)
    (htr : noTripleNW z = true) :
    isNorm (stripWs (wsCollapse z)) = true := by
  obtain ⟨pre, suf, hps, -⟩ := stripWs_decomp (wsCollapse z)
  rw [isNorm]
  simp only [Bool.and_eq_true]
  refine ⟨⟨⟨⟨?_, ?_⟩, ?_⟩, stripWs_head _⟩, stripWs_last _⟩
  · rw [List.all_eq_true]
    intro c hc
    have hv : c ∈ wsCollapse z := mem_stripWs hc
    rcases mem_wsCollapseGo z false hv with rfl | ⟨hm, hnw⟩
    · decide
    · exact hchars c hm hnw
  · have hv : noTripleB (wsCollapse z) = true := (noTripleB_wsCollapse z htr).1
    rw [hps] at hv
    exact noTripleB_append_left (noTripleB_append_right hv)
  · have hv : noDoubleWs (wsCollapse z) = true := noDoubleWs_wsCollapseGo z false
    rw [hps] at hv
    exact noDoubleWs_append_left (noDoubleWs_append_right hv)

/-! ### Composing match-freeness over appends -/

lemma noLitMatch_prev_congr (key : Str) :
    ∀ (t : Str) {p p' : Option Char}, noWordAt p = noWordAt p' →
      noLitMatch key p t = noLitMatch key p' t := by
  intro t
  cases t with
  | nil => intro p p' _; rfl
  | cons c t2 =>
    intro p p' h
    rw [noLitMatch, noLitMatch, matchAt, matchAt, h]

lemma noLitMatch_tail {key : Str} {c : Char} {t : Str} {p : Option Char}
    (h : noLitMatch key p (c :: t) = true) : noLitMatch key (some c) t = true := by
  rw [noLitMatch, Bool.and_eq_true] at h
  exact h.2

lemma isPrefixOf_append_left {k a b : Str} (h : k.isPrefixOf (a ++ b) = true)
    (hle : k.length ≤ a.length) : k.isPrefixOf a = true := by
  rw [List.isPrefixOf_iff_prefix] at h ⊢
  exact List.prefix_of_prefix_length_le h (List.prefix_append a b) hle

lemma prefix_of_short {k a b : Str} (h : k.isPrefixOf (a ++ b) = true)
    (hlt : a.length ≤ k.length) : a.isPrefixOf k = true := by
  rw [List.isPrefixOf_iff_prefix] at h ⊢
  exact List.prefix_of_prefix_length_le (List.prefix_append a b) h hlt

/-- The workhorse for the final analysis: a concatenation is match-free when
both halves are and no crossing occurrence straddles the seam. -/
lemma noLitMatch_append (key : Str) {p : Option Char} {a b : Str}
    (ha : noLitMatch key p a = true)
    (hb : noLitMatch key (ctxAfter p a) b = true)
    (hcross : ∀ i x, 1 ≤ i → i < key.length → a = x ++ key.take i →
      noWordAt (ctxAfter p x) = true →
      ((key.drop i).isPrefixOf b &&
        noWordAt (headOpt (b.drop (key.length - i)))) = false) :
    noLitMatch key p (a ++ b) = true := by
  rw [noLitMatch_iff]
  intro x z hxz hz
  rcases List.append_eq_append_iff.mp hxz with ⟨w, hxw, hbz⟩ | ⟨y, hya, hzy⟩
  · -- the split point lies inside b
    rw [hxw, ctxAfter_append]
    exact (noLitMatch_iff key b _).mp hb w z hbz hz
  · -- the split point lies inside a
    cases hyn : y with
    | nil =>
      rw [hyn, List.nil_append] at hzy
      rw [hyn, List.append_nil] at hya
      have := (noLitMatch_iff key b _).mp hb [] b rfl (hzy ▸ hz)
      rw [ctxAfter_nil] at this
      rw [hzy, ← hya]
      exact this
    | cons y0 yt =>
      subst hzy
      cases hm : matchAt key (ctxAfter p x) (y ++ b) with
      | false => rfl
      | true =>
        exfalso
        obtain ⟨hnw, hpf, hbd⟩ := (matchAt_iff _ _ _).mp hm
        by_cases hkly : key.length ≤ y.length
        · -- the occurrence fits inside a
          have hpfy : key.isPrefixOf y = true := isPrefixOf_append_left hpf hkly
          have hma : matchAt key (ctxAfter p x) y = true := by
            rw [matchAt_iff]
            refine ⟨hnw, hpfy, ?_⟩
            rcases Nat.lt_or_ge key.length y.length with hlt | hge
            · have hyd : y.drop key.length ≠ [] := by
                intro h0
                have hl0 := congrArg List.length h0
                rw [List.length_drop] at hl0
                simp only [List.length_nil] at hl0
                omega
              rw [List.drop_append_of_le_length hkly,
                headOpt_append_of_ne _ hyd] at hbd
              exact hbd
            · have hdy : y.drop key.length = [] := List.drop_eq_nil_of_le hge
              rw [hdy]
              rfl
          have := (noLitMatch_iff key a p).mp ha x y hya
            (by rw [hyn]; exact List.cons_ne_nil y0 yt)
          rw [hma] at this
          cases this
        · -- the occurrence crosses the seam
          push_neg at hkly
          have hyk : y.isPrefixOf key = true := prefix_of_short hpf (le_of_lt hkly)
          have hky : y = key.take y.length := by
            rw [List.isPrefixOf_iff_prefix] at hyk
            obtain ⟨u, hu⟩ := hyk
            rw [← hu, List.take_left]
          have hrest : (key.drop y.length).isPrefixOf b = true := by
            rw [List.isPrefixOf_iff_prefix] at hpf ⊢
            obtain ⟨u, hu⟩ := hpf
            refine ⟨u, ?_⟩
            have h2 := congrArg (List.drop y.length) hu
            rw [List.drop_append_of_le_length (le_of_lt hkly), List.drop_left] at h2
            exact h2
          have hy1 : 1 ≤ y.length := by rw [hyn]; simp
          have hbdb : noWordAt (headOpt (b.drop (key.length - y.length)))
              = true := by
            have e2 : key.length = y.length + (key.length - y.length) := by
              omega
            have e3 : (y ++ b).drop key.length =
                b.drop (key.length - y.length) := by
              conv_lhs => rw [e2]
              exact List.drop_append _
            rw [e3] at hbd
            exact hbd
          have := hcross y.length x hy1 hkly (by rw [hya, ← hky]) hnw
          rw [hrest, hbdb] at this
          cases this

lemma ctxAfter_of_ne_nil {a : Str} (h : a ≠ []) (prev : Option Char) :
    ctxAfter prev a = a.getLast? := by
  cases hg : a.getLast? with
  | none =>
    rw [List.getLast?_eq_none_iff] at hg
    exact absurd hg h
  | some x => exact ctxAfter_of_getLast hg prev

/-- `subLitGo_struct` generalised with a continuation: the scan of
`f ++ rest` decomposes `f` into fragments joined by key copies and then
continues into `rest`, provided no key suffix begins `rest` at a crossing
and `rest` opens with a non-word character. -/
theorem subLitGo_struct_rest (key val : Str)
    (hkh : noWordAt (headOpt key) = false)
    (hkl : noWordAt key.getLast? = false) :
    ∀ (n : Nat) (f : Str), f.length ≤ n → ∀ (rest : Str) (prev : Option Char),
      (∀ i, 1 ≤ i → i < key.length →
        ((key.drop i).isPrefixOf rest &&
          noWordAt (headOpt (rest.drop (key.length - i)))) = false) →
      noWordAt (headOpt rest) = true →
      ∃ (f0 : Str) (fs : List Str),
        f = icalate key (f0 :: fs) ∧
        subLitGo key val 0 prev (f ++ rest) =
          icalate (' ' :: val ++ [' ']) (f0 :: fs) ++
            subLitGo key val 0 (ctxAfter prev f) rest ∧
        noLitMatch key prev f0 = true ∧
        (∀ g ∈ fs, noLitMatch key key.getLast? g = true) ∧
        edgeLastOK (f0 :: fs) ∧
        (∀ g ∈ fs, noWordAt (headOpt g) = true) ∧
        (f0 = [] → fs ≠ [] → noWordAt prev = true) := by
  have hk : key ≠ [] := by
    intro h0
    rw [h0] at hkh
    exact absurd hkh (by decide)
  intro n
  induction n with
  | zero =>
    intro f hle rest prev hcross hrh
    have h0 : f = [] := List.length_eq_zero.mp (Nat.le_zero.mp hle)
    subst h0
    exact ⟨[], [], rfl, by rw [ctxAfter_nil]; rfl, rfl, by simp, trivial, by simp,
      fun _ h => absurd rfl h⟩
  | succ m ih =>
    intro f hle rest prev hcross hrh
    cases f with
    | nil =>
      exact ⟨[], [], rfl, by rw [ctxAfter_nil]; rfl, rfl, by simp, trivial, by simp,
        fun _ h => absurd rfl h⟩
    | cons c f2 =>
      have hlen2 : f2.length ≤ m := by
        simp only [List.length_cons] at hle
        omega
      have hcons : (c :: f2) ++ rest = c :: (f2 ++ rest) := List.cons_append c f2 rest
      cases hm : matchAt key prev (c :: (f2 ++ rest)) with
      | true =>
        obtain ⟨hnw, hpf, hbd⟩ := (matchAt_iff _ _ _).mp hm
        -- the match fits inside c :: f2
        have hfit : key.length ≤ (c :: f2).length := by
          by_contra hbig
          push_neg at hbig
          have hcf : (c :: f2).isPrefixOf key = true := by
            have hpf2 : key.isPrefixOf ((c :: f2) ++ rest) = true := by
              rw [hcons]
              exact hpf
            exact prefix_of_short hpf2 (le_of_lt hbig)
          have hdrop : (key.drop (c :: f2).length).isPrefixOf rest = true := by
            rw [List.isPrefixOf_iff_prefix] at hpf ⊢
            obtain ⟨u, hu⟩ := hpf
            refine ⟨u, ?_⟩
            have h2 := congrArg (List.drop (c :: f2).length) hu
            rw [List.drop_append_of_le_length (le_of_lt hbig)] at h2
            rw [h2, ← hcons, List.drop_left]
          have h1 : 1 ≤ (c :: f2).length := by simp
          have hbd3 : noWordAt
              (headOpt (rest.drop (key.length - (c :: f2).length))) = true := by
            have e2 : key.length =
                (c :: f2).length + (key.length - (c :: f2).length) := by omega
            have e3 : ((c :: f2) ++ rest).drop key.length =
                rest.drop (key.length - (c :: f2).length) := by
              conv_lhs => rw [e2]
              exact List.drop_append _
            rw [← hcons] at hbd
            rw [e3] at hbd
            exact hbd
          have := hcross (c :: f2).length h1 hbig
          rw [hdrop, hbd3] at this
          cases this
        have hpf0 : key.isPrefixOf ((c :: f2) ++ rest) = true := by
          rw [hcons]
          exact hpf
        have hpf2 : key.isPrefixOf (c :: f2) = true :=
          isPrefixOf_append_left hpf0 hfit
        obtain ⟨u, hu⟩ := List.isPrefixOf_iff_prefix.mp hpf2
        cases key with
        | nil => exact absurd rfl hk
        | cons kh ktail =>
          rw [List.cons_append, List.cons.injEq] at hu
          obtain ⟨rfl, hu2⟩ := hu
          -- hu2 : ktail ++ u = f2
          have hul : u.length ≤ m := by
            rw [← hu2] at hlen2
            simp only [List.length_append] at hlen2
            omega
          obtain ⟨f0, fs, hS1, hS2, hS3, hS4, hS5, hS6, hS7⟩ :=
            ih u hul rest (kh :: ktail).getLast? hcross hrh
          have hbd2 : noWordAt (headOpt (u ++ rest)) = true := by
            have hdrop : (kh :: (f2 ++ rest)).drop (kh :: ktail).length = u ++ rest := by
              have e : kh :: (f2 ++ rest) = (kh :: ktail) ++ (u ++ rest) := by
                rw [List.cons_append, ← hu2, List.append_assoc]
              rw [e, List.drop_left]
            rwa [hdrop] at hbd
          have hctx : ctxAfter prev (kh :: f2) = ctxAfter (kh :: ktail).getLast? u := by
            have e : kh :: f2 = (kh :: ktail) ++ u := by
              rw [List.cons_append, hu2]
            rw [e, ctxAfter_append, ctxAfter_of_ne_nil (List.cons_ne_nil kh ktail)]
          refine ⟨[], f0 :: fs, ?_, ?_, rfl, ?_, ⟨by decide, hS5⟩, ?_, fun _ _ => hnw⟩
          · rw [icalate_cons_cons, List.nil_append, ← hS1, List.cons_append, hu2]
          · rw [hcons, subLitGo_match (kh :: ktail) val prev kh (f2 ++ rest) hk hm]
            have hsk : (kh :: ktail).length - 1 = ktail.length := by simp
            have htk : f2 ++ rest = ktail ++ (u ++ rest) := by
              rw [← hu2, List.append_assoc]
            rw [hsk, htk,
              subLitGo_skip (kh :: ktail) val ktail.length (ktail ++ (u ++ rest))
                (some kh) (by simp),
              List.take_left, List.drop_left, ctxAfter_getLast,
              icalate_cons_cons, List.nil_append, hS2, hctx]
            simp [List.append_assoc]
          · intro g hg
            rcases List.mem_cons.mp hg with rfl | hg2
            · exact hS3
            · exact hS4 g hg2
          · intro g hg
            rcases List.mem_cons.mp hg with rfl | hg2
            · by_cases hg0 : g = []
              · rw [hg0]; decide
              · obtain ⟨x, hx⟩ := icalate_eq_append (kh :: ktail) g fs
                have hhead : headOpt g = headOpt (u ++ rest) := by
                  rw [hS1, hx]
                  cases g with
                  | nil => exact absurd rfl hg0
                  | cons d l =>
                    rw [List.cons_append, List.cons_append]
                    rfl
                rwa [hhead]
            · exact hS6 g hg2
      | false =>
        obtain ⟨f0, fs, hS1, hS2, hS3, hS4, hS5, hS6, hS7⟩ :=
          ih f2 hlen2 rest (some c) hcross hrh
        obtain ⟨x, hx⟩ := icalate_eq_append key f0 fs
        have hfull : c :: (f2 ++ rest) = (c :: f0) ++ (x ++ rest) := by
          rw [hS1, hx]
          simp [List.append_assoc]
        have hmf : matchAt key prev (c :: f0) = false := by
          cases hm2 : matchAt key prev (c :: f0) with
          | false => rfl
          | true =>
            exfalso
            obtain ⟨hnw, hpf, hbd2⟩ := (matchAt_iff _ _ _).mp hm2
            have hfit : key.length ≤ (c :: f0).length := by
              rw [List.isPrefixOf_iff_prefix] at hpf
              obtain ⟨u, hu⟩ := hpf
              have := congrArg List.length hu
              simp only [List.length_append] at this
              omega
            rcases Nat.lt_or_ge key.length (c :: f0).length with hlt | hge
            · -- boundary char lies inside c :: f0 : lift to the full text
              have hyd : (c :: f0).drop key.length ≠ [] := by
                intro h0
                have hl0 := congrArg List.length h0
                rw [List.length_drop] at hl0
                simp only [List.length_nil] at hl0
                omega
              have hmfull : matchAt key prev (c :: (f2 ++ rest)) = true := by
                rw [matchAt_iff]
                refine ⟨hnw, ?_, ?_⟩
                · rw [hfull]
                  rw [List.isPrefixOf_iff_prefix] at hpf ⊢
                  exact hpf.trans (List.prefix_append _ _)
                · rw [hfull, List.drop_append_of_le_length hfit,
                    headOpt_append_of_ne _ hyd]
                  exact hbd2
              rw [hmfull] at hm
              cases hm
            · -- key = c :: f0 exactly
              have hkey : key = c :: f0 := by
                rw [List.isPrefixOf_iff_prefix] at hpf
                obtain ⟨u, hu⟩ := hpf
                have hlu : u = [] := by
                  have h3 := congrArg List.length hu
                  simp only [List.length_append] at h3
                  rw [← List.length_eq_zero]
                  omega
                rw [hlu, List.append_nil] at hu
                exact hu
              cases fs with
              | nil =>
                -- x = [] : the full text begins with the key, boundary rest
                have hx0 : x = [] := by
                  have h2 : f0 ++ x = f0 := by
                    rw [← hx]
                    simp [icalate]
                  have h3 := congrArg List.length h2
                  simp only [List.length_append] at h3
                  rw [← List.length_eq_zero]
                  omega
                have hmfull : matchAt key prev (c :: (f2 ++ rest)) = true := by
                  rw [matchAt_iff]
                  refine ⟨hnw, ?_, ?_⟩
                  · rw [hfull, hx0, List.nil_append, ← hkey,
                      List.isPrefixOf_iff_prefix]
                    exact ⟨rest, rfl⟩
                  · rw [hfull, hx0, List.nil_append, ← hkey, List.drop_left]
                    exact hrh
                rw [hmfull] at hm
                cases hm
              | cons g l =>
                by_cases hf0 : f0 = []
                · subst hf0
                  have h1 : noWordAt (some c) = true :=
                    hS7 rfl (List.cons_ne_nil g l)
                  rw [hkey] at hkh
                  simp only [headOpt, noWordAt] at hkh h1
                  simp [hkh] at h1
                · obtain ⟨h51, -⟩ := hS5
                  rw [hkey, getLast?_cons_of_ne c hf0] at hkl
                  rw [h51] at hkl
                  cases hkl
        refine ⟨c :: f0, fs, ?_, ?_, ?_, hS4, ?_, hS6,
          fun h _ => absurd h (List.cons_ne_nil c f0)⟩
        · rw [icalate_cons_head, ← hS1]
        · rw [hcons, subLitGo_nomatch key val prev c (f2 ++ rest) hm,
            icalate_cons_head, ctxAfter_cons, hS2]
          simp [List.cons_append]
        · rw [noLitMatch, Bool.and_eq_true, Bool.not_eq_true']
          exact ⟨hmf, hS3⟩
        · cases fs with
          | nil => trivial
          | cons g l =>
            obtain ⟨h51, h52⟩ := hS5
            refine ⟨?_, h52⟩
            by_cases hf0 : f0 = []
            · subst hf0
              have h1 : noWordAt (some c) = true := hS7 rfl (List.cons_ne_nil g l)
              simpa [List.getLast?] using h1
            · rwa [getLast?_cons_of_ne c hf0]

/-- If no position of `b` starts a match (even looking into `rest`), the
scan copies `b` verbatim. -/
lemma subLitGo_copy (key val : Str) :
    ∀ (b : Str) (rest : Str) (prev : Option Char),
      (∀ x y, b = x ++ y → y ≠ [] →
        matchAt key (ctxAfter prev x) (y ++ rest) = false) →
      subLitGo key val 0 prev (b ++ rest) =
        b ++ subLitGo key val 0 (ctxAfter prev b) rest := by
  intro b
  induction b with
  | nil =>
    intro rest prev _
    rw [ctxAfter_nil]
    rfl
  | cons c b2 ih =>
    intro rest prev h
    have h0 : matchAt key prev (c :: (b2 ++ rest)) = false := by
      have h1 := h [] (c :: b2) rfl (List.cons_ne_nil c b2)
      rw [ctxAfter_nil, List.cons_append] at h1
      exact h1
    have hsh : ∀ x y, b2 = x ++ y → y ≠ [] →
        matchAt key (ctxAfter (some c) x) (y ++ rest) = false := by
      intro x y hxy hy
      have h1 := h (c :: x) y (by rw [hxy, List.cons_append]) hy
      rwa [ctxAfter_cons] at h1
    rw [List.cons_append, subLitGo_nomatch key val prev c (b2 ++ rest) h0,
      ih rest (some c) hsh, ctxAfter_cons, List.cons_append]

/-- A replacement block: the value with one surrounding space each side. -/
def blockOf (v : Str) : Str := ' ' :: v ++ [' ']

/-- No position `p ≥ 1` of the block starts a key match: either as an
in-block word-bounded occurrence, or as a prefix of a match extending past
the block. -/
def blockNoStart (key v : Str) : Bool :=
  (List.range (blockOf v).length).all fun p =>
    decide (p = 0) ||
    (!(key.isPrefixOf ((blockOf v).drop p) &&
       noWordAt (headOpt ((blockOf v).drop (p - 1))) &&
       noWordAt (headOpt ((blockOf v).drop (p + key.length)))) &&
     !((blockOf v).drop p).isPrefixOf key)

/-- No suffix of the key opens the block as the tail of a crossing match. -/
def crossCond (key v : Str) : Bool :=
  (List.range key.length).all fun i =>
    decide (i = 0) ||
    (!((key.drop i).isPrefixOf (blockOf v) &&
        noWordAt (headOpt ((blockOf v).drop (key.length - i)))) &&
     !(blockOf v).isPrefixOf (key.drop i))

lemma drop_pred_of_ne :
    ∀ {x : Str}, x ≠ [] → ∃ xl, x.getLast? = some xl ∧
      x.drop (x.length - 1) = [xl] := by
  intro x
  induction x with
  | nil => intro h; exact absurd rfl h
  | cons a t ih =>
    intro _
    cases t with
    | nil => exact ⟨a, rfl, rfl⟩
    | cons b t2 =>
      obtain ⟨xl, h1, h2⟩ := ih (List.cons_ne_nil b t2)
      refine ⟨xl, ?_, ?_⟩
      · rw [List.getLast?_cons_cons, h1]
      · have e : (a :: b :: t2).length - 1 = (b :: t2).length := by simp
        rw [e]
        rw [show (b :: t2).length = (b :: t2).length - 1 + 1 from by simp]
        rw [List.drop_succ_cons]
        exact h2

lemma cross_from_cond {key v : Str} (hc : crossCond key v = true) (more : Str) :
    ∀ i, 1 ≤ i → i < key.length →
      ((key.drop i).isPrefixOf (blockOf v ++ more) &&
        noWordAt (headOpt ((blockOf v ++ more).drop (key.length - i)))) = false := by
  intro i h1 h2
  cases hp : (key.drop i).isPrefixOf (blockOf v ++ more) with
  | false => rw [Bool.false_and]
  | true =>
    rw [Bool.true_and]
    rw [crossCond, List.all_eq_true] at hc
    have hi := hc i (List.mem_range.mpr h2)
    rw [Bool.or_eq_true, Bool.and_eq_true, Bool.not_eq_true', Bool.not_eq_true',
      decide_eq_true_iff] at hi
    rcases hi with hi | ⟨hA, hB⟩
    · omega
    · have hkl : (key.drop i).length = key.length - i := by
        rw [List.length_drop]
      by_cases hl : (key.drop i).length ≤ (blockOf v).length
      · have hpb : (key.drop i).isPrefixOf (blockOf v) = true :=
          isPrefixOf_append_left hp hl
        rcases Nat.lt_or_ge (key.drop i).length (blockOf v).length with hlt | hge
        · -- boundary character lies inside the block
          rw [Bool.and_eq_false_iff] at hA
          rcases hA with hA | hA
          · rw [hpb] at hA
            cases hA
          · have hdne : (blockOf v).drop (key.length - i) ≠ [] := by
              intro h0
              have := congrArg List.length h0
              rw [List.length_drop] at this
              simp only [List.length_nil] at this
              omega
            rw [show (blockOf v ++ more).drop (key.length - i) =
                (blockOf v).drop (key.length - i) ++ more from
              List.drop_append_of_le_length (by omega),
              headOpt_append_of_ne more hdne]
            exact hA
        · -- the suffix is exactly the block: forbidden by the second conjunct
          exfalso
          have hbp : (blockOf v).isPrefixOf (key.drop i) = true := by
            rw [List.isPrefixOf_iff_prefix] at hpb ⊢
            obtain ⟨u, hu⟩ := hpb
            have hu0 : u = [] := by
              have := congrArg List.length hu
              rw [List.length_append] at this
              rw [← List.length_eq_zero]
              omega
            rw [hu0, List.append_nil] at hu
            exact ⟨[], by rw [List.append_nil, hu]⟩
          rw [hbp] at hB
          cases hB
      · exfalso
        push_neg at hl
        rw [prefix_of_short hp (le_of_lt hl)] at hB
        cases hB

lemma cross_nil (key : Str) :
    ∀ i, 1 ≤ i → i < key.length →
      ((key.drop i).isPrefixOf ([] : Str) &&
        noWordAt (headOpt (([] : Str).drop (key.length - i)))) = false := by
  intro i _ h2
  cases hd : key.drop i with
  | nil =>
    exfalso
    have := congrArg List.length hd
    rw [List.length_drop] at this
    simp only [List.length_nil] at this
    omega
  | cons a t =>
    rw [show (a :: t).isPrefixOf ([] : Str) = false from rfl, Bool.false_and]

/-- The copy hypothesis for a replacement block. -/
lemma block_no_match {key v : Str} (hkh : noWordAt (headOpt key) = false)
    (hbs : blockNoStart key v = true) (rest : Str) (prev : Option Char) :
    ∀ x y, blockOf v = x ++ y → y ≠ [] →
      matchAt key (ctxAfter prev x) (y ++ rest) = false := by
  intro x y hxy hy
  cases hm : matchAt key (ctxAfter prev x) (y ++ rest) with
  | false => rfl
  | true =>
    exfalso
    obtain ⟨hnw, hpf, hbd⟩ := (matchAt_iff _ _ _).mp hm
    cases hx : x with
    | nil =>
      -- a match at position 0 would need the key to begin with a space
      rw [hx, List.nil_append] at hxy
      cases key with
      | nil => exact absurd hkh (by decide)
      | cons kh kt =>
        rw [List.isPrefixOf_iff_prefix] at hpf
        obtain ⟨u, hu⟩ := hpf
        rw [← hxy] at hu
        have hhd := congrArg headOpt hu
        rw [headOpt_append_of_ne u (List.cons_ne_nil kh kt),
          headOpt_append_of_ne rest
            (show blockOf v ≠ [] from List.cons_ne_nil _ _)] at hhd
        simp only [headOpt, blockOf] at hhd
        injection hhd with hhd
        rw [hhd] at hkh
        rw [show headOpt (' ' :: kt) = some ' ' from rfl] at hkh
        exact absurd hkh (by decide)
    | cons x0 x2 =>
      have hxne : x ≠ [] := by rw [hx]; exact List.cons_ne_nil x0 x2
      have hplt : x.length < (blockOf v).length := by
        have := congrArg List.length hxy
        rw [List.length_append] at this
        have hyl : 1 ≤ y.length := by
          cases y with
          | nil => exact absurd rfl hy
          | cons a t => simp
        omega
      have hyd : (blockOf v).drop x.length = y := by
        rw [hxy, List.drop_left]
      rw [blockNoStart, List.all_eq_true] at hbs
      have hb := hbs x.length (List.mem_range.mpr hplt)
      rw [Bool.or_eq_true, Bool.and_eq_true, Bool.not_eq_true', Bool.not_eq_true',
        decide_eq_true_iff] at hb
      rcases hb with hb | ⟨hA, hB⟩
      · have := congrArg List.length hx
        simp only [List.length_cons] at this
        omega
      · obtain ⟨xl, hxl1, hxl2⟩ := drop_pred_of_ne hxne
        have hctx : ctxAfter prev x = some xl := ctxAfter_of_getLast hxl1 prev
        have hdp : (blockOf v).drop (x.length - 1) = xl :: y := by
          have e1 : (blockOf v).drop (x.length - 1) =
              x.drop (x.length - 1) ++ y := by
            rw [hxy, List.drop_append_of_le_length (by omega)]
          rw [e1, hxl2]
          rfl
        by_cases hl : key.length ≤ y.length
        · rcases Nat.lt_or_ge key.length y.length with hlt | hge
          · -- fully inside the block with an in-block boundary character
            have hyne : y.drop key.length ≠ [] := by
              intro h0
              have := congrArg List.length h0
              rw [List.length_drop] at this
              simp only [List.length_nil] at this
              omega
            rw [hyd] at hA
            rw [isPrefixOf_append_left hpf hl, Bool.true_and] at hA
            rw [hdp] at hA
            rw [show headOpt (xl :: y) = some xl from rfl] at hA
            rw [hctx] at hnw
            rw [hnw, Bool.true_and] at hA
            have hbdrop : (blockOf v).drop (x.length + key.length) =
                y.drop key.length := by
              rw [hxy, List.drop_append]
            rw [hbdrop] at hA
            rw [List.drop_append_of_le_length hl,
              headOpt_append_of_ne _ hyne] at hbd
            rw [hbd] at hA
            cases hA
          · -- the key is exactly the rest of the block from here
            have hyk : y = key := by
              have hpk := isPrefixOf_append_left hpf hl
              rw [List.isPrefixOf_iff_prefix] at hpk
              obtain ⟨u, hu⟩ := hpk
              have hlu : u = [] := by
                have := congrArg List.length hu
                simp only [List.length_append] at this
                rw [← List.length_eq_zero]
                omega
              rw [hlu, List.append_nil] at hu
              exact hu.symm
            rw [hyd, hyk] at hB
            have hself : key.isPrefixOf key = true :=
              List.isPrefixOf_iff_prefix.mpr ⟨[], List.append_nil key⟩
            rw [hself] at hB
            cases hB
        · push_neg at hl
          have := prefix_of_short hpf (le_of_lt hl)
          rw [hyd, this] at hB
          cases hB

/-! ### The global decomposition: fragments separated by value blocks -/

/-- The replacement values that `_expand_slang` can insert. -/
def VALS : List Str :=
  ["kill myself".toList, "self harm".toList, "suicide".toList,
   "end my life".toList]

/-- Join an initial fragment with (value, following fragment) pairs, each
value wrapped in its one-space padding. -/
def bJoin (f0 : Str) : List (Str × Str) → Str
  | [] => f0
  | (v, f) :: l => f0 ++ blockOf v ++ bJoin f l

def qsStr : List (Str × Str) → Str
  | [] => []
  | (v, f) :: l => blockOf v ++ bJoin f l

lemma bJoin_eq_qsStr (f0 : Str) (qs : List (Str × Str)) :
    bJoin f0 qs = f0 ++ qsStr qs := by
  cases qs with
  | nil => simp [bJoin, qsStr]
  | cons p l =>
    obtain ⟨v, f⟩ := p
    rw [bJoin, qsStr]
    simp [List.append_assoc]

lemma bJoin_append (f0 : Str) :
    ∀ (ps qs : List (Str × Str)),
      bJoin f0 (ps ++ qs) = bJoin f0 ps ++ qsStr qs := by
  intro ps
  induction ps generalizing f0 with
  | nil =>
    intro qs
    rw [List.nil_append, bJoin, bJoin_eq_qsStr]
  | cons p ps2 ih =>
    intro qs
    obtain ⟨v, f⟩ := p
    rw [List.cons_append, bJoin, bJoin, ih f]
    simp [List.append_assoc]

/-- Fragments produced by a pass, reassembled as pairs with the inserted
value. -/
lemma icalate_eq_bJoin (v : Str) :
    ∀ (g : Str) (gs : List Str),
      icalate (blockOf v) (g :: gs) = bJoin g (gs.map fun h => (v, h)) := by
  intro g gs
  induction gs generalizing g with
  | nil => rfl
  | cons h gs2 ih =>
    rw [icalate_cons_cons, List.map_cons, bJoin, ih h]

/-- Every fragment of an `icalate` decomposition is a middle factor. -/
lemma icalate_mem_decomp (sep : Str) :
    ∀ (gs : List Str) (g0 : Str) (g : Str), g ∈ g0 :: gs →
      ∃ pre suf, icalate sep (g0 :: gs) = pre ++ (g ++ suf) := by
  intro gs
  induction gs with
  | nil =>
    intro g0 g hg
    rcases List.mem_cons.mp hg with rfl | hg2
    · exact ⟨[], [], by simp [icalate]⟩
    · cases hg2
  | cons h gs2 ih =>
    intro g0 g hg
    rcases List.mem_cons.mp hg with rfl | hg2
    · exact ⟨[], sep ++ icalate sep (h :: gs2), by rw [icalate_cons_cons]; simp⟩
    · obtain ⟨pre, suf, hps⟩ := ih h g hg2
      exact ⟨g0 ++ sep ++ pre, suf, by rw [icalate_cons_cons, hps]; simp⟩

/-- If the key starts with a word character and a fragment starts with a
non-word character (or is empty), the left context is irrelevant. -/
lemma noLitMatch_strengthen {key f : Str}
    (hkh : noWordAt (headOpt key) = false)
    (hf : noWordAt (headOpt f) = true) {p : Option Char}
    (h : noLitMatch key p f = true) (p' : Option Char) :
    noLitMatch key p' f = true := by
  cases f with
  | nil => rfl
  | cons c t =>
    rw [noLitMatch, Bool.and_eq_true] at h ⊢
    refine ⟨?_, h.2⟩
    rw [Bool.not_eq_true']
    cases hm : matchAt key p' (c :: t) with
    | false => rfl
    | true =>
      exfalso
      obtain ⟨-, hpf, -⟩ := (matchAt_iff _ _ _).mp hm
      cases key with
      | nil => exact absurd hkh (by decide)
      | cons kh kt =>
        rw [List.isPrefixOf_iff_prefix] at hpf
        obtain ⟨u, hu⟩ := hpf
        rw [List.cons_append, List.cons.injEq] at hu
        obtain ⟨rfl, -⟩ := hu
        simp only [headOpt, noWordAt] at hkh hf
        rw [hkh] at hf
        cases hf

/-- A middle factor with non-word edges inherits match-freeness. -/
lemma noLitMatch_of_infix {key : Str}
    (hkh : noWordAt (headOpt key) = false)
    (hkl : noWordAt key.getLast? = false)
    {p : Option Char} {pre g suf : Str}
    (h : noLitMatch key p (pre ++ (g ++ suf)) = true)
    (hg : noWordAt (headOpt g) = true)
    (hgl : noWordAt g.getLast? = true ∨ suf = [])
    (p' : Option Char) :
    noLitMatch key p' g = true := by
  have hmain : noLitMatch key (ctxAfter p pre) g = true := by
    rw [noLitMatch_iff]
    intro x z hxz hz
    cases hm : matchAt key (ctxAfter (ctxAfter p pre) x) z with
    | false => rfl
    | true =>
      exfalso
      obtain ⟨hnw, hpf, hbd⟩ := (matchAt_iff _ _ _).mp hm
      -- lift the occurrence into the full string
      have hfmatch : matchAt key (ctxAfter p (pre ++ x)) (z ++ suf) = true := by
        rw [matchAt_iff]
        refine ⟨?_, ?_, ?_⟩
        · rwa [ctxAfter_append]
        · rw [List.isPrefixOf_iff_prefix] at hpf ⊢
          exact hpf.trans (List.prefix_append z suf)
        · by_cases hzk : z.drop key.length = []
          · -- the occurrence ends exactly at the end of g
            have hzlen : z.length ≤ key.length := by
              have := congrArg List.length hzk
              rw [List.length_drop] at this
              simp only [List.length_nil] at this
              omega
            have hklen : key.length ≤ z.length := by
              rw [List.isPrefixOf_iff_prefix] at hpf
              obtain ⟨u, hu⟩ := hpf
              have := congrArg List.length hu
              rw [List.length_append] at this
              omega
            have hzkey : z = key := by
              rw [List.isPrefixOf_iff_prefix] at hpf
              obtain ⟨u, hu⟩ := hpf
              have hlu : u = [] := by
                have := congrArg List.length hu
                rw [List.length_append] at this
                rw [← List.length_eq_zero]
                omega
              rw [hlu, List.append_nil] at hu
              exact hu.symm
            rcases hgl with hgl | hgl
            · -- impossible: g ends in a non-word character, the key in a
              -- word character
              exfalso
              have hglast : g.getLast? = key.getLast? := by
                rw [hxz, hzkey]
                cases hkey : key with
                | nil => exact absurd hkh (by rw [hkey]; decide)
                | cons kh kt =>
                  rw [← hkey,
                    List.getLast?_append_of_ne_nil x]
                  rw [hkey]
                  exact List.cons_ne_nil kh kt
              rw [hglast] at hgl
              rw [hgl] at hkl
              cases hkl
            · rw [hgl, List.append_nil, hzk]
              rfl
          · rw [List.drop_append_of_le_length, headOpt_append_of_ne _ hzk]
            · exact hbd
            · by_contra hkz
              push_neg at hkz
              exact hzk (List.drop_eq_nil_of_le (le_of_lt hkz))
      have hgood := (noLitMatch_iff key _ p).mp h (pre ++ x) (z ++ suf)
        (by rw [hxz]; simp [List.append_assoc])
        (by intro h0; rcases List.append_eq_nil.mp h0 with ⟨h1, -⟩; exact hz h1)
      rw [hfmatch] at hgood
      cases hgood
  exact noLitMatch_strengthen hkh hg hmain p'

/-! ### Positional view of kms matches, and inheritance by middle factors -/

lemma kmsMatchEnd_none_of_ne {c : Char} (t : Str) (hc : c ≠ 'k') :
    kmsMatchEnd (c :: t) = none := by
  rw [kmsMatchEnd.eq_def]
  split
  case _ t1 heq =>
    rw [List.cons.injEq] at heq
    exact absurd heq.1 hc
  case _ => rfl

lemma noKmsMatch_iff :
    ∀ (t : Str) (prev : Option Char),
      noKmsMatch prev t = true ↔
      ∀ a b, t = a ++ b → b ≠ [] →
        (noWordAt (ctxAfter prev a) && (kmsMatchEnd b).isSome) = false := by
  intro t
  induction t with
  | nil =>
    intro prev
    simp only [noKmsMatch, true_iff]
    intro a b hab hb
    have := List.append_eq_nil.mp hab.symm
    exact absurd this.2 hb
  | cons c t ih =>
    intro prev
    simp only [noKmsMatch, Bool.and_eq_true, Bool.not_eq_true']
    constructor
    · rintro ⟨h0, hrest⟩ a b hab hb
      cases a with
      | nil =>
        simp only [List.nil_append] at hab
        rw [ctxAfter_nil, ← hab]
        exact h0
      | cons a0 a2 =>
        rw [List.cons_append, List.cons.injEq] at hab
        rcases hab with ⟨rfl, htb⟩
        rw [ctxAfter_cons]
        exact (ih (some c)).mp hrest a2 b htb hb
    · intro h
      refine ⟨?_, ?_⟩
      · have := h [] (c :: t) rfl (List.cons_ne_nil c t)
        rwa [ctxAfter_nil] at this
      · rw [ih (some c)]
        intro a b hab hb
        have := h (c :: a) b (by rw [hab, List.cons_append]) hb
        rwa [ctxAfter_cons] at this

lemma noKmsMatch_strengthen {f : Str}
    (hf : noWordAt (headOpt f) = true) {p : Option Char}
    (h : noKmsMatch p f = true) (p' : Option Char) :
    noKmsMatch p' f = true := by
  cases f with
  | nil => rfl
  | cons c t =>
    rw [noKmsMatch, Bool.and_eq_true] at h ⊢
    refine ⟨?_, h.2⟩
    have hck : c ≠ 'k' := by
      intro hck
      subst hck
      simp only [headOpt, noWordAt] at hf
      rw [Bool.not_eq_true'] at hf
      exact absurd hf (by decide)
    rw [kmsMatchEnd_none_of_ne t hck]
    simp

/-- A middle factor of kms-match-free text whose last character is
non-word (or which is final) is itself kms-match-free. -/
lemma noKmsMatch_of_infix {p : Option Char} {pre g suf : Str}
    (h : noKmsMatch p (pre ++ (g ++ suf)) = true)
    (hg : noWordAt (headOpt g) = true)
    (hgl : noWordAt g.getLast? = true ∨ suf = [])
    (p' : Option Char) :
    noKmsMatch p' g = true := by
  have hmain : noKmsMatch (ctxAfter p pre) g = true := by
    rw [noKmsMatch_iff]
    intro x z hxz hz
    cases hm : (noWordAt (ctxAfter (ctxAfter p pre) x) && (kmsMatchEnd z).isSome) with
    | false => rfl
    | true =>
      exfalso
      rw [Bool.and_eq_true] at hm
      obtain ⟨hnw, hsome⟩ := hm
      rw [Option.isSome_iff_exists] at hsome
      obtain ⟨after, hme⟩ := hsome
      obtain ⟨g1, g2, hspan, hg1, hg2, hbd⟩ := kmsMatchEnd_spec hme
      -- the span in the full string
      have hme2 : (kmsMatchEnd (z ++ suf)).isSome = true := by
        have he : z ++ suf = ('k' :: g1 ++ 'm' :: g2 ++ ['s']) ++ (after ++ suf) := by
          rw [hspan]
          simp [List.append_assoc]
        rw [he, kmsMatchEnd_shape hg1 hg2]
        rw [if_pos]
        · rfl
        · cases hae : after with
          | nil =>
            rcases hgl with hgl | hgl
            · exfalso
              have hglast : g.getLast? = some 's' := by
                rw [hxz, hspan, hae]
                have he2 : x ++ ('k' :: g1 ++ 'm' :: g2 ++ 's' :: []) =
                    (x ++ ('k' :: g1 ++ 'm' :: g2)) ++ ['s'] := by
                  simp [List.append_assoc]
                rw [he2]
                exact getLast?_append_singleton _ 's'
              rw [hglast] at hgl
              exact absurd hgl (by decide)
            · rw [hgl]
              rfl
          | cons a0 a2 =>
            rw [← hae, headOpt_append_of_ne suf (by rw [hae]; exact List.cons_ne_nil a0 a2)]
            exact hbd
      have hfull := (noKmsMatch_iff _ p).mp h (pre ++ x) (z ++ suf)
        (by rw [hxz]; simp [List.append_assoc])
        (by intro h0; rcases List.append_eq_nil.mp h0 with ⟨h1, -⟩; exact hz h1)
      rw [ctxAfter_append, hnw, hme2] at hfull
      cases hfull
  exact noKmsMatch_strengthen hg hmain p'

/-! ### Crossing kms spans -/

/-- No tail of a `k\W*m\W*s` span (with its end boundary) opens this text:
such a tail is either non-word gap, `m`, gap, `s`, or non-word gap, `s`. -/
def KmsCrossFree (rest : Str) : Prop :=
  (∀ w g2 r2, (∀ c ∈ w, isWordChar c = false) →
      (∀ c ∈ g2, isWordChar c = false) →
      rest = (w ++ 'm' :: g2 ++ ['s']) ++ r2 →
      noWordAt (headOpt r2) = true → False) ∧
  (∀ w r2, (∀ c ∈ w, isWordChar c = false) →
      rest = (w ++ ['s']) ++ r2 →
      noWordAt (headOpt r2) = true → False)

lemma kmsCrossFree_nil : KmsCrossFree ([] : Str) := by
  constructor
  · intro w g2 r2 _ _ heq _
    rcases List.append_eq_nil.mp heq.symm with ⟨h1, -⟩
    rcases List.append_eq_nil.mp h1 with ⟨-, h2⟩
    exact List.cons_ne_nil _ _ h2
  · intro w r2 _ heq _
    rcases List.append_eq_nil.mp heq.symm with ⟨h1, -⟩
    rcases List.append_eq_nil.mp h1 with ⟨-, h2⟩
    exact List.cons_ne_nil _ _ h2

/-- Text opening with a word character other than `m`, which if it is `s`
is followed by another word character, admits no span tail. -/
lemma kmsCrossFree_of_head {c d : Char} {r3 : Str}
    (hc : isWordChar c = true) (hm : c ≠ 'm')
    (hs : c = 's' → isWordChar d = true) :
    KmsCrossFree (c :: d :: r3) := by
  constructor
  · intro w g2 r2 hw _ heq _
    cases w with
    | nil =>
      simp only [List.nil_append, List.cons_append] at heq
      injection heq with e1 e2
      exact hm e1
    | cons w0 w1 =>
      simp only [List.cons_append] at heq
      injection heq with e1 e2
      have h3 := hw w0 (List.mem_cons_self w0 w1)
      rw [← e1] at h3
      rw [hc] at h3
      exact absurd h3 (by decide)
  · intro w r2 hw heq hbd
    cases w with
    | nil =>
      simp only [List.nil_append, List.cons_append] at heq
      injection heq with e1 e2
      have hd := hs e1
      rw [← e2] at hbd
      simp only [headOpt, noWordAt] at hbd
      rw [hd] at hbd
      exact absurd hbd (by decide)
    | cons w0 w1 =>
      simp only [List.cons_append] at heq
      injection heq with e1 e2
      have h3 := hw w0 (List.mem_cons_self w0 w1)
      rw [← e1] at h3
      rw [hc] at h3
      exact absurd h3 (by decide)

lemma kmsCrossFree_cons_nonword {c : Char} {rest : Str}
    (hc : isWordChar c = false) (h : KmsCrossFree rest) :
    KmsCrossFree (c :: rest) := by
  obtain ⟨h1, h2⟩ := h
  constructor
  · intro w g2 r2 hw hg2 heq hbd
    cases w with
    | nil =>
      simp only [List.nil_append, List.cons_append] at heq
      injection heq with e1 e2
      rw [e1] at hc
      exact absurd hc (by decide)
    | cons w0 w1 =>
      simp only [List.cons_append] at heq
      injection heq with e1 e2
      exact h1 w1 g2 r2 (fun x hx => hw x (List.mem_cons_of_mem w0 hx)) hg2
        (by rw [e2]) hbd
  · intro w r2 hw heq hbd
    cases w with
    | nil =>
      simp only [List.nil_append, List.cons_append] at heq
      injection heq with e1 e2
      rw [e1] at hc
      exact absurd hc (by decide)
    | cons w0 w1 =>
      simp only [List.cons_append] at heq
      injection heq with e1 e2
      exact h2 w1 r2 (fun x hx => hw x (List.mem_cons_of_mem w0 hx))
        (by rw [e2]) hbd

/-- Shapes of a proper tail of the body `g1 m g2 s` of a kms span. -/
lemma kmsSdrop_cases (g1 g2 : Str) (j : Nat)
    (hj : j < (g1 ++ 'm' :: g2 ++ ['s']).length) :
    (∃ w, (g1 ++ 'm' :: g2 ++ ['s']).drop j = w ++ 'm' :: g2 ++ ['s'] ∧
      ∀ c ∈ w, c ∈ g1) ∨
    (∃ w, (g1 ++ 'm' :: g2 ++ ['s']).drop j = w ++ ['s'] ∧ ∀ c ∈ w, c ∈ g2) := by
  have hlen : (g1 ++ 'm' :: g2 ++ ['s']).length = g1.length + g2.length + 2 := by
    simp only [List.length_append, List.length_cons, List.length_nil]
    omega
  have hja : j ≤ (g1 ++ 'm' :: g2).length := by
    rw [List.length_append, List.length_cons]
    omega
  by_cases hle : j ≤ g1.length
  · left
    refine ⟨g1.drop j, ?_, fun c hc => List.drop_subset j g1 hc⟩
    rw [List.drop_append_of_le_length hja, List.drop_append_of_le_length hle]
  · right
    push_neg at hle
    refine ⟨g2.drop (j - g1.length - 1), ?_, fun c hc => List.drop_subset _ g2 hc⟩
    have hij : j = g1.length + (j - g1.length) := by omega
    have hi1 : j - g1.length = (j - g1.length - 1) + 1 := by omega
    have hD : (g1 ++ 'm' :: g2).drop j = g2.drop (j - g1.length - 1) := by
      conv_lhs => rw [hij]
      rw [List.drop_append]
      conv_lhs => rw [hi1]
      rw [List.drop_succ_cons]
    rw [List.drop_append_of_le_length hja, hD]

/-- Structure of the kms pass over `f ++ rest` when no span tail can open
`rest`: the pass decomposes `f` and continues into `rest` from the carried
context. -/
theorem subKmsStarGo_struct_rest (val : Str) :
    ∀ (n : Nat) (f : Str), f.length ≤ n → ∀ (rest : Str) (prev : Option Char),
      KmsCrossFree rest →
      noWordAt (headOpt rest) = true →
      ∃ (f0 : Str) (ps : List (Str × Str)),
        f = kJoin f0 ps ∧
        subKmsStarGo val 0 prev (f ++ rest) =
          kJoin f0 (ps.map fun p => (' ' :: val ++ [' '], p.2)) ++
            subKmsStarGo val 0 (ctxAfter prev f) rest ∧
        noKmsMatch prev f0 = true ∧
        (∀ p ∈ ps, noKmsMatch (some 's') p.2 = true) ∧
        (∀ p ∈ ps, KmsShaped p.1) ∧
        edgeLastOK (f0 :: ps.map Prod.snd) ∧
        (∀ p ∈ ps, noWordAt (headOpt p.2) = true) ∧
        (f0 = [] → ps ≠ [] → noWordAt prev = true) := by
  intro n
  induction n with
  | zero =>
    intro f hle rest prev hcf hrh
    have h0 : f = [] := List.length_eq_zero.mp (Nat.le_zero.mp hle)
    subst h0
    exact ⟨[], [], rfl, by rw [ctxAfter_nil]; rfl, rfl, by simp, by simp, trivial,
      by simp, fun _ h => absurd rfl h⟩
  | succ m ih =>
    intro f hle rest prev hcf hrh
    cases f with
    | nil =>
      exact ⟨[], [], rfl, by rw [ctxAfter_nil]; rfl, rfl, by simp, by simp, trivial,
        by simp, fun _ h => absurd rfl h⟩
    | cons c f2 =>
      have hlen2 : f2.length ≤ m := by
        simp only [List.length_cons] at hle
        omega
      cases hnw : noWordAt prev with
      | true =>
        cases hme : kmsMatchEnd (c :: (f2 ++ rest)) with
        | some u =>
          obtain ⟨g1, g2, hspan, hg1, hg2, hbd⟩ := kmsMatchEnd_spec hme
          simp only [List.cons_append] at hspan
          rw [List.cons.injEq] at hspan
          obtain ⟨rfl, hf2r⟩ := hspan
          have hf2rp : f2 ++ rest = (g1 ++ 'm' :: g2 ++ ['s']) ++ u := by
            rw [hf2r]; simp [List.append_assoc]
          by_cases hfit : (g1 ++ 'm' :: g2 ++ ['s']).length ≤ f2.length
          · -- the span fits inside the fragment part
            have hSpre : (g1 ++ 'm' :: g2 ++ ['s']) <+: f2 :=
              List.prefix_of_prefix_length_le ⟨u, hf2rp.symm⟩ ⟨rest, rfl⟩ hfit
            obtain ⟨u2, hu2⟩ := hSpre
            have hu : u = u2 ++ rest := by
              have he : (g1 ++ 'm' :: g2 ++ ['s']) ++ (u2 ++ rest) =
                  (g1 ++ 'm' :: g2 ++ ['s']) ++ u := by
                rw [← List.append_assoc, hu2, hf2rp]
              exact (List.append_cancel_left he).symm
            have hu2len : u2.length ≤ m := by
              have := congrArg List.length hu2
              rw [List.length_append] at this
              omega
            obtain ⟨f0, ps, hS1, hS2, hS3, hS4, hS5, hS6, hS7, hS8⟩ :=
              ih u2 hu2len rest (some 's') hcf hrh
            have hctxS : ∀ q : Option Char,
                ctxAfter q (g1 ++ 'm' :: g2 ++ ['s']) = some 's' := by
              intro q
              refine ctxAfter_of_getLast ?_ q
              have e : g1 ++ 'm' :: g2 ++ ['s'] = (g1 ++ 'm' :: g2) ++ ['s'] := rfl
              rw [e, getLast?_append_singleton]
            refine ⟨[], ('k' :: g1 ++ 'm' :: g2 ++ ['s'], f0) :: ps,
              ?_, ?_, rfl, ?_, ?_, ?_, ?_, fun _ _ => rfl⟩
            · show 'k' :: f2 =
                [] ++ ('k' :: g1 ++ 'm' :: g2 ++ ['s']) ++ kJoin f0 ps
              rw [← hS1, ← hu2]
              simp [List.append_assoc]
            · show subKmsStarGo val 0 prev (('k' :: f2) ++ rest) =
                ([] ++ (' ' :: val ++ [' ']) ++
                  kJoin f0 (ps.map fun p => (' ' :: val ++ [' '], p.2))) ++
                  subKmsStarGo val 0 (ctxAfter prev ('k' :: f2)) rest
              rw [List.cons_append,
                subKmsStarGo_match val prev 'k' (f2 ++ rest) u hnw hme]
              have hskip : ('k' :: (f2 ++ rest)).length - u.length - 1 =
                  (g1 ++ 'm' :: g2 ++ ['s']).length := by
                have h1 := congrArg List.length hf2rp
                simp only [List.length_append, List.length_cons,
                  List.length_nil] at h1 ⊢
                omega
              rw [hskip, hf2rp,
                subKmsStarGo_skip val (g1 ++ 'm' :: g2 ++ ['s']).length
                  ((g1 ++ 'm' :: g2 ++ ['s']) ++ u) (some 'k') (by simp),
                List.take_left, List.drop_left, hctxS (some 'k'), hu, hS2]
              have hctx2 : ctxAfter prev ('k' :: f2) = ctxAfter (some 's') u2 := by
                have e2 : 'k' :: f2 = ('k' :: (g1 ++ 'm' :: g2 ++ ['s'])) ++ u2 := by
                  rw [← hu2]; rfl
                rw [e2, ctxAfter_append]
                have e3 : ctxAfter prev ('k' :: (g1 ++ 'm' :: g2 ++ ['s'])) =
                    some 's' := by
                  refine ctxAfter_of_getLast ?_ prev
                  have e4 : 'k' :: (g1 ++ 'm' :: g2 ++ ['s']) =
                      ('k' :: (g1 ++ 'm' :: g2)) ++ ['s'] := by
                    simp [List.append_assoc]
                  rw [e4, getLast?_append_singleton]
                rw [e3]
              rw [hctx2]
              simp [List.append_assoc]
            · intro p hp
              rcases List.mem_cons.mp hp with rfl | hp2
              · exact hS3
              · exact hS4 p hp2
            · intro p hp
              rcases List.mem_cons.mp hp with rfl | hp2
              · exact ⟨g1, g2, rfl, hg1, hg2⟩
              · exact hS5 p hp2
            · exact ⟨by decide, hS6⟩
            · intro p hp
              rcases List.mem_cons.mp hp with rfl | hp2
              · show noWordAt (headOpt f0) = true
                by_cases hf0 : f0 = []
                · rw [hf0]; decide
                · obtain ⟨x, hx⟩ := kJoin_eq_append f0 ps
                  have he : headOpt f0 = headOpt u := by
                    rw [hu, hS1, hx,
                      headOpt_append_of_ne rest (show f0 ++ x ≠ [] by simp [hf0]),
                      headOpt_append_of_ne x hf0]
                  rw [he]
                  exact hbd
              · exact hS7 p hp2
          · -- the span would cross into `rest`: impossible
            exfalso
            push_neg at hfit
            have hfpre : f2 <+: (g1 ++ 'm' :: g2 ++ ['s']) :=
              List.prefix_of_prefix_length_le ⟨rest, rfl⟩ ⟨u, hf2rp.symm⟩
                (le_of_lt hfit)
            obtain ⟨S2, hS2e⟩ := hfpre
            have hrest : rest = S2 ++ u := by
              have he : f2 ++ (S2 ++ u) = f2 ++ rest := by
                rw [← List.append_assoc, hS2e, hf2rp]
              exact (List.append_cancel_left he).symm
            have hS2d : (g1 ++ 'm' :: g2 ++ ['s']).drop f2.length = S2 := by
              rw [← hS2e, List.drop_left]
            rcases kmsSdrop_cases g1 g2 f2.length hfit with ⟨w, hw1, hw2⟩ |
              ⟨w, hw1, hw2⟩
            · exact hcf.1 w g2 u
                (fun x hx => hg1 x (hw2 x hx)) hg2
                (by rw [hrest, ← hw1, hS2d]) hbd
            · exact hcf.2 w u
                (fun x hx => hg2 x (hw2 x hx))
                (by rw [hrest, ← hw1, hS2d]) hbd
        | none =>
          have hni : (noWordAt prev && (kmsMatchEnd (c :: (f2 ++ rest))).isSome)
              = false := by
            rw [hme]; simp
          obtain ⟨f0, ps, hS1, hS2, hS3, hS4, hS5, hS6, hS7, hS8⟩ :=
            ih f2 hlen2 rest (some c) hcf hrh
          have hmf : (noWordAt prev && (kmsMatchEnd (c :: f0)).isSome) = false := by
            rw [hnw, Bool.true_and]
            cases hme2 : kmsMatchEnd (c :: f0) with
            | none => rfl
            | some a =>
              exfalso
              obtain ⟨G1, G2, hspan2, hG1, hG2, hbd2⟩ := kmsMatchEnd_spec hme2
              simp only [List.cons_append] at hspan2
              cases ps with
              | nil =>
                have ht2f : f2 = f0 := hS1
                have hfull : c :: (f2 ++ rest) =
                    ('k' :: G1 ++ 'm' :: G2 ++ ['s']) ++ (a ++ rest) := by
                  rw [ht2f, ← List.cons_append, hspan2]
                  simp [List.append_assoc]
                have hsome : kmsMatchEnd (c :: (f2 ++ rest)) = some (a ++ rest) := by
                  rw [hfull, kmsMatchEnd_shape hG1 hG2, if_pos]
                  cases ha : a with
                  | nil => rw [List.nil_append]; exact hrh
                  | cons a0 al =>
                    rw [headOpt_append_of_ne rest (by simp)]
                    rw [← ha]
                    exact hbd2
                rw [hsome] at hme
                cases hme
              | cons p l =>
                cases a with
                | nil =>
                  obtain ⟨h61, -⟩ := hS6
                  rw [List.cons.injEq] at hspan2
                  obtain ⟨-, hf0e⟩ := hspan2
                  have hlast : f0.getLast? = some 's' := by
                    have e2 : f0 = (G1 ++ 'm' :: G2) ++ ['s'] := by
                      rw [hf0e]
                      try simp [List.append_assoc]
                    rw [e2, getLast?_append_singleton]
                  rw [hlast] at h61
                  exact absurd h61 (by decide)
                | cons a0 al =>
                  obtain ⟨x, hx⟩ := kJoin_eq_append f0 (p :: l)
                  have hfull : c :: (f2 ++ rest) =
                      ('k' :: G1 ++ 'm' :: G2 ++ ['s']) ++ ((a0 :: al) ++ (x ++ rest)) := by
                    rw [hS1, hx, ← List.cons_append, ← List.append_assoc,
                      ← List.cons_append, hspan2]
                    simp [List.append_assoc]
                  have hsome : kmsMatchEnd (c :: (f2 ++ rest)) =
                      some ((a0 :: al) ++ (x ++ rest)) := by
                    rw [hfull, kmsMatchEnd_shape hG1 hG2,
                      if_pos (by rw [headOpt_append_of_ne _ (by simp)]; exact hbd2)]
                  rw [hsome] at hme
                  cases hme
          refine ⟨c :: f0, ps, ?_, ?_, ?_, hS4, hS5, ?_, hS7,
            fun h _ => absurd h (List.cons_ne_nil c f0)⟩
          · rw [kJoin_cons_head, ← hS1]
          · rw [List.cons_append,
              subKmsStarGo_nomatch val prev c (f2 ++ rest) hni, hS2,
              kJoin_cons_head, ctxAfter_cons]
            simp [List.cons_append]
          · rw [noKmsMatch, Bool.and_eq_true, Bool.not_eq_true']
            exact ⟨hmf, hS3⟩
          · cases hps : ps with
            | nil => trivial
            | cons p l =>
              rw [hps] at hS6
              obtain ⟨h61, h62⟩ := hS6
              refine ⟨?_, h62⟩
              by_cases hf0 : f0 = []
              · subst hf0
                have h1 : noWordAt (some c) = true :=
                  hS8 rfl (by rw [hps]; simp)
                simpa [List.getLast?] using h1
              · rwa [getLast?_cons_of_ne c hf0]
      | false =>
        have hni : (noWordAt prev && (kmsMatchEnd (c :: (f2 ++ rest))).isSome)
            = false := by
          rw [hnw]; rfl
        obtain ⟨f0, ps, hS1, hS2, hS3, hS4, hS5, hS6, hS7, hS8⟩ :=
          ih f2 hlen2 rest (some c) hcf hrh
        refine ⟨c :: f0, ps, ?_, ?_, ?_, hS4, hS5, ?_, hS7,
          fun h _ => absurd h (List.cons_ne_nil c f0)⟩
        · rw [kJoin_cons_head, ← hS1]
        · rw [List.cons_append,
            subKmsStarGo_nomatch val prev c (f2 ++ rest) hni, hS2,
            kJoin_cons_head, ctxAfter_cons]
          simp [List.cons_append]
        · rw [noKmsMatch, Bool.and_eq_true, Bool.not_eq_true']
          exact ⟨by rw [hnw]; rfl, hS3⟩
        · cases hps : ps with
          | nil => trivial
          | cons p l =>
            rw [hps] at hS6
            obtain ⟨h61, h62⟩ := hS6
            refine ⟨?_, h62⟩
            by_cases hf0 : f0 = []
            · subst hf0
              have h1 : noWordAt (some c) = true :=
                hS8 rfl (by rw [hps]; simp)
              simpa [List.getLast?] using h1
            · rwa [getLast?_cons_of_ne c hf0]

/-! ### Copying a replacement block through the kms pass -/

lemma dropWhile_append_of_ne {p : Char → Bool} :
    ∀ {a : Str} {c : Char} {r : Str}, a.dropWhile p = c :: r →
      ∀ b, (a ++ b).dropWhile p = c :: (r ++ b) := by
  intro a
  induction a with
  | nil => intro c r h b; cases h
  | cons a0 a1 ih =>
    intro c r h b
    rw [List.dropWhile_cons] at h
    rw [List.cons_append, List.dropWhile_cons]
    by_cases hp : p a0 = true
    · rw [if_pos hp] at h
      rw [if_pos hp]
      exact ih h b
    · rw [if_neg hp] at h
      rw [if_neg hp]
      rw [List.cons.injEq] at h
      rw [h.1, h.2]

/-- First word character after a gap, with the remainder, if the gap ends
inside the text. -/
def gapStop (t : Str) : Option (Char × Str) :=
  match t.dropWhile (fun c => !isWordChar c) with
  | [] => none
  | c :: r => some (c, r)

lemma gapStop_eq_some {t : Str} {c : Char} {r : Str}
    (h : gapStop t = some (c, r)) :
    t.dropWhile (fun x => !isWordChar x) = c :: r := by
  rw [gapStop.eq_def] at h
  split at h
  case _ => cases h
  case _ c2 r2 heq =>
    injection h with h
    rw [Prod.mk.injEq] at h
    rw [heq, h.1, h.2]

/-- Starting at this text, the kms matcher fails within it, whatever
follows. -/
def kmsNoSpark (t : Str) : Bool :=
  match t with
  | 'k' :: t1 =>
    match gapStop t1 with
    | none => false
    | some (c, r) =>
      if c = 'm' then
        match gapStop r with
        | none => false
        | some (c2, r2) =>
          if c2 = 's' then
            match r2 with
            | [] => false
            | d :: _ => isWordChar d
          else true
      else true
  | _ => true

lemma kmsNoSpark_sound :
    ∀ {y : Str}, y ≠ [] → kmsNoSpark y = true → ∀ rest,
      kmsMatchEnd (y ++ rest) = none := by
  intro y hy h rest
  cases y with
  | nil => exact absurd rfl hy
  | cons c y1 =>
    by_cases hck : c = 'k'
    · subst hck
      simp only [kmsNoSpark] at h
      rw [List.cons_append]
      split at h
      case _ => cases h
      case _ c1 r1 heq1 =>
        have hg1 : kmsGap (y1 ++ rest) = c1 :: (r1 ++ rest) :=
          dropWhile_append_of_ne (gapStop_eq_some heq1) rest
        by_cases hc1 : c1 = 'm'
        · rw [if_pos hc1] at h
          subst hc1
          split at h
          case _ => cases h
          case _ c2 r2 heq2 =>
            have hg2 : kmsGap (r1 ++ rest) = c2 :: (r2 ++ rest) :=
              dropWhile_append_of_ne (gapStop_eq_some heq2) rest
            by_cases hc2 : c2 = 's'
            · rw [if_pos hc2] at h
              subst hc2
              split at h
              case _ => cases h
              case _ d r3 =>
                simp only [kmsMatchEnd, hg1, hg2]
                have hnwd : noWordAt (headOpt ((d :: r3) ++ rest)) = false := by
                  rw [List.cons_append]
                  rw [show noWordAt (headOpt (d :: (r3 ++ rest))) =
                    !isWordChar d from rfl, h]
                  rfl
                simp only [List.cons_append] at hnwd
                simp [hnwd]
            · simp only [kmsMatchEnd, hg1, hg2]
              split
              case _ t3 heq4 =>
                rw [List.cons.injEq] at heq4
                exact absurd heq4.1 hc2
              case _ => rfl
        · simp only [kmsMatchEnd, hg1]
          split
          case _ t2 heq4 =>
            rw [List.cons.injEq] at heq4
            exact absurd heq4.1 hc1
          case _ => rfl
    · rw [List.cons_append]
      exact kmsMatchEnd_none_of_ne (y1 ++ rest) hck

/-- No position of the block can start a kms match, whatever follows. -/
def kmsBlockOK (v : Str) : Bool :=
  (List.range (blockOf v).length).all fun p => kmsNoSpark ((blockOf v).drop p)

lemma subKmsStarGo_copy (val : Str) :
    ∀ (b : Str) (rest : Str) (prev : Option Char),
      (∀ x y, b = x ++ y → y ≠ [] →
        (noWordAt (ctxAfter prev x) && (kmsMatchEnd (y ++ rest)).isSome) = false) →
      subKmsStarGo val 0 prev (b ++ rest) =
        b ++ subKmsStarGo val 0 (ctxAfter prev b) rest := by
  intro b
  induction b with
  | nil =>
    intro rest prev _
    rw [ctxAfter_nil]
    rfl
  | cons c b2 ih =>
    intro rest prev h
    have h0 : (noWordAt prev && (kmsMatchEnd (c :: (b2 ++ rest))).isSome)
        = false := by
      have h1 := h [] (c :: b2) rfl (List.cons_ne_nil c b2)
      rw [ctxAfter_nil, List.cons_append] at h1
      exact h1
    have hsh : ∀ x y, b2 = x ++ y → y ≠ [] →
        (noWordAt (ctxAfter (some c) x) && (kmsMatchEnd (y ++ rest)).isSome)
          = false := by
      intro x y hxy hy
      have h1 := h (c :: x) y (by rw [hxy, List.cons_append]) hy
      rwa [ctxAfter_cons] at h1
    rw [List.cons_append, subKmsStarGo_nomatch val prev c (b2 ++ rest) h0,
      ih rest (some c) hsh, ctxAfter_cons, List.cons_append]

/-- The kms copy hypothesis for a replacement block. -/
lemma block_no_kms {v : Str} (hb : kmsBlockOK v = true) (rest : Str)
    (prev : Option Char) :
    ∀ x y, blockOf v = x ++ y → y ≠ [] →
      (noWordAt (ctxAfter prev x) && (kmsMatchEnd (y ++ rest)).isSome) = false := by
  intro x y hxy hy
  have hxl : x.length < (blockOf v).length := by
    have h1 := congrArg List.length hxy
    rw [List.length_append] at h1
    have hyl : 1 ≤ y.length := by
      cases y with
      | nil => exact absurd rfl hy
      | cons a t => simp
    omega
  have hyd : (blockOf v).drop x.length = y := by
    rw [hxy, List.drop_left]
  rw [kmsBlockOK, List.all_eq_true] at hb
  have h := hb x.length (List.mem_range.mpr hxl)
  rw [hyd] at h
  rw [kmsNoSpark_sound hy h rest]
  simp

/-- Every fragment of a `kJoin` decomposition is a middle factor. -/
lemma kJoin_mem_decomp :
    ∀ (ps : List (Str × Str)) (g0 : Str) (g : Str),
      g ∈ g0 :: ps.map Prod.snd →
      ∃ pre suf, kJoin g0 ps = pre ++ (g ++ suf) := by
  intro ps
  induction ps with
  | nil =>
    intro g0 g hg
    rcases List.mem_cons.mp hg with rfl | hg2
    · exact ⟨[], [], by simp [kJoin]⟩
    · simp at hg2
  | cons p l ih =>
    intro g0 g hg
    obtain ⟨mm, f⟩ := p
    rcases List.mem_cons.mp hg with rfl | hg2
    · exact ⟨[], mm ++ kJoin f l, by simp [kJoin]⟩
    · obtain ⟨pre, suf, hps⟩ := ih f g hg2
      exact ⟨g0 ++ mm ++ pre, suf, by simp [kJoin, hps, List.append_assoc]⟩

/-- Composition: kms-match-freeness over a seam, the right part admitting
no crossing span tail. -/
lemma noKmsMatch_append {p : Option Char} {a b : Str}
    (ha : noKmsMatch p a = true)
    (hb : noKmsMatch (ctxAfter p a) b = true)
    (hcross : KmsCrossFree b) :
    noKmsMatch p (a ++ b) = true := by
  rw [noKmsMatch_iff]
  intro x z hxz hz
  cases hm : (noWordAt (ctxAfter p x) && (kmsMatchEnd z).isSome) with
  | false => rfl
  | true =>
    exfalso
    rw [Bool.and_eq_true] at hm
    obtain ⟨hnw, hsome⟩ := hm
    rcases List.append_eq_append_iff.mp hxz with ⟨a2, hx1, hb1⟩ | ⟨c2, ha1, hz1⟩
    · -- the occurrence lies inside b
      have hfb := (noKmsMatch_iff b (ctxAfter p a)).mp hb a2 z hb1 hz
      rw [hx1, ctxAfter_append] at hnw
      rw [hnw, Bool.true_and] at hfb
      rw [hfb] at hsome
      cases hsome
    · rw [Option.isSome_iff_exists] at hsome
      obtain ⟨after, hme⟩ := hsome
      obtain ⟨g1, g2, hsh, hg1, hg2, hbd⟩ := kmsMatchEnd_spec hme
      have hzp : z = ('k' :: g1 ++ 'm' :: g2 ++ ['s']) ++ after := by
        rw [hsh]; simp [List.append_assoc]
      cases c2 with
      | nil =>
        have hax : a = x := by rw [ha1, List.append_nil]
        have hzb : z = b := by rw [hz1, List.nil_append]
        have hfb := (noKmsMatch_iff b (ctxAfter p a)).mp hb [] b rfl
          (by rw [← hzb]; exact hz)
        rw [ctxAfter_nil, hax] at hfb
        rw [hnw, Bool.true_and] at hfb
        rw [← hzb, hme] at hfb
        simp at hfb
      | cons c0 c3 =>
        by_cases hfit :
            ('k' :: g1 ++ 'm' :: g2 ++ ['s']).length ≤ (c0 :: c3).length
        · -- the span fits: a standalone occurrence inside a
          have hpre : ('k' :: g1 ++ 'm' :: g2 ++ ['s']) <+: (c0 :: c3) :=
            List.prefix_of_prefix_length_le ⟨after, hzp.symm⟩ ⟨b, hz1.symm⟩ hfit
          obtain ⟨u2, hu2⟩ := hpre
          have hafter : after = u2 ++ b := by
            have he : ('k' :: g1 ++ 'm' :: g2 ++ ['s']) ++ (u2 ++ b) =
                ('k' :: g1 ++ 'm' :: g2 ++ ['s']) ++ after := by
              rw [← List.append_assoc, hu2, ← hz1, ← hzp]
            exact (List.append_cancel_left he).symm
          have hbnd : noWordAt (headOpt u2) = true := by
            cases hu : u2 with
            | nil => rfl
            | cons q0 q1 =>
              rw [hafter, hu] at hbd
              rw [headOpt_append_of_ne b (by simp)] at hbd
              exact hbd
          have hsa : kmsMatchEnd (c0 :: c3) = some u2 := by
            rw [← hu2, kmsMatchEnd_shape hg1 hg2, if_pos hbnd]
          have hfa := (noKmsMatch_iff a p).mp ha x (c0 :: c3) ha1
            (List.cons_ne_nil c0 c3)
          rw [hnw, Bool.true_and, hsa] at hfa
          simp at hfa
        · -- the span crosses into b
          push_neg at hfit
          have hpre2 : (c0 :: c3) <+: ('k' :: g1 ++ 'm' :: g2 ++ ['s']) :=
            List.prefix_of_prefix_length_le ⟨b, hz1.symm⟩ ⟨after, hzp.symm⟩
              (le_of_lt hfit)
          obtain ⟨S2, hS2⟩ := hpre2
          have hbS : b = S2 ++ after := by
            have he : (c0 :: c3) ++ (S2 ++ after) = (c0 :: c3) ++ b := by
              rw [← List.append_assoc, hS2, ← hzp, hz1]
            exact (List.append_cancel_left he).symm
          have hspl : (c0 :: c3) ++ S2 = 'k' :: (g1 ++ 'm' :: g2 ++ ['s']) := by
            rw [hS2]; simp [List.append_assoc]
          rw [List.cons_append, List.cons.injEq] at hspl
          have hS2d : (g1 ++ 'm' :: g2 ++ ['s']).drop c3.length = S2 := by
            rw [← hspl.2, List.drop_left]
          have hj : c3.length < (g1 ++ 'm' :: g2 ++ ['s']).length := by
            have h1 := congrArg List.length hspl.2
            simp only [List.length_append, List.length_cons,
              List.length_nil] at h1 hfit ⊢
            omega
          rcases kmsSdrop_cases g1 g2 c3.length hj with ⟨w, hw1, hw2⟩ |
            ⟨w, hw1, hw2⟩
          · exact hcross.1 w g2 after (fun q hq => hg1 q (hw2 q hq)) hg2
              (by rw [hbS, ← hw1, hS2d]) hbd
          · exact hcross.2 w after (fun q hq => hg2 q (hw2 q hq))
              (by rw [hbS, ← hw1, hS2d]) hbd

/-! ### The invariant carried between substitution passes -/

def frags (f0 : Str) (pbs : List (Str × Str)) : List Str := f0 :: pbs.map Prod.snd

def lastFrag (f0 : Str) (pbs : List (Str × Str)) : Str :=
  ((pbs.map Prod.snd).getLast?).getD f0

/-- Fragment text is made of characters `_normalize` fixes, with no doubled
whitespace and no tripled character. -/
def fragOK (g : Str) : Prop :=
  (∀ c ∈ g, goodC c = true) ∧ noDoubleWs g = true ∧ noTripleB g = true

/-- Invariant after the passes in `done` (and the kms pass if `kdone`):
the working text is `bJoin f0 pbs`, the replaced values come from
`SLANG_MAP`, finished keys match nowhere in any fragment, fragments start
at non-word characters and the last one ends in the padding space. -/
def GoodParts (done : List Str) (kdone : Bool) (f0 : Str)
    (pbs : List (Str × Str)) : Prop :=
  (∀ p ∈ pbs, p.1 ∈ VALS) ∧
  (∀ k ∈ done, noWordAt (headOpt k) = false ∧ noWordAt k.getLast? = false) ∧
  (∀ g ∈ frags f0 pbs, fragOK g) ∧
  (∀ k ∈ done, ∀ g ∈ frags f0 pbs, noLitMatch k (some ' ') g = true) ∧
  (kdone = true → ∀ g ∈ frags f0 pbs, noKmsMatch (some ' ') g = true) ∧
  (∀ g ∈ frags f0 pbs, noWordAt (headOpt g) = true) ∧
  (lastFrag f0 pbs).getLast? = some ' '

lemma fragOK_infix {pre g suf : Str} (h : fragOK (pre ++ (g ++ suf))) :
    fragOK g := by
  obtain ⟨h1, h2, h3⟩ := h
  refine ⟨?_, ?_, ?_⟩
  · intro c hc
    exact h1 c (by simp [hc])
  · exact noDoubleWs_append_left (noDoubleWs_append_right h2)
  · exact noTripleB_append_left (noTripleB_append_right h3)

lemma icalate_mem_edge (sep : Str) :
    ∀ (gs : List Str) (g0 g : Str), g ∈ g0 :: gs → edgeLastOK (g0 :: gs) →
      ∃ pre suf, icalate sep (g0 :: gs) = pre ++ (g ++ suf) ∧
        (noWordAt g.getLast? = true ∨ suf = []) := by
  intro gs
  induction gs with
  | nil =>
    intro g0 g hg _
    rcases List.mem_cons.mp hg with rfl | hg2
    · exact ⟨[], [], by simp [icalate], Or.inr rfl⟩
    · cases hg2
  | cons h gs2 ih =>
    intro g0 g hg he
    rcases List.mem_cons.mp hg with rfl | hg2
    · exact ⟨[], sep ++ icalate sep (h :: gs2),
        by rw [icalate_cons_cons]; simp [List.append_assoc], Or.inl he.1⟩
    · obtain ⟨pre, suf, hps, hor⟩ := ih h g hg2 he.2
      exact ⟨g0 ++ sep ++ pre, suf,
        by rw [icalate_cons_cons, hps]; simp [List.append_assoc], hor⟩

lemma kJoin_mem_edge :
    ∀ (ps : List (Str × Str)) (g0 g : Str),
      g ∈ g0 :: ps.map Prod.snd → edgeLastOK (g0 :: ps.map Prod.snd) →
      ∃ pre suf, kJoin g0 ps = pre ++ (g ++ suf) ∧
        (noWordAt g.getLast? = true ∨ suf = []) := by
  intro ps
  induction ps with
  | nil =>
    intro g0 g hg _
    rcases List.mem_cons.mp hg with rfl | hg2
    · exact ⟨[], [], by simp [kJoin], Or.inr rfl⟩
    · simp at hg2
  | cons p l ih =>
    intro g0 g hg he
    obtain ⟨mm, fp⟩ := p
    rw [List.map_cons] at hg he
    rcases List.mem_cons.mp hg with rfl | hg2
    · exact ⟨[], mm ++ kJoin fp l,
        by simp [kJoin, List.append_assoc], Or.inl he.1⟩
    · obtain ⟨pre, suf, hps, hor⟩ := ih fp g hg2 he.2
      exact ⟨g0 ++ mm ++ pre, suf,
        by simp [kJoin, hps, List.append_assoc], hor⟩

lemma getD_getLast?_cons {α : Type} (g f0 : α) (l : List α) :
    ((g :: l).getLast?).getD f0 = (l.getLast?).getD g := by
  induction l generalizing g with
  | nil => rfl
  | cons h t _ =>
    rw [List.getLast?_cons_cons]
    have h1 : ((h :: t).getLast?).isSome = true := by
      rw [List.getLast?_isSome]
      exact List.cons_ne_nil h t
    obtain ⟨w, hw⟩ := Option.isSome_iff_exists.mp h1
    rw [hw]
    rfl

lemma lastFrag_cons (f0 v fb : Str) (pbs2 : List (Str × Str)) :
    lastFrag f0 ((v, fb) :: pbs2) = lastFrag fb pbs2 := by
  unfold lastFrag
  rw [List.map_cons]
  exact getD_getLast?_cons fb f0 (pbs2.map Prod.snd)

lemma lastFrag_chain (f0 g v : Str) (ps qs : List (Str × Str)) :
    lastFrag f0 (ps ++ (v, g) :: qs) = lastFrag g qs := by
  unfold lastFrag
  rw [List.map_append, List.map_cons,
    List.getLast?_append_of_ne_nil _ (List.cons_ne_nil g (qs.map Prod.snd))]
  exact getD_getLast?_cons g f0 (qs.map Prod.snd)

lemma bJoin_getLast {f0 : Str} {pbs : List (Str × Str)} {x : Char}
    (h : (lastFrag f0 pbs).getLast? = some x) :
    (bJoin f0 pbs).getLast? = some x := by
  induction pbs generalizing f0 with
  | nil => exact h
  | cons p pbs2 ih =>
    obtain ⟨v, fb⟩ := p
    rw [lastFrag_cons] at h
    have h2 := ih h
    have hne : bJoin fb pbs2 ≠ [] := by
      intro h0
      rw [h0] at h2
      cases h2
    show (f0 ++ blockOf v ++ bJoin fb pbs2).getLast? = some x
    rw [List.getLast?_append_of_ne_nil _ hne]
    exact h2

lemma GoodParts_tail {done : List Str} {kdone : Bool} {f0 v fb : Str}
    {pbs2 : List (Str × Str)}
    (hG : GoodParts done kdone f0 ((v, fb) :: pbs2)) :
    GoodParts done kdone fb pbs2 := by
  obtain ⟨h1, h2, h3, h4, h5, h6, h7⟩ := hG
  have hmem : ∀ g ∈ frags fb pbs2, g ∈ frags f0 ((v, fb) :: pbs2) := by
    intro g hg
    have he : frags f0 ((v, fb) :: pbs2) = f0 :: fb :: pbs2.map Prod.snd := by
      simp [frags]
    rw [he]
    rcases List.mem_cons.mp hg with rfl | hg2
    · simp
    · exact List.mem_cons_of_mem _ (List.mem_cons_of_mem _ hg2)
  refine ⟨fun p hp => h1 p (List.mem_cons_of_mem _ hp),
    h2, fun g hg => h3 g (hmem g hg),
    fun k hk g hg => h4 k hk g (hmem g hg),
    fun hkd g hg => h5 hkd g (hmem g hg),
    fun g hg => h6 g (hmem g hg), ?_⟩
  rw [← lastFrag_cons f0 v fb pbs2]
  exact h7

lemma last_piece_space {sep : Str} (hsl : noWordAt sep.getLast? = false) :
    ∀ (gs : List Str) (g0 : Str),
      (icalate sep (g0 :: gs)).getLast? = some ' ' →
      ((gs.getLast?).getD g0).getLast? = some ' ' := by
  have hsne : sep ≠ [] := by
    intro h0
    rw [h0] at hsl
    exact absurd hsl (by decide)
  intro gs
  induction gs with
  | nil => intro g0 h; exact h
  | cons h1 gs2 ih =>
    intro g0 h
    rw [getD_getLast?_cons]
    by_cases hf : icalate sep (h1 :: gs2) = []
    · exfalso
      rw [icalate_cons_cons, hf, List.append_nil,
        List.getLast?_append_of_ne_nil _ hsne] at h
      rw [h] at hsl
      exact absurd hsl (by decide)
    · refine ih h1 ?_
      rw [icalate_cons_cons, List.getLast?_append_of_ne_nil _ hf] at h
      exact h

lemma kJoin_last_piece_space :
    ∀ (ps : List (Str × Str)) (g0 : Str),
      (∀ p ∈ ps, KmsShaped p.1) →
      (kJoin g0 ps).getLast? = some ' ' →
      (((ps.map Prod.snd).getLast?).getD g0).getLast? = some ' ' := by
  intro ps
  induction ps with
  | nil => intro g0 _ h; exact h
  | cons p l ih =>
    intro g0 hsh h
    obtain ⟨mm, fp⟩ := p
    rw [List.map_cons, getD_getLast?_cons]
    have hmm := hsh (mm, fp) (List.mem_cons_self _ _)
    obtain ⟨G1, G2, hmsp0, -, -⟩ := hmm
    have hmsp : mm = 'k' :: G1 ++ 'm' :: G2 ++ ['s'] := hmsp0
    by_cases hf : kJoin fp l = []
    · exfalso
      have he : kJoin g0 ((mm, fp) :: l) = (g0 ++ mm) ++ kJoin fp l := by
        simp [kJoin, List.append_assoc]
      rw [he, hf, List.append_nil] at h
      have hmne : mm ≠ [] := by rw [hmsp]; exact List.cons_ne_nil _ _
      rw [List.getLast?_append_of_ne_nil _ hmne] at h
      have hml : mm.getLast? = some 's' := by
        rw [hmsp,
          show 'k' :: G1 ++ 'm' :: G2 ++ ['s'] = ('k' :: G1 ++ 'm' :: G2) ++ ['s']
            from rfl,
          getLast?_append_singleton]
      rw [hml] at h
      cases h
    · refine ih fp (fun q hq => hsh q (List.mem_cons_of_mem _ hq)) ?_
      have he : kJoin g0 ((mm, fp) :: l) = (g0 ++ mm) ++ kJoin fp l := by
        simp [kJoin, List.append_assoc]
      rw [he, List.getLast?_append_of_ne_nil _ hf] at h
      exact h

lemma subLitGo_head_space (key val : Str)
    (hkh : noWordAt (headOpt key) = false) (prev : Option Char) (t : Str) :
    subLitGo key val 0 prev (' ' :: t) =
      ' ' :: subLitGo key val 0 (some ' ') t := by
  apply subLitGo_nomatch
  cases hm : matchAt key prev (' ' :: t) with
  | false => rfl
  | true =>
    exfalso
    obtain ⟨-, hpf, -⟩ := (matchAt_iff _ _ _).mp hm
    cases key with
    | nil => exact absurd hkh (by decide)
    | cons kh kt =>
      rw [List.isPrefixOf_iff_prefix] at hpf
      obtain ⟨u, hu⟩ := hpf
      rw [List.cons_append, List.cons.injEq] at hu
      rw [hu.1] at hkh
      rw [show headOpt (' ' :: kt) = some ' ' from rfl] at hkh
      exact absurd hkh (by decide)

lemma subKms_head_space (val : Str) (prev : Option Char) (t : Str) :
    subKmsStarGo val 0 prev (' ' :: t) =
      ' ' :: subKmsStarGo val 0 (some ' ') t := by
  apply subKmsStarGo_nomatch
  rw [kmsMatchEnd_none_of_ne t (by decide)]
  simp

/-- Facts inherited by the pieces a literal pass cuts a fragment into. -/
lemma pieces_good (key : Str)
    (hkh : noWordAt (headOpt key) = false)
    (hkl : noWordAt key.getLast? = false)
    {done : List Str} {kdone : Bool}
    (holdwf : ∀ k ∈ done,
      noWordAt (headOpt k) = false ∧ noWordAt k.getLast? = false)
    {f g0 : Str} {gs : List Str} {prev : Option Char}
    (hdec : f = icalate key (g0 :: gs))
    (hfOK : fragOK f)
    (hfh : noWordAt (headOpt f) = true)
    (hold : ∀ k ∈ done, noLitMatch k (some ' ') f = true)
    (hkms : kdone = true → noKmsMatch (some ' ') f = true)
    (hS3 : noLitMatch key prev g0 = true)
    (hS4 : ∀ g ∈ gs, noLitMatch key key.getLast? g = true)
    (hS5 : edgeLastOK (g0 :: gs))
    (hS6 : ∀ g ∈ gs, noWordAt (headOpt g) = true) :
    ∀ g ∈ g0 :: gs,
      fragOK g ∧
      (∀ k ∈ done, noLitMatch k (some ' ') g = true) ∧
      noLitMatch key (some ' ') g = true ∧
      (kdone = true → noKmsMatch (some ' ') g = true) ∧
      noWordAt (headOpt g) = true := by
  intro g hg
  have hgh : noWordAt (headOpt g) = true := by
    rcases List.mem_cons.mp hg with rfl | hg2
    · by_cases hg0 : g = []
      · rw [hg0]; rfl
      · obtain ⟨x, hx⟩ := icalate_eq_append key g gs
        have h1 : headOpt f = headOpt g := by
          rw [hdec, hx]
          exact headOpt_append_of_ne x hg0
        rw [← h1]
        exact hfh
    · exact hS6 g hg2
  obtain ⟨pre, suf, hps, hor⟩ := icalate_mem_edge key gs g0 g hg hS5
  have hfd : f = pre ++ (g ++ suf) := by rw [hdec, hps]
  refine ⟨ fragOK_infix (hfd ▸ hfOK), ?_, ?_, ?_, hgh⟩
  · intro k hk
    exact noLitMatch_of_infix (holdwf k hk).1 (holdwf k hk).2
      (hfd ▸ hold k hk) hgh hor (some ' ')
  · rcases List.mem_cons.mp hg with rfl | hg2
    · exact noLitMatch_strengthen hkh hgh hS3 (some ' ')
    · exact noLitMatch_strengthen hkh hgh (hS4 g hg2) (some ' ')
  · intro hkd
    exact noKmsMatch_of_infix (hfd ▸ hkms hkd) hgh hor (some ' ')

/-- One literal-key pass preserves the invariant and records the key as
clean. -/
theorem passLit (key val : Str)
    (hkh : noWordAt (headOpt key) = false)
    (hkl : noWordAt key.getLast? = false)
    (hbs : ∀ v ∈ VALS, blockNoStart key v = true)
    (hcc : ∀ v ∈ VALS, crossCond key v = true)
    (hvv : val ∈ VALS) :
    ∀ (pbs : List (Str × Str)) (f0 : Str) (done : List Str) (kdone : Bool)
      (prev : Option Char),
      GoodParts done kdone f0 pbs → noWordAt prev = true →
      ∃ (f0' : Str) (pbs' : List (Str × Str)),
        subLitGo key val 0 prev (bJoin f0 pbs) = bJoin f0' pbs' ∧
        GoodParts (key :: done) kdone f0' pbs' := by
  intro pbs
  induction pbs with
  | nil =>
    intro f0 done kdone prev hG hprev
    obtain ⟨hG1, hG2, hG3, hG4, hG5, hG6, hG7⟩ := hG
    have hf0 : f0 ∈ frags f0 [] := List.mem_cons_self _ _
    obtain ⟨g0, gs, hS1, hS2, hS3, hS4, hS5, hS6, hS7⟩ :=
      subLitGo_struct_rest key val hkh hkl f0.length f0 le_rfl [] prev
        (cross_nil key) rfl
    have hpg := pieces_good key hkh hkl hG2 hS1 (hG3 f0 hf0) (hG6 f0 hf0)
      (fun k hk => hG4 k hk f0 hf0) (fun hkd => hG5 hkd f0 hf0) hS3 hS4 hS5 hS6
    refine ⟨g0, gs.map (fun g => (val, g)), ?_, ?_, ?_, ?_, ?_, ?_, ?_, ?_⟩
    · rw [show (bJoin f0 [] : Str) = f0 ++ [] from (List.append_nil f0).symm]
      rw [hS2]
      rw [show subLitGo key val 0 (ctxAfter prev f0) [] = [] from rfl,
        List.append_nil]
      exact icalate_eq_bJoin val g0 gs
    · intro p hp
      obtain ⟨g, hgmem, hpe⟩ := List.mem_map.mp hp
      rw [← hpe]
      exact hvv
    · intro k hk
      rcases List.mem_cons.mp hk with rfl | hk2
      · exact ⟨hkh, hkl⟩
      · exact hG2 k hk2
    · intro g hg
      have hfr : frags g0 (gs.map fun g => (val, g)) = g0 :: gs := by
        simp [frags]
      rw [hfr] at hg
      exact (hpg g hg).1
    · intro k hk g hg
      have hfr : frags g0 (gs.map fun g => (val, g)) = g0 :: gs := by
        simp [frags]
      rw [hfr] at hg
      rcases List.mem_cons.mp hk with rfl | hk2
      · exact (hpg g hg).2.2.1
      · exact (hpg g hg).2.1 k hk2
    · intro hkd g hg
      have hfr : frags g0 (gs.map fun g => (val, g)) = g0 :: gs := by
        simp [frags]
      rw [hfr] at hg
      exact (hpg g hg).2.2.2.1 hkd
    · intro g hg
      have hfr : frags g0 (gs.map fun g => (val, g)) = g0 :: gs := by
        simp [frags]
      rw [hfr] at hg
      exact (hpg g hg).2.2.2.2
    · have hfr2 : lastFrag g0 (gs.map fun g => (val, g)) =
          (gs.getLast?).getD g0 := by
        simp [lastFrag]
      rw [hfr2]
      refine last_piece_space hkl gs g0 ?_
      rw [← hS1]
      exact hG7
  | cons pb pbs2 ih =>
    intro f0 done kdone prev hG hprev
    obtain ⟨v, fb⟩ := pb
    have hGt := GoodParts_tail hG
    obtain ⟨hG1, hG2, hG3, hG4, hG5, hG6, hG7⟩ := hG
    have hvmem : v ∈ VALS := hG1 (v, fb) (List.mem_cons_self _ _)
    have hf0 : f0 ∈ frags f0 ((v, fb) :: pbs2) := List.mem_cons_self _ _
    have hT : bJoin f0 ((v, fb) :: pbs2) =
        f0 ++ (blockOf v ++ bJoin fb pbs2) := by
      rw [bJoin]
      simp [List.append_assoc]
    obtain ⟨g0, gs, hS1, hS2, hS3, hS4, hS5, hS6, hS7⟩ :=
      subLitGo_struct_rest key val hkh hkl f0.length f0 le_rfl
        (blockOf v ++ bJoin fb pbs2) prev
        (cross_from_cond (hcc v hvmem) (bJoin fb pbs2)) rfl
    have hpg := pieces_good key hkh hkl hG2 hS1 (hG3 f0 hf0) (hG6 f0 hf0)
      (fun k hk => hG4 k hk f0 hf0) (fun hkd => hG5 hkd f0 hf0) hS3 hS4 hS5 hS6
    have hcopy := subLitGo_copy key val (blockOf v) (bJoin fb pbs2)
      (ctxAfter prev f0)
      (block_no_match hkh (hbs v hvmem) (bJoin fb pbs2) (ctxAfter prev f0))
    have hctxb : ctxAfter (ctxAfter prev f0) (blockOf v) = some ' ' := by
      refine ctxAfter_of_getLast ?_ _
      show ((' ' :: v) ++ [' ']).getLast? = some ' '
      exact getLast?_append_singleton _ ' '
    obtain ⟨fb', pbs2', hIH1, hIH2⟩ := ih fb done kdone (some ' ') hGt (by decide)
    obtain ⟨hI1, hI2, hI3, hI4, hI5, hI6, hI7⟩ := hIH2
    have hfr : frags g0 ((gs.map fun g => (val, g)) ++ (v, fb') :: pbs2') =
        g0 :: (gs ++ fb' :: pbs2'.map Prod.snd) := by
      simp [frags]
    have hmemsplit : ∀ g, g ∈ g0 :: (gs ++ fb' :: pbs2'.map Prod.snd) →
        g ∈ g0 :: gs ∨ g ∈ frags fb' pbs2' := by
      intro g hg
      rcases List.mem_cons.mp hg with rfl | hg2
      · exact Or.inl (List.mem_cons_self _ _)
      · rcases List.mem_append.mp hg2 with hg3 | hg3
        · exact Or.inl (List.mem_cons_of_mem _ hg3)
        · exact Or.inr hg3
    refine ⟨g0, (gs.map fun g => (val, g)) ++ (v, fb') :: pbs2',
      ?_, ?_, ?_, ?_, ?_, ?_, ?_, ?_⟩
    · rw [hT, hS2, hcopy, hctxb, hIH1, bJoin_append]
      rw [show qsStr ((v, fb') :: pbs2') = blockOf v ++ bJoin fb' pbs2' from rfl]
      rw [← icalate_eq_bJoin]
      simp [List.append_assoc, blockOf]
    · intro p hp
      rcases List.mem_append.mp hp with hp2 | hp2
      · obtain ⟨g, hgmem, hpe⟩ := List.mem_map.mp hp2
        rw [← hpe]
        exact hvv
      · rcases List.mem_cons.mp hp2 with rfl | hp3
        · exact hvmem
        · exact hI1 p hp3
    · intro k hk
      rcases List.mem_cons.mp hk with rfl | hk2
      · exact ⟨hkh, hkl⟩
      · exact hG2 k hk2
    · intro g hg
      rw [hfr] at hg
      rcases hmemsplit g hg with h | h
      · exact (hpg g h).1
      · exact hI3 g h
    · intro k hk g hg
      rw [hfr] at hg
      rcases hmemsplit g hg with h | h
      · rcases List.mem_cons.mp hk with rfl | hk2
        · exact (hpg g h).2.2.1
        · exact (hpg g h).2.1 k hk2
      · exact hI4 k hk g h
    · intro hkd g hg
      rw [hfr] at hg
      rcases hmemsplit g hg with h | h
      · exact (hpg g h).2.2.2.1 hkd
      · exact hI5 hkd g h
    · intro g hg
      rw [hfr] at hg
      rcases hmemsplit g hg with h | h
      · exact (hpg g h).2.2.2.2
      · exact hI6 g h
    · rw [lastFrag_chain]
      exact hI7

/-- Decidable seam condition: a value opens with a word character other
than `m`, and if with `s` then its second character is also word. -/
def kmsSeamOK (v : Str) : Bool :=
  match v with
  | c :: d :: _ =>
    isWordChar c && !(decide (c = 'm')) && (!(decide (c = 's')) || isWordChar d)
  | _ => false

lemma kmsCrossFree_block {v : Str} (h : kmsSeamOK v = true) (more : Str) :
    KmsCrossFree (blockOf v ++ more) := by
  cases v with
  | nil => cases h
  | cons c v1 =>
    cases v1 with
    | nil => cases h
    | cons d r3 =>
      simp only [kmsSeamOK, Bool.and_eq_true, Bool.or_eq_true,
        Bool.not_eq_true', decide_eq_false_iff_not] at h
      have he : blockOf (c :: d :: r3) ++ more =
          ' ' :: (c :: (d :: (r3 ++ ([' '] ++ more)))) := by
        simp [blockOf, List.append_assoc]
      rw [he]
      refine kmsCrossFree_cons_nonword (by decide) ?_
      refine kmsCrossFree_of_head h.1.1 h.1.2 ?_
      intro hcs
      rcases h.2 with h2 | h2
      · exact absurd hcs h2
      · exact h2

lemma kJoin_map_eq_bJoin (val : Str) :
    ∀ (ps : List (Str × Str)) (g0 : Str),
      kJoin g0 (ps.map fun p => (' ' :: val ++ [' '], p.2)) =
        bJoin g0 (ps.map fun p => (val, p.2)) := by
  intro ps
  induction ps with
  | nil => intro g0; rfl
  | cons p l ih =>
    intro g0
    obtain ⟨mm, fp⟩ := p
    simp only [List.map_cons, kJoin, bJoin]
    rw [ih fp]
    rfl

/-- Facts inherited by the pieces the kms pass cuts a fragment into. -/
lemma pieces_good_kms
    {done : List Str}
    (holdwf : ∀ k ∈ done,
      noWordAt (headOpt k) = false ∧ noWordAt k.getLast? = false)
    {f g0 : Str} {ps : List (Str × Str)} {prev : Option Char}
    (hdec : f = kJoin g0 ps)
    (hfOK : fragOK f)
    (hfh : noWordAt (headOpt f) = true)
    (hold : ∀ k ∈ done, noLitMatch k (some ' ') f = true)
    (hS3 : noKmsMatch prev g0 = true)
    (hS4 : ∀ p ∈ ps, noKmsMatch (some 's') p.2 = true)
    (hS5 : edgeLastOK (g0 :: ps.map Prod.snd))
    (hS6 : ∀ p ∈ ps, noWordAt (headOpt p.2) = true) :
    ∀ g ∈ g0 :: ps.map Prod.snd,
      fragOK g ∧
      (∀ k ∈ done, noLitMatch k (some ' ') g = true) ∧
      noKmsMatch (some ' ') g = true ∧
      noWordAt (headOpt g) = true := by
  intro g hg
  have hgh : noWordAt (headOpt g) = true := by
    rcases List.mem_cons.mp hg with rfl | hg2
    · by_cases hg0 : g = []
      · rw [hg0]; rfl
      · obtain ⟨x, hx⟩ := kJoin_eq_append g ps
        have h1 : headOpt f = headOpt g := by
          rw [hdec, hx]
          exact headOpt_append_of_ne x hg0
        rw [← h1]
        exact hfh
    · obtain ⟨p, hp, hpe⟩ := List.mem_map.mp hg2
      rw [← hpe]
      exact hS6 p hp
  obtain ⟨pre, suf, hps, hor⟩ := kJoin_mem_edge ps g0 g hg hS5
  have hfd : f = pre ++ (g ++ suf) := by rw [hdec, hps]
  refine ⟨ fragOK_infix (hfd ▸ hfOK), ?_, ?_, hgh⟩
  · intro k hk
    exact noLitMatch_of_infix (holdwf k hk).1 (holdwf k hk).2
      (hfd ▸ hold k hk) hgh hor (some ' ')
  · rcases List.mem_cons.mp hg with rfl | hg2
    · exact noKmsMatch_strengthen hgh hS3 (some ' ')
    · obtain ⟨p, hp, hpe⟩ := List.mem_map.mp hg2
      rw [← hpe] at hgh ⊢
      exact noKmsMatch_strengthen hgh (hS4 p hp) (some ' ')

/-- The kms pass preserves the invariant and records kms as clean. -/
theorem passKms (val : Str) (hvv : val ∈ VALS)
    (hsm : ∀ v ∈ VALS, kmsSeamOK v = true)
    (hbk : ∀ v ∈ VALS, kmsBlockOK v = true) :
    ∀ (pbs : List (Str × Str)) (f0 : Str) (done : List Str)
      (prev : Option Char),
      GoodParts done false f0 pbs → noWordAt prev = true →
      ∃ (f0' : Str) (pbs' : List (Str × Str)),
        subKmsStarGo val 0 prev (bJoin f0 pbs) = bJoin f0' pbs' ∧
        GoodParts done true f0' pbs' := by
  intro pbs
  induction pbs with
  | nil =>
    intro f0 done prev hG hprev
    obtain ⟨hG1, hG2, hG3, hG4, hG5, hG6, hG7⟩ := hG
    have hf0 : f0 ∈ frags f0 [] := List.mem_cons_self _ _
    obtain ⟨g0, ps, hS1, hS2, hS3, hS4, hS5, hS6, hS7, hS8⟩ :=
      subKmsStarGo_struct_rest val f0.length f0 le_rfl [] prev
        kmsCrossFree_nil rfl
    have hpg := pieces_good_kms hG2 hS1 (hG3 f0 hf0) (hG6 f0 hf0)
      (fun k hk => hG4 k hk f0 hf0) hS3 hS4 hS6 hS7
    refine ⟨g0, ps.map (fun p => (val, p.2)), ?_, ?_, ?_, ?_, ?_, ?_, ?_, ?_⟩
    · rw [show (bJoin f0 [] : Str) = f0 ++ [] from (List.append_nil f0).symm]
      rw [hS2]
      rw [show subKmsStarGo val 0 (ctxAfter prev f0) [] = [] from rfl,
        List.append_nil]
      exact kJoin_map_eq_bJoin val ps g0
    · intro p hp
      obtain ⟨q, hq, hpe⟩ := List.mem_map.mp hp
      rw [← hpe]
      exact hvv
    · exact hG2
    · intro g hg
      have hfr : frags g0 (ps.map fun p => (val, p.2)) =
          g0 :: ps.map Prod.snd := by
        simp [frags]
      rw [hfr] at hg
      exact (hpg g hg).1
    · intro k hk g hg
      have hfr : frags g0 (ps.map fun p => (val, p.2)) =
          g0 :: ps.map Prod.snd := by
        simp [frags]
      rw [hfr] at hg
      exact (hpg g hg).2.1 k hk
    · intro _ g hg
      have hfr : frags g0 (ps.map fun p => (val, p.2)) =
          g0 :: ps.map Prod.snd := by
        simp [frags]
      rw [hfr] at hg
      exact (hpg g hg).2.2.1
    · intro g hg
      have hfr : frags g0 (ps.map fun p => (val, p.2)) =
          g0 :: ps.map Prod.snd := by
        simp [frags]
      rw [hfr] at hg
      exact (hpg g hg).2.2.2
    · have hfr2 : lastFrag g0 (ps.map fun p => (val, p.2)) =
          (((ps.map Prod.snd).getLast?).getD g0) := by
        unfold lastFrag
        rw [List.map_map]
        rfl
      rw [hfr2]
      refine kJoin_last_piece_space ps g0 hS5 ?_
      rw [← hS1]
      exact hG7
  | cons pb pbs2 ih =>
    intro f0 done prev hG hprev
    obtain ⟨v, fb⟩ := pb
    have hGt := GoodParts_tail hG
    obtain ⟨hG1, hG2, hG3, hG4, hG5, hG6, hG7⟩ := hG
    have hvmem : v ∈ VALS := hG1 (v, fb) (List.mem_cons_self _ _)
    have hf0 : f0 ∈ frags f0 ((v, fb) :: pbs2) := List.mem_cons_self _ _
    have hT : bJoin f0 ((v, fb) :: pbs2) =
        f0 ++ (blockOf v ++ bJoin fb pbs2) := by
      rw [bJoin]
      simp [List.append_assoc]
    obtain ⟨g0, ps, hS1, hS2, hS3, hS4, hS5, hS6, hS7, hS8⟩ :=
      subKmsStarGo_struct_rest val f0.length f0 le_rfl
        (blockOf v ++ bJoin fb pbs2) prev
        (kmsCrossFree_block (hsm v hvmem) (bJoin fb pbs2)) rfl
    have hpg := pieces_good_kms hG2 hS1 (hG3 f0 hf0) (hG6 f0 hf0)
      (fun k hk => hG4 k hk f0 hf0) hS3 hS4 hS6 hS7
    have hcopy := subKmsStarGo_copy val (blockOf v) (bJoin fb pbs2)
      (ctxAfter prev f0)
      (block_no_kms (hbk v hvmem) (bJoin fb pbs2) (ctxAfter prev f0))
    have hctxb : ctxAfter (ctxAfter prev f0) (blockOf v) = some ' ' := by
      refine ctxAfter_of_getLast ?_ _
      show ((' ' :: v) ++ [' ']).getLast? = some ' '
      exact getLast?_append_singleton _ ' '
    obtain ⟨fb', pbs2', hIH1, hIH2⟩ := ih fb done (some ' ') hGt (by decide)
    obtain ⟨hI1, hI2, hI3, hI4, hI5, hI6, hI7⟩ := hIH2
    have hfr : frags g0 ((ps.map fun p => (val, p.2)) ++ (v, fb') :: pbs2') =
        g0 :: (ps.map Prod.snd ++ fb' :: pbs2'.map Prod.snd) := by
      simp [frags]
    have hmemsplit : ∀ g,
        g ∈ g0 :: (ps.map Prod.snd ++ fb' :: pbs2'.map Prod.snd) →
        g ∈ g0 :: ps.map Prod.snd ∨ g ∈ frags fb' pbs2' := by
      intro g hg
      rcases List.mem_cons.mp hg with rfl | hg2
      · exact Or.inl (List.mem_cons_self _ _)
      · rcases List.mem_append.mp hg2 with hg3 | hg3
        · exact Or.inl (List.mem_cons_of_mem _ hg3)
        · exact Or.inr hg3
    refine ⟨g0, (ps.map fun p => (val, p.2)) ++ (v, fb') :: pbs2',
      ?_, ?_, ?_, ?_, ?_, ?_, ?_, ?_⟩
    · rw [hT, hS2, hcopy, hctxb, hIH1, bJoin_append]
      rw [show qsStr ((v, fb') :: pbs2') = blockOf v ++ bJoin fb' pbs2'
        from rfl]
      rw [kJoin_map_eq_bJoin]
    · intro p hp
      rcases List.mem_append.mp hp with hp2 | hp2
      · obtain ⟨q, hq, hpe⟩ := List.mem_map.mp hp2
        rw [← hpe]
        exact hvv
      · rcases List.mem_cons.mp hp2 with rfl | hp3
        · exact hvmem
        · exact hI1 p hp3
    · exact hG2
    · intro g hg
      rw [hfr] at hg
      rcases hmemsplit g hg with h | h
      · exact (hpg g h).1
      · exact hI3 g h
    · intro k hk g hg
      rw [hfr] at hg
      rcases hmemsplit g hg with h | h
      · exact (hpg g h).2.1 k hk
      · exact hI4 k hk g h
    · intro _ g hg
      rw [hfr] at hg
      rcases hmemsplit g hg with h | h
      · exact (hpg g h).2.2.1
      · exact hI5 rfl g h
    · intro g hg
      rw [hfr] at hg
      rcases hmemsplit g hg with h | h
      · exact (hpg g h).2.2.2
      · exact hI6 g h
    · rw [lastFrag_chain]
      exact hI7

/-! ### Padding the normalized text, and seam-tolerant combinations -/

lemma noDoubleWs_append_of {a b : Str} (ha : noDoubleWs a = true)
    (hb : noDoubleWs b = true)
    (hseam : ∀ x y, a.getLast? = some x → headOpt b = some y →
      (isWsChar x && isWsChar y) = false) :
    noDoubleWs (a ++ b) = true := by
  induction a with
  | nil => exact hb
  | cons c t ih =>
    rw [List.cons_append]
    cases t with
    | nil =>
      refine noDoubleWs_cons_of c hb ?_
      intro d hd
      exact hseam c d rfl hd
    | cons c2 t2 =>
      refine noDoubleWs_cons_of c ?_ ?_
      · refine ih (noDoubleWs_tail ha) ?_
        intro x y hx hy
        refine hseam x y ?_ hy
        rw [List.getLast?_cons_cons]
        exact hx
      · intro d hd
        rw [show headOpt ((c2 :: t2) ++ b) = some c2 from rfl] at hd
        injection hd with hd
        rw [← hd]
        exact noDoubleWs_head ha

lemma noTripleB_append_of_ne {a b : Str} (ha : noTripleB a = true)
    (hb : noTripleB b = true)
    (hne : ∀ x y, a.getLast? = some x → headOpt b = some y → x ≠ y) :
    noTripleB (a ++ b) = true := by
  induction a with
  | nil => exact hb
  | cons c t ih =>
    rw [List.cons_append]
    cases t with
    | nil =>
      rw [show (([] : Str) ++ b) = b from rfl]
      refine noTripleB_cons_of c hb ?_
      intro d e t2 hl hde
      exact hne c d rfl (by rw [hl]; rfl) hde.1
    | cons c2 t2 =>
      refine noTripleB_cons_of c ?_ ?_
      · refine ih (noTripleB_tail ha) ?_
        intro x y hx hy
        exact hne x y (by rw [List.getLast?_cons_cons]; exact hx) hy
      · intro d e t3 hl hde
        cases t2 with
        | nil =>
          simp only [List.cons_append, List.nil_append] at hl
          rw [List.cons.injEq] at hl
          obtain ⟨rfl, hl2⟩ := hl
          exact hne c2 e rfl (by rw [hl2]; rfl) hde.2
        | cons c3 t3b =>
          simp only [List.cons_append] at hl
          rw [List.cons.injEq] at hl
          obtain ⟨rfl, hl2⟩ := hl
          rw [List.cons.injEq] at hl2
          obtain ⟨rfl, -⟩ := hl2
          exact noTripleB_head ha hde

lemma noTripleNW_of_B : ∀ {s : Str}, noTripleB s = true → noTripleNW s = true := by
  intro s
  induction s with
  | nil => intro h; rfl
  | cons a t ih =>
    intro h
    cases t with
    | nil => rfl
    | cons d t2 =>
      cases t2 with
      | nil => rfl
      | cons e t3 =>
        rw [noTripleB, Bool.and_eq_true] at h
        rw [noTripleNW, Bool.and_eq_true]
        refine ⟨?_, ih h.2⟩
        have h1 := h.1
        rw [Bool.not_eq_true'] at h1 ⊢
        rw [Bool.and_eq_false_iff] at h1 ⊢
        rcases h1 with h1 | h1
        · left
          rw [Bool.and_eq_false_iff]
          left
          exact h1
        · left
          rw [Bool.and_eq_false_iff]
          right
          exact h1

lemma noTripleNW_append_ws_left {a b : Str} (ha : noTripleNW a = true)
    (hb : noTripleNW b = true)
    (hl : ∀ x, a.getLast? = some x → isWsChar x = true) :
    noTripleNW (a ++ b) = true := by
  induction a with
  | nil => exact hb
  | cons c t ih =>
    rw [List.cons_append]
    cases t with
    | nil =>
      rw [show (([] : Str) ++ b) = b from rfl]
      have hc : isWsChar c = true := hl c rfl
      refine noTripleNW_cons_of c hb ?_
      intro d e t2 _ _ _
      exact hc
    | cons c2 t2 =>
      refine noTripleNW_cons_of c
        (ih (noTripleNW_tail ha)
          (fun x hx => hl x (by rw [List.getLast?_cons_cons]; exact hx))) ?_
      intro d e t3 hlq hcd hde
      cases t2 with
      | nil =>
        have hc2 : isWsChar c2 = true := hl c2 rfl
        simp only [List.cons_append, List.nil_append] at hlq
        rw [List.cons.injEq] at hlq
        obtain ⟨rfl, -⟩ := hlq
        rw [hcd]
        exact hc2
      | cons c3 t3b =>
        simp only [List.cons_append] at hlq
        rw [List.cons.injEq] at hlq
        obtain ⟨rfl, hlq2⟩ := hlq
        rw [List.cons.injEq] at hlq2
        obtain ⟨rfl, -⟩ := hlq2
        exact noTripleNW_head ha hcd hde

lemma noTripleNW_append_ws_right {a b : Str} (ha : noTripleNW a = true)
    (hb : noTripleNW b = true)
    (hr : ∀ y, headOpt b = some y → isWsChar y = true) :
    noTripleNW (a ++ b) = true := by
  induction a with
  | nil => exact hb
  | cons c t ih =>
    rw [List.cons_append]
    cases t with
    | nil =>
      rw [show (([] : Str) ++ b) = b from rfl]
      refine noTripleNW_cons_of c hb ?_
      intro d e t2 hlq hcd _
      rw [hcd]
      exact hr d (by rw [hlq]; rfl)
    | cons c2 t2 =>
      refine noTripleNW_cons_of c (ih (noTripleNW_tail ha)) ?_
      intro d e t3 hlq hcd hde
      cases t2 with
      | nil =>
        simp only [List.cons_append, List.nil_append] at hlq
        rw [List.cons.injEq] at hlq
        obtain ⟨rfl, hlq2⟩ := hlq
        rw [hcd, hde]
        exact hr e (by rw [hlq2]; rfl)
      | cons c3 t3b =>
        simp only [List.cons_append] at hlq
        rw [List.cons.injEq] at hlq
        obtain ⟨rfl, hlq2⟩ := hlq
        rw [List.cons.injEq] at hlq2
        obtain ⟨rfl, -⟩ := hlq2
        exact noTripleNW_head ha hcd hde

lemma noWsAt_some {d : Char} (h : noWsAt (some d) = true) :
    isWsChar d = false := by
  have h2 : (!isWsChar d) = true := h
  rw [Bool.not_eq_true'] at h2
  exact h2

lemma ne_of_ws_ne {x z : Char} (hx : isWsChar x = true)
    (hz : isWsChar z = false) : x ≠ z := by
  intro h
  rw [h] at hx
  rw [hx] at hz
  cases hz

/-- The padded normalized text is a valid initial fragment. -/
lemma pad_fragOK {y : Str} (hN : isNorm y = true) (hyne : y ≠ []) :
    fragOK (' ' :: y ++ [' ']) := by
  rw [isNorm] at hN
  simp only [Bool.and_eq_true] at hN
  obtain ⟨⟨⟨⟨hall, htr⟩, hdw⟩, hhd⟩, hlast⟩ := hN
  rw [List.all_eq_true] at hall
  have hylast : ∀ x, y.getLast? = some x → isWsChar x = false := by
    intro x hx
    rw [hx] at hlast
    exact noWsAt_some hlast
  have hyhead : ∀ z, headOpt y = some z → isWsChar z = false := by
    intro z hz
    rw [hz] at hhd
    exact noWsAt_some hhd
  refine ⟨?_, ?_, ?_⟩
  · intro c hc
    rcases List.mem_append.mp hc with hc2 | hc2
    · rcases List.mem_cons.mp hc2 with rfl | hc3
      · decide
      · exact hall c hc3
    · rcases List.mem_cons.mp hc2 with rfl | hc3
      · decide
      · cases hc3
  · refine noDoubleWs_append_of ?_ rfl ?_
    · refine noDoubleWs_cons_of ' ' hdw ?_
      intro d hd
      rw [hyhead d hd, Bool.and_false]
    · intro x z hx hz
      have hx2 : y.getLast? = some x := by
        rw [getLast?_cons_of_ne ' ' hyne] at hx
        exact hx
      rw [hylast x hx2, Bool.false_and]
  · refine noTripleB_append_of_ne ?_ rfl ?_
    · rw [show (' ' :: y) = [' '] ++ y from rfl]
      refine noTripleB_append_of_ne rfl htr ?_
      intro x z hx hz
      injection hx with hx
      rw [← hx]
      exact ne_of_ws_ne (by decide) (hyhead z hz)
    · intro x z hx hz
      injection hz with hz
      rw [← hz]
      intro hcon
      have hx2 : y.getLast? = some x := by
        rw [getLast?_cons_of_ne ' ' hyne] at hx
        exact hx
      have h5 := hylast x hx2
      rw [hcon] at h5
      exact absurd h5 (by decide)

lemma subLit_head_space {key val t : Str}
    (hkh : noWordAt (headOpt key) = false)
    (h : headOpt t = some ' ') : headOpt (subLit key val t) = some ' ' := by
  cases t with
  | nil => cases h
  | cons c t2 =>
    injection h with h
    subst h
    rw [show subLit key val (' ' :: t2) = subLitGo key val 0 none (' ' :: t2)
      from rfl,
      subLitGo_head_space key val hkh none t2]
    rfl

lemma subKmsStar_head_space {val t : Str}
    (h : headOpt t = some ' ') : headOpt (subKmsStar val t) = some ' ' := by
  cases t with
  | nil => cases h
  | cons c t2 =>
    injection h with h
    subst h
    rw [show subKmsStar val (' ' :: t2) = subKmsStarGo val 0 none (' ' :: t2)
      from rfl,
      subKms_head_space val none t2]
    rfl

/-- The working text of `_expand_slang` after all substitution passes. -/
def slangT3 (y : Str) : Str :=
  slangLits2.foldl (fun acc kv => subLit kv.1 kv.2 acc)
    (subKmsStar SLANG_KMS_VAL
      (slangLits1.foldl (fun acc kv => subLit kv.1 kv.2 acc)
        (' ' :: y ++ [' '])))

lemma expandSlang_eq_slangT3 (y : Str) :
    expandSlang y = stripWs (wsCollapse (slangT3 y)) := rfl

/-- The keys of `SLANG_MAP`, most recent pass first. -/
def SLANG_KEYS_REV : List Str :=
  ["take my life".toList, "i cant go on".toList, "off myself".toList,
   "end myself".toList, "end it".toList, "unalive".toList, "s/h".toList,
   "k/ms".toList, "k m s".toList, "kms".toList]

/-- After all passes the working text carries the full invariant. -/
theorem expand_parts {y : Str} (hN : isNorm y = true) (hyne : y ≠ []) :
    ∃ f0 pbs, slangT3 y = bJoin f0 pbs ∧
      GoodParts SLANG_KEYS_REV true f0 pbs ∧
      headOpt (slangT3 y) = some ' ' := by
  have hG0 : GoodParts [] false (' ' :: y ++ [' ']) [] := by
    refine ⟨?_, ?_, ?_, ?_, ?_, ?_, ?_⟩
    · intro p hp; cases hp
    · intro k hk; cases hk
    · intro g hg
      rcases List.mem_cons.mp hg with rfl | hg2
      · exact pad_fragOK hN hyne
      · cases hg2
    · intro k hk; cases hk
    · intro h; cases h
    · intro g hg
      rcases List.mem_cons.mp hg with rfl | hg2
      · rfl
      · cases hg2
    · exact getLast?_append_singleton _ ' '
  obtain ⟨f1, p1, hE1, hG1⟩ :=
    passLit ("kms".toList) ("kill myself".toList)
      (by decide) (by decide) (by decide) (by decide) (by decide)
      [] (' ' :: y ++ [' ']) [] false none hG0 rfl
  obtain ⟨f2, p2, hE2, hG2⟩ :=
    passLit ("k m s".toList) ("kill myself".toList)
      (by decide) (by decide) (by decide) (by decide) (by decide)
      p1 f1 ["kms".toList] false none hG1 rfl
  obtain ⟨f3, p3, hE3, hG3⟩ :=
    passKms ("kill myself".toList) (by decide) (by decide) (by decide)
      p2 f2 ["k m s".toList, "kms".toList] none hG2 rfl
  obtain ⟨f4, p4, hE4, hG4⟩ :=
    passLit ("k/ms".toList) ("kill myself".toList)
      (by decide) (by decide) (by decide) (by decide) (by decide)
      p3 f3 ["k m s".toList, "kms".toList] true none hG3 rfl
  obtain ⟨f5, p5, hE5, hG5⟩ :=
    passLit ("s/h".toList) ("self harm".toList)
      (by decide) (by decide) (by decide) (by decide) (by decide)
      p4 f4 ["k/ms".toList, "k m s".toList, "kms".toList] true none hG4 rfl
  obtain ⟨f6, p6, hE6, hG6⟩ :=
    passLit ("unalive".toList) ("suicide".toList)
      (by decide) (by decide) (by decide) (by decide) (by decide)
      p5 f5 ["s/h".toList, "k/ms".toList, "k m s".toList, "kms".toList]
      true none hG5 rfl
  obtain ⟨f7, p7, hE7, hG7⟩ :=
    passLit ("end it".toList) ("end my life".toList)
      (by decide) (by decide) (by decide) (by decide) (by decide)
      p6 f6 ["unalive".toList, "s/h".toList, "k/ms".toList, "k m s".toList,
        "kms".toList] true none hG6 rfl
  obtain ⟨f8, p8, hE8, hG8⟩ :=
    passLit ("end myself".toList) ("end my life".toList)
      (by decide) (by decide) (by decide) (by decide) (by decide)
      p7 f7 ["end it".toList, "unalive".toList, "s/h".toList, "k/ms".toList,
        "k m s".toList, "kms".toList] true none hG7 rfl
  obtain ⟨f9, p9, hE9, hG9⟩ :=
    passLit ("off myself".toList) ("kill myself".toList)
      (by decide) (by decide) (by decide) (by decide) (by decide)
      p8 f8 ["end myself".toList, "end it".toList, "unalive".toList,
        "s/h".toList, "k/ms".toList, "k m s".toList, "kms".toList]
      true none hG8 rfl
  obtain ⟨f10, p10, hE10, hG10⟩ :=
    passLit ("i cant go on".toList) ("end my life".toList)
      (by decide) (by decide) (by decide) (by decide) (by decide)
      p9 f9 ["off myself".toList, "end myself".toList, "end it".toList,
        "unalive".toList, "s/h".toList, "k/ms".toList, "k m s".toList,
        "kms".toList] true none hG9 rfl
  obtain ⟨f11, p11, hE11, hG11⟩ :=
    passLit ("take my life".toList) ("end my life".toList)
      (by decide) (by decide) (by decide) (by decide) (by decide)
      p10 f10 ["i cant go on".toList, "off myself".toList,
        "end myself".toList, "end it".toList, "unalive".toList,
        "s/h".toList, "k/ms".toList, "k m s".toList, "kms".toList]
      true none hG10 rfl
  have hchain : slangT3 y = bJoin f11 p11 := by
    show subLit ("take my life".toList) ("end my life".toList)
      (subLit ("i cant go on".toList) ("end my life".toList)
      (subLit ("off myself".toList) ("kill myself".toList)
      (subLit ("end myself".toList) ("end my life".toList)
      (subLit ("end it".toList) ("end my life".toList)
      (subLit ("unalive".toList) ("suicide".toList)
      (subLit ("s/h".toList) ("self harm".toList)
      (subLit ("k/ms".toList) ("kill myself".toList)
      (subKmsStar SLANG_KMS_VAL
      (subLit ("k m s".toList) ("kill myself".toList)
      (subLit ("kms".toList) ("kill myself".toList)
        (' ' :: y ++ [' ']))))))))))) = bJoin f11 p11
    rw [show subLit ("kms".toList) ("kill myself".toList) (' ' :: y ++ [' ']) =
      bJoin f1 p1 from hE1]
    rw [show subLit ("k m s".toList) ("kill myself".toList) (bJoin f1 p1) =
      bJoin f2 p2 from hE2]
    rw [show subKmsStar SLANG_KMS_VAL (bJoin f2 p2) = bJoin f3 p3 from hE3]
    rw [show subLit ("k/ms".toList) ("kill myself".toList) (bJoin f3 p3) =
      bJoin f4 p4 from hE4]
    rw [show subLit ("s/h".toList) ("self harm".toList) (bJoin f4 p4) =
      bJoin f5 p5 from hE5]
    rw [show subLit ("unalive".toList) ("suicide".toList) (bJoin f5 p5) =
      bJoin f6 p6 from hE6]
    rw [show subLit ("end it".toList) ("end my life".toList) (bJoin f6 p6) =
      bJoin f7 p7 from hE7]
    rw [show subLit ("end myself".toList) ("end my life".toList)
      (bJoin f7 p7) = bJoin f8 p8 from hE8]
    rw [show subLit ("off myself".toList) ("kill myself".toList)
      (bJoin f8 p8) = bJoin f9 p9 from hE9]
    rw [show subLit ("i cant go on".toList) ("end my life".toList)
      (bJoin f9 p9) = bJoin f10 p10 from hE10]
    rw [show subLit ("take my life".toList) ("end my life".toList)
      (bJoin f10 p10) = bJoin f11 p11 from hE11]
  refine ⟨f11, p11, hchain, hG11, ?_⟩
  show headOpt (slangT3 y) = some ' '
  have h0 : headOpt (' ' :: y ++ [' ']) = some ' ' := rfl
  exact subLit_head_space (by decide)
    (subLit_head_space (by decide)
    (subLit_head_space (by decide)
    (subLit_head_space (by decide)
    (subLit_head_space (by decide)
    (subLit_head_space (by decide)
    (subLit_head_space (by decide)
    (subLit_head_space (by decide)
    (subKmsStar_head_space
    (subLit_head_space (by decide)
    (subLit_head_space (by decide) h0))))))))))

/-! ### Collapsing the decomposition -/

/-- The whitespace flag after scanning `x` from state `b`. -/
def wsSt (b : Bool) (x : Str) : Bool :=
  match x.getLast? with
  | none => b
  | some c => isWsChar c

lemma wsSt_nil (b : Bool) : wsSt b [] = b := rfl

lemma wsCollapseGo_append :
    ∀ (x : Str) (b : Bool) (z : Str),
      wsCollapseGo b (x ++ z) = wsCollapseGo b x ++ wsCollapseGo (wsSt b x) z := by
  intro x
  induction x with
  | nil => intro b z; rfl
  | cons c t ih =>
    intro b z
    have hst : wsSt b (c :: t) = wsSt (isWsChar c) t := by
      unfold wsSt
      cases ht : t.getLast? with
      | none =>
        rw [List.getLast?_eq_none_iff] at ht
        subst ht
        rfl
      | some d =>
        rw [getLast?_cons_of_ne c (by
          intro h0
          rw [h0] at ht
          cases ht), ht]
    rw [List.cons_append, wsCollapseGo, wsCollapseGo, hst]
    cases hw : isWsChar c with
    | true =>
      rw [if_pos rfl, if_pos rfl]
      cases b with
      | true => rw [if_pos rfl, if_pos rfl, ih true z]
      | false =>
        rw [if_neg Bool.false_ne_true, if_neg Bool.false_ne_true,
          List.cons_append, ih true z]
    | false =>
      rw [if_neg Bool.false_ne_true, if_neg Bool.false_ne_true,
        List.cons_append, ih false z]

lemma fragWs {g : Str} (h : fragOK g) :
    ∀ c ∈ g, isWsChar c = true → c = ' ' := by
  intro c hc hw
  have h2 := h.1 c hc
  rw [goodC] at h2
  simp only [Bool.and_eq_true, Bool.or_eq_true, Bool.not_eq_true',
    decide_eq_true_iff] at h2
  rcases h2.2 with h3 | h3
  · rw [hw] at h3
    cases h3
  · exact h3

/-- How a pass fragment collapses, from either entering state. -/
lemma frag_collapse {g : Str} (hOK : fragOK g) :
    wsCollapseGo false g = g ∧
    (wsCollapseGo true g = g ∨
      (∃ g2, g = ' ' :: g2 ∧ wsCollapseGo true g = g2)) := by
  have hid := wsCollapseGo_id g (fragWs hOK) hOK.2.1
  refine ⟨hid.1, ?_⟩
  cases g with
  | nil => exact Or.inl rfl
  | cons c g2 =>
    cases hw : isWsChar c with
    | false =>
      left
      refine hid.2 ?_
      simp only [headOpt, noWsAt]
      rw [hw]
      rfl
    | true =>
      right
      have hsp : c = ' ' := fragWs hOK c (List.mem_cons_self c g2) hw
      subst hsp
      refine ⟨g2, rfl, ?_⟩
      rw [wsCollapseGo, if_pos (by decide), if_pos rfl]
      have hOK2 : fragOK g2 := by
        refine ⟨fun x hx => hOK.1 x (List.mem_cons_of_mem _ hx),
          noDoubleWs_tail hOK.2.1, noTripleB_tail hOK.2.2⟩
      have hid2 := wsCollapseGo_id g2 (fragWs hOK2) hOK2.2.1
      refine hid2.2 ?_
      cases g2 with
      | nil => rfl
      | cons d g3 =>
        have hd := noDoubleWs_head hOK.2.1
        rw [show isWsChar ' ' = true from by decide, Bool.true_and] at hd
        simp only [headOpt, noWsAt]
        rw [hd]
        rfl

lemma noLitMatch_any_prev {key s : Str} {q' : Option Char}
    (h : noLitMatch key q' s = true) (hq' : noWordAt q' = true)
    (q : Option Char) : noLitMatch key q s = true := by
  cases s with
  | nil => rfl
  | cons c t =>
    rw [noLitMatch, Bool.and_eq_true] at h ⊢
    refine ⟨?_, h.2⟩
    cases hq : noWordAt q with
    | true =>
      have he : matchAt key q (c :: t) = matchAt key q' (c :: t) := by
        simp only [matchAt]
        rw [hq, hq']
      rw [he]
      exact h.1
    | false =>
      rw [Bool.not_eq_true']
      cases hm : matchAt key q (c :: t) with
      | false => rfl
      | true =>
        exfalso
        obtain ⟨hnw, -, -⟩ := (matchAt_iff _ _ _).mp hm
        rw [hq] at hnw
        cases hnw

lemma noKmsMatch_tail {c : Char} {t : Str} {p : Option Char}
    (h : noKmsMatch p (c :: t) = true) : noKmsMatch (some c) t = true := by
  rw [noKmsMatch, Bool.and_eq_true] at h
  exact h.2

lemma noKmsMatch_any_prev {s : Str} {q' : Option Char}
    (h : noKmsMatch q' s = true) (hq' : noWordAt q' = true)
    (q : Option Char) : noKmsMatch q s = true := by
  cases s with
  | nil => rfl
  | cons c t =>
    rw [noKmsMatch, Bool.and_eq_true] at h ⊢
    refine ⟨?_, h.2⟩
    cases hq : noWordAt q with
    | true =>
      have h1 := h.1
      rw [Bool.not_eq_true'] at h1
      rw [hq'] at h1
      rw [Bool.not_eq_true']
      exact h1
    | false =>
      rw [Bool.not_eq_true', Bool.false_and]

/-- No prefix of the key can end the text at a block chunk. -/
def sufOK (key ch : Str) : Bool :=
  (List.range key.length).all fun i =>
    decide (i = 0) ||
    (if (key.take i).length ≤ ch.length then !(key.take i).isSuffixOf ch
     else !ch.isSuffixOf (key.take i))

lemma sufOK_refute {key ch : Str} (h : sufOK key ch = true)
    {x0 x : Str} {i : Nat} (h1 : 1 ≤ i) (h2 : i < key.length)
    (he : x0 ++ ch = x ++ key.take i) : False := by
  rw [sufOK, List.all_eq_true] at h
  have hi := h i (List.mem_range.mpr h2)
  rw [Bool.or_eq_true, decide_eq_true_iff] at hi
  rcases hi with hi | hi
  · omega
  · have hsc : ch <:+ (x0 ++ ch) := ⟨x0, rfl⟩
    have hsk : (key.take i) <:+ (x0 ++ ch) := by
      rw [he]
      exact ⟨x, rfl⟩
    split_ifs at hi with hl
    · rw [Bool.not_eq_true'] at hi
      have := List.suffix_of_suffix_length_le hsk hsc hl
      rw [← List.isSuffixOf_iff_suffix] at this
      rw [this] at hi
      cases hi
    · push_neg at hl
      rw [Bool.not_eq_true'] at hi
      have := List.suffix_of_suffix_length_le hsc hsk (le_of_lt hl)
      rw [← List.isSuffixOf_iff_suffix] at this
      rw [this] at hi
      cases hi

/-- Crossing refutation at a block chunk that lost its leading space: only
key prefixes ending in the space survive the premise, and those are
refuted in the chunk. -/
def chunkCrossWs (key v : Str) : Bool :=
  (List.range key.length).all fun i =>
    decide (i = 0) ||
    !(decide ((key.take i).getLast? = some ' ')) ||
    (!((key.drop i).isPrefixOf (v ++ [' ']) &&
        noWordAt (headOpt ((v ++ [' ']).drop (key.length - i)))) &&
     !(v ++ [' ']).isPrefixOf (key.drop i))

lemma cross_ws_from_cond {key v : Str} (hc : chunkCrossWs key v = true)
    (more : Str) :
    ∀ i, 1 ≤ i → i < key.length → (key.take i).getLast? = some ' ' →
      ((key.drop i).isPrefixOf ((v ++ [' ']) ++ more) &&
        noWordAt (headOpt (((v ++ [' ']) ++ more).drop (key.length - i))))
        = false := by
  intro i h1 h2 hsp
  cases hp : (key.drop i).isPrefixOf ((v ++ [' ']) ++ more) with
  | false => rw [Bool.false_and]
  | true =>
    rw [Bool.true_and]
    rw [chunkCrossWs, List.all_eq_true] at hc
    have hi := hc i (List.mem_range.mpr h2)
    have hine : decide (i = 0) = false := by
      rw [decide_eq_false_iff_not]
      omega
    have hip : (!(decide ((key.take i).getLast? = some ' '))) = false := by
      rw [Bool.not_eq_false']
      rw [decide_eq_true_iff]
      exact hsp
    rw [hine, hip, Bool.false_or, Bool.false_or, Bool.and_eq_true] at hi
    obtain ⟨hA, hB⟩ := hi
    rw [Bool.not_eq_true'] at hA hB
    · have hkl : (key.drop i).length = key.length - i := by
        rw [List.length_drop]
      by_cases hl : (key.drop i).length ≤ (v ++ [' ']).length
      · have hpb : (key.drop i).isPrefixOf (v ++ [' ']) = true :=
          isPrefixOf_append_left hp hl
        rcases Nat.lt_or_ge (key.drop i).length (v ++ [' ']).length with
          hlt | hge
        · rw [Bool.and_eq_false_iff] at hA
          rcases hA with hA | hA
          · rw [hpb] at hA
            cases hA
          · have hdne : (v ++ [' ']).drop (key.length - i) ≠ [] := by
              intro h0
              have := congrArg List.length h0
              rw [List.length_drop] at this
              simp only [List.length_nil] at this
              omega
            rw [show ((v ++ [' ']) ++ more).drop (key.length - i) =
                (v ++ [' ']).drop (key.length - i) ++ more from
              List.drop_append_of_le_length (by omega),
              headOpt_append_of_ne more hdne]
            exact hA
        · exfalso
          have hbp : (v ++ [' ']).isPrefixOf (key.drop i) = true := by
            rw [List.isPrefixOf_iff_prefix] at hpb ⊢
            obtain ⟨u, hu⟩ := hpb
            have hu0 : u = [] := by
              have := congrArg List.length hu
              rw [List.length_append] at this
              rw [← List.length_eq_zero]
              omega
            rw [hu0, List.append_nil] at hu
            exact ⟨[], by rw [List.append_nil, hu]⟩
          rw [hbp] at hB
          cases hB
      · exfalso
        push_neg at hl
        rw [prefix_of_short hp (le_of_lt hl)] at hB
        cases hB

/-- All suffixes of a chunk fail the kms matcher within the chunk. -/
def chunkSparkOK (ch : Str) : Bool :=
  (List.range ch.length).all fun p => kmsNoSpark (ch.drop p)

lemma chunk_no_spark {ch : Str} (h : chunkSparkOK ch = true) :
    ∀ x y, ch = x ++ y → y ≠ [] → kmsNoSpark y = true := by
  intro x y hxy hy
  have hxl : x.length < ch.length := by
    have h1 := congrArg List.length hxy
    rw [List.length_append] at h1
    have hyl : 1 ≤ y.length := by
      cases y with
      | nil => exact absurd rfl hy
      | cons a t => simp
    omega
  have hyd : ch.drop x.length = y := by rw [hxy, List.drop_left]
  rw [chunkSparkOK, List.all_eq_true] at h
  have h2 := h x.length (List.mem_range.mpr hxl)
  rw [hyd] at h2
  exact h2

/-- A spark-free left part composes with a clean right part. -/
lemma noKmsMatch_append_left_spark {p : Option Char} {a b : Str}
    (ha : ∀ x y, a = x ++ y → y ≠ [] → kmsNoSpark y = true)
    (hb : noKmsMatch (ctxAfter p a) b = true) :
    noKmsMatch p (a ++ b) = true := by
  rw [noKmsMatch_iff]
  intro x z hxz hz
  rcases List.append_eq_append_iff.mp hxz with ⟨a2, hx1, hb1⟩ | ⟨c2, ha1, hz1⟩
  · have hfb := (noKmsMatch_iff b (ctxAfter p a)).mp hb a2 z hb1 hz
    rw [hx1, ctxAfter_append]
    exact hfb
  · cases hc2 : c2 with
    | nil =>
      rw [hc2, List.append_nil] at ha1
      rw [hc2, List.nil_append] at hz1
      have hfb := (noKmsMatch_iff b (ctxAfter p a)).mp hb [] b rfl
        (by rw [← hz1]; exact hz)
      rw [ctxAfter_nil, ha1] at hfb
      rw [hz1]
      exact hfb
    | cons q0 q1 =>
      have hns : kmsNoSpark c2 = true := by
        refine ha x c2 ha1 ?_
        rw [hc2]
        exact List.cons_ne_nil q0 q1
      rw [hz1, kmsNoSpark_sound (by rw [hc2]; exact List.cons_ne_nil q0 q1)
        hns b]
      simp

/-- A lead-dropped block chunk admits no crossing span tail. -/
lemma kmsCrossFree_vchunk {v : Str} (h : kmsSeamOK v = true) (more : Str) :
    KmsCrossFree ((v ++ [' ']) ++ more) := by
  cases v with
  | nil => cases h
  | cons c v1 =>
    cases v1 with
    | nil => cases h
    | cons d r3 =>
      simp only [kmsSeamOK, Bool.and_eq_true, Bool.or_eq_true,
        Bool.not_eq_true', decide_eq_false_iff_not] at h
      have he : ((c :: d :: r3) ++ [' ']) ++ more =
          c :: (d :: (r3 ++ ([' '] ++ more))) := by
        simp [List.append_assoc]
      rw [he]
      refine kmsCrossFree_of_head h.1.1 h.1.2 ?_
      intro hcs
      rcases h.2 with h2 | h2
      · exact absurd hcs h2
      · exact h2


/-! ### The final whitespace collapse of the joined text -/

lemma getLast_opt_decomp {a : Char} : ∀ {l : Str}, l.getLast? = some a →
    ∃ t, l = t ++ [a] := by
  intro l
  induction l with
  | nil => intro h; cases h
  | cons c t ih =>
    intro h
    cases t with
    | nil =>
      have he : ([c] : Str).getLast? = some c := rfl
      rw [he] at h
      injection h with h2
      exact ⟨[], by rw [h2, List.nil_append]⟩
    | cons d t2 =>
      rw [List.getLast?_cons_cons] at h
      obtain ⟨t3, ht3⟩ := ih h
      exact ⟨c :: t3,
        by rw [show (c :: t3) ++ [a] = c :: (t3 ++ [a]) from rfl, ← ht3]⟩

lemma getLast_opt_mem {w : Char} {l : Str} (h : l.getLast? = some w) :
    w ∈ l := by
  obtain ⟨t, rfl⟩ := getLast_opt_decomp h
  exact List.mem_append_right t (List.mem_singleton.mpr rfl)

lemma noDoubleWs_last_pair : ∀ {x : Str} {a b : Char},
    noDoubleWs (x ++ [b]) = true → x.getLast? = some a →
    (isWsChar a && isWsChar b) = false := by
  intro x
  induction x with
  | nil => intro a b _ hl; cases hl
  | cons c t ih =>
    intro a b hnd hl
    cases t with
    | nil =>
      have he : ([c] : Str).getLast? = some c := rfl
      rw [he] at hl
      injection hl with h2
      rw [← h2]
      have h3 : (!(isWsChar c && isWsChar b) && noDoubleWs [b]) = true := hnd
      rw [Bool.and_eq_true, Bool.not_eq_true'] at h3
      exact h3.1
    | cons d t2 =>
      rw [List.getLast?_cons_cons] at hl
      exact ih (noDoubleWs_tail hnd) hl

/-- A collapsed text with one-space padding on each side strips back to its
core: the padding is recovered from the stripped text. -/
lemma pad_restore {W : Str} (hh : headOpt W = some ' ')
    (hl : W.getLast? = some ' ') (hnd : noDoubleWs W = true)
    (hne2 : stripWs W ≠ []) :
    W = ' ' :: stripWs W ++ [' '] := by
  cases W with
  | nil => cases hh
  | cons c W2 =>
    have hc : c = ' ' := Option.some_inj.mp hh
    subst hc
    cases W2 with
    | nil => exact absurd (by decide) hne2
    | cons d W3 =>
      have hd0 := noDoubleWs_head hnd
      rw [show isWsChar ' ' = true from by decide, Bool.true_and] at hd0
      rw [getLast?_cons_of_ne ' ' (List.cons_ne_nil d W3)] at hl
      obtain ⟨T, hT⟩ := getLast_opt_decomp hl
      have hTne : T ≠ [] := by
        intro h0
        rw [h0, List.nil_append] at hT
        injection hT with h1 h2
        rw [h1] at hd0
        exact absurd hd0 (by decide)
      have hTlast : ∀ x, T.getLast? = some x → isWsChar x = false := by
        intro x hx
        have hnd2 : noDoubleWs (T ++ [' ']) = true := by
          rw [← hT]
          exact noDoubleWs_tail hnd
        have h4 := noDoubleWs_last_pair hnd2 hx
        rw [show isWsChar ' ' = true from by decide, Bool.and_true] at h4
        exact h4
      have hstrip : stripWs (' ' :: d :: W3) = T := by
        unfold stripWs
        rw [List.dropWhile_cons, if_pos (by decide : isWsChar ' ' = true),
          List.dropWhile_cons,
          if_neg (by rw [hd0]; exact Bool.false_ne_true), hT,
          List.reverse_append, List.reverse_singleton, List.singleton_append,
          List.dropWhile_cons, if_pos (by decide : isWsChar ' ' = true)]
        have hrne : T.reverse ≠ [] := by
          intro h0
          rw [List.reverse_eq_nil_iff] at h0
          exact hTne h0
        cases hrev : T.reverse with
        | nil => exact absurd hrev hrne
        | cons r0 rt =>
          have hr0 : T.getLast? = some r0 := by
            rw [← List.head?_reverse, hrev]
            rfl
          rw [List.dropWhile_cons,
            if_neg (by rw [hTlast r0 hr0]; exact Bool.false_ne_true), ← hrev,
            List.reverse_reverse]
      rw [hstrip]
      rw [show (' ' :: T ++ [' '] : Str) = ' ' :: (T ++ [' ']) from rfl, ← hT]

/-- The whitespace facts needed to collapse a replacement block. -/
def blockWsOK (v : Str) : Bool :=
  noDoubleWs (blockOf v) &&
    (blockOf v).all (fun c => !isWsChar c || decide (c = ' ')) &&
    (match v with
     | [] => false
     | c :: _ => !isWsChar c)

lemma wsSt_block (s : Bool) (v : Str) : wsSt s (blockOf v) = true := by
  have he : (blockOf v).getLast? = some ' ' := by
    rw [show blockOf v = (' ' :: v) ++ [' '] from rfl]
    exact getLast?_append_singleton _ _
  unfold wsSt
  rw [he]
  exact (show isWsChar ' ' = true from by decide)

lemma block_collapse {v : Str} (hw : blockWsOK v = true) :
    wsCollapseGo false (blockOf v) = blockOf v ∧
    wsCollapseGo true (blockOf v) = v ++ [' '] := by
  unfold blockWsOK at hw
  rw [Bool.and_eq_true, Bool.and_eq_true] at hw
  obtain ⟨⟨hnd, hall⟩, hhd⟩ := hw
  rw [List.all_eq_true] at hall
  have hall2 : ∀ c ∈ blockOf v, isWsChar c = true → c = ' ' := by
    intro c hc hws
    have h2 := hall c hc
    rw [Bool.or_eq_true, Bool.not_eq_true'] at h2
    rcases h2 with h2 | h2
    · rw [hws] at h2
      cases h2
    · exact of_decide_eq_true h2
  have hbl : blockOf v = ' ' :: (v ++ [' ']) := rfl
  refine ⟨(wsCollapseGo_id (blockOf v) hall2 hnd).1, ?_⟩
  have hh2 : noWsAt (headOpt (v ++ [' '])) = true := by
    cases v with
    | nil => exact Bool.noConfusion hhd
    | cons c r => exact hhd
  rw [hbl, wsCollapseGo, if_pos (by decide : isWsChar ' ' = true), if_pos rfl]
  have hsub : ∀ c ∈ v ++ [' '], c ∈ blockOf v := by
    intro c hc
    rw [hbl]
    exact List.mem_cons_of_mem _ hc
  have hnd3 : noDoubleWs (v ++ [' ']) = true := by
    have h5 : noDoubleWs (' ' :: (v ++ [' '])) = true := by
      rw [← hbl]
      exact hnd
    exact noDoubleWs_tail h5
  exact (wsCollapseGo_id (v ++ [' ']) (fun c hc => hall2 c (hsub c hc)) hnd3).2
    hh2

/-- Collapsing a clean pass fragment preserves match-freeness and relates
the last character to the original. -/
lemma frag_wfacts {KS : List Str} {f0 : Str} (hOK : fragOK f0)
    (hlit : ∀ k ∈ KS, noLitMatch k (some ' ') f0 = true)
    (hkms : noKmsMatch (some ' ') f0 = true) (b : Bool) :
    (∀ k ∈ KS, ∀ q, noLitMatch k q (wsCollapseGo b f0) = true) ∧
    (∀ q, noKmsMatch q (wsCollapseGo b f0) = true) ∧
    (wsCollapseGo b f0 = [] ∨
      (wsCollapseGo b f0).getLast? = f0.getLast?) := by
  have hcase : wsCollapseGo b f0 = f0 ∨
      ∃ g2, f0 = ' ' :: g2 ∧ wsCollapseGo b f0 = g2 := by
    obtain ⟨hc1, hc2⟩ := frag_collapse hOK
    cases b with
    | false => exact Or.inl hc1
    | true =>
      rcases hc2 with h | h
      · exact Or.inl h
      · exact Or.inr h
  rcases hcase with hW | ⟨g2, hf0, hW⟩
  · rw [hW]
    exact ⟨fun k hk q => noLitMatch_any_prev (hlit k hk) (by decide) q,
      fun q => noKmsMatch_any_prev hkms (by decide) q, Or.inr rfl⟩
  · subst hf0
    rw [hW]
    refine ⟨fun k hk q => noLitMatch_any_prev (noLitMatch_tail (hlit k hk))
        (by decide) q,
      fun q => noKmsMatch_any_prev (noKmsMatch_tail hkms) (by decide) q, ?_⟩
    cases g2 with
    | nil => exact Or.inl rfl
    | cons d g3 =>
      exact Or.inr (getLast?_cons_of_ne ' ' (List.cons_ne_nil d g3)).symm

lemma frag_last_sp {f0 : Str} {b : Bool} (hOK : fragOK f0)
    (hs : wsSt b f0 = true)
    (h3 : wsCollapseGo b f0 = [] ∨
      (wsCollapseGo b f0).getLast? = f0.getLast?)
    (hne : wsCollapseGo b f0 ≠ []) :
    (wsCollapseGo b f0).getLast? = some ' ' := by
  rcases h3 with h3 | h3
  · exact absurd h3 hne
  · rw [h3]
    unfold wsSt at hs
    cases hfl : f0.getLast? with
    | none =>
      rw [List.getLast?_eq_none_iff] at hfl
      subst hfl
      exact absurd rfl hne
    | some w =>
      rw [hfl] at hs
      have hw : isWsChar w = true := hs
      have hwm : w ∈ f0 := getLast_opt_mem hfl
      rw [fragWs hOK w hwm hw]

/-- Joining a collapsed clean fragment, a collapsed block chunk and a clean
collapsed rest keeps every key and the kms pattern match-free, and ends in
the chunk or rest space. -/
lemma seam_all {KS : List Str}
    (d1 : ∀ k ∈ KS, ∀ v ∈ VALS, crossCond k v = true)
    (d2 : ∀ k ∈ KS, ∀ v ∈ VALS, chunkCrossWs k v = true)
    (d3 : ∀ k ∈ KS, ∀ v ∈ VALS,
      sufOK k (blockOf v) = true ∧ sufOK k (v ++ [' ']) = true)
    (d4 : ∀ k ∈ KS, ∀ v ∈ VALS,
      noLitMatch k (some ' ') (blockOf v) = true ∧
        noLitMatch k (some ' ') (v ++ [' ']) = true)
    (d5 : ∀ v ∈ VALS, chunkSparkOK (blockOf v) = true ∧
      chunkSparkOK (v ++ [' ']) = true)
    (d6 : ∀ v ∈ VALS, kmsSeamOK v = true)
    {v : Str} (hv : v ∈ VALS) {Cf0 Bc Wrest : Str}
    (hC1 : ∀ k ∈ KS, ∀ q, noLitMatch k q Cf0 = true)
    (hC2 : ∀ q, noKmsMatch q Cf0 = true)
    (hI1 : ∀ k ∈ KS, ∀ q, noLitMatch k q Wrest = true)
    (hI2 : ∀ q, noKmsMatch q Wrest = true)
    (hI3 : Wrest = [] ∨ Wrest.getLast? = some ' ')
    (hshape : Bc = blockOf v ∨
      (Bc = v ++ [' '] ∧ (Cf0 ≠ [] → Cf0.getLast? = some ' '))) :
    (∀ k ∈ KS, ∀ q, noLitMatch k q (Cf0 ++ (Bc ++ Wrest)) = true) ∧
    (∀ q, noKmsMatch q (Cf0 ++ (Bc ++ Wrest)) = true) ∧
    (Cf0 ++ (Bc ++ Wrest)).getLast? = some ' ' := by
  have hBlast : Bc.getLast? = some ' ' := by
    rcases hshape with hBe | ⟨hBe, -⟩
    · rw [hBe, show blockOf v = (' ' :: v) ++ [' '] from rfl]
      exact getLast?_append_singleton _ _
    · rw [hBe]
      exact getLast?_append_singleton _ _
  have hL1 : ∀ k ∈ KS, ∀ q, noLitMatch k q (Bc ++ Wrest) = true := by
    intro k hk q
    refine noLitMatch_append k ?_ (hI1 k hk _) ?_
    · rcases hshape with hBe | ⟨hBe, -⟩
      · rw [hBe]
        exact noLitMatch_any_prev (d4 k hk v hv).1 (by decide) q
      · rw [hBe]
        exact noLitMatch_any_prev (d4 k hk v hv).2 (by decide) q
    · intro i x h1 h2 he hnw
      exfalso
      rcases hshape with hBe | ⟨hBe, -⟩
      · rw [hBe] at he
        exact @sufOK_refute k (blockOf v) (d3 k hk v hv).1 [] x i h1 h2
          (by rw [List.nil_append]; exact he)
      · rw [hBe] at he
        exact @sufOK_refute k (v ++ [' ']) (d3 k hk v hv).2 [] x i h1 h2
          (by rw [List.nil_append]; exact he)
  have hL2 : ∀ q, noKmsMatch q (Bc ++ Wrest) = true := by
    intro q
    refine noKmsMatch_append_left_spark ?_ (hI2 _)
    intro x y hxy hy
    rcases hshape with hBe | ⟨hBe, -⟩
    · rw [hBe] at hxy
      exact chunk_no_spark (d5 v hv).1 x y hxy hy
    · rw [hBe] at hxy
      exact chunk_no_spark (d5 v hv).2 x y hxy hy
  have hL3 : (Bc ++ Wrest).getLast? = some ' ' := by
    rcases hI3 with h0 | h0
    · rw [h0, List.append_nil]
      exact hBlast
    · have hWne : Wrest ≠ [] := by
        intro hx
        rw [hx] at h0
        cases h0
      rw [List.getLast?_append_of_ne_nil Bc hWne]
      exact h0
  refine ⟨?_, ?_, ?_⟩
  · intro k hk q
    refine noLitMatch_append k (hC1 k hk q) (hL1 k hk _) ?_
    intro i x h1 h2 he hnw
    rcases hshape with hBe | ⟨hBe, hCl⟩
    · rw [hBe]
      exact cross_from_cond (d1 k hk v hv) Wrest i h1 h2
    · by_cases hsp : (k.take i).getLast? = some ' '
      · rw [hBe]
        exact cross_ws_from_cond (d2 k hk v hv) Wrest i h1 h2 hsp
      · exfalso
        have hkne : k.take i ≠ [] := by
          intro h0
          have h0l := congrArg List.length h0
          rw [List.length_take] at h0l
          simp only [List.length_nil] at h0l
          omega
        have hCne : Cf0 ≠ [] := by
          intro h0
          rw [h0] at he
          exact hkne (List.append_eq_nil.mp he.symm).2
        have hCl2 := hCl hCne
        rw [he, List.getLast?_append_of_ne_nil x hkne] at hCl2
        exact hsp hCl2
  · intro q
    refine noKmsMatch_append (hC2 q) (hL2 _) ?_
    rcases hshape with hBe | ⟨hBe, -⟩
    · rw [hBe]
      exact kmsCrossFree_block (d6 v hv) Wrest
    · rw [hBe]
      exact kmsCrossFree_vchunk (d6 v hv) Wrest
  · have hLne : Bc ++ Wrest ≠ [] := by
      intro h0
      rw [h0] at hL3
      cases hL3
    rw [List.getLast?_append_of_ne_nil Cf0 hLne]
    exact hL3

/-- Collapsing the fully substituted join leaves a text in which no slang
key and no kms pattern matches at any left context, and which is empty or
ends in a space. -/
theorem W_fold (KS : List Str)
    (d1 : ∀ k ∈ KS, ∀ v ∈ VALS, crossCond k v = true)
    (d2 : ∀ k ∈ KS, ∀ v ∈ VALS, chunkCrossWs k v = true)
    (d3 : ∀ k ∈ KS, ∀ v ∈ VALS,
      sufOK k (blockOf v) = true ∧ sufOK k (v ++ [' ']) = true)
    (d4 : ∀ k ∈ KS, ∀ v ∈ VALS,
      noLitMatch k (some ' ') (blockOf v) = true ∧
        noLitMatch k (some ' ') (v ++ [' ']) = true)
    (d5 : ∀ v ∈ VALS, chunkSparkOK (blockOf v) = true ∧
      chunkSparkOK (v ++ [' ']) = true)
    (d6 : ∀ v ∈ VALS, kmsSeamOK v = true)
    (d8 : ∀ v ∈ VALS, blockWsOK v = true) :
    ∀ (pbs : List (Str × Str)) (f0 : Str) (b : Bool),
      GoodParts KS true f0 pbs →
      (∀ k ∈ KS, ∀ q, noLitMatch k q (wsCollapseGo b (bJoin f0 pbs)) = true) ∧
      (∀ q, noKmsMatch q (wsCollapseGo b (bJoin f0 pbs)) = true) ∧
      (wsCollapseGo b (bJoin f0 pbs) = [] ∨
        (wsCollapseGo b (bJoin f0 pbs)).getLast? = some ' ') := by
  intro pbs
  induction pbs with
  | nil =>
    intro f0 b hG
    have hbj : bJoin f0 ([] : List (Str × Str)) = f0 := rfl
    rw [hbj]
    have hf0m : f0 ∈ frags f0 ([] : List (Str × Str)) := by simp [frags]
    obtain ⟨hF1, hF2, hF3⟩ :=
      frag_wfacts (hG.2.2.1 f0 hf0m) (fun k hk => hG.2.2.2.1 k hk f0 hf0m)
        (hG.2.2.2.2.1 rfl f0 hf0m) b
    refine ⟨hF1, hF2, ?_⟩
    rcases hF3 with h0 | h0
    · exact Or.inl h0
    · right
      rw [h0]
      exact hG.2.2.2.2.2.2
  | cons pb pbs2 ih =>
    intro f0 b hG
    obtain ⟨v, fb⟩ := pb
    have hv : v ∈ VALS := hG.1 (v, fb) (List.mem_cons_self _ _)
    have hf0m : f0 ∈ frags f0 ((v, fb) :: pbs2) := by simp [frags]
    obtain ⟨hI1, hI2, hI3⟩ := ih fb true (GoodParts_tail hG)
    have hOK0 : fragOK f0 := hG.2.2.1 f0 hf0m
    obtain ⟨hF1, hF2, hF3⟩ :=
      frag_wfacts hOK0 (fun k hk => hG.2.2.2.1 k hk f0 hf0m)
        (hG.2.2.2.2.1 rfl f0 hf0m) b
    obtain ⟨hBf, hBt⟩ := block_collapse (d8 v hv)
    have hbj : bJoin f0 ((v, fb) :: pbs2) =
        f0 ++ (blockOf v ++ bJoin fb pbs2) :=
      List.append_assoc f0 (blockOf v) (bJoin fb pbs2)
    rw [hbj, wsCollapseGo_append f0 b (blockOf v ++ bJoin fb pbs2),
      wsCollapseGo_append (blockOf v) (wsSt b f0) (bJoin fb pbs2),
      wsSt_block (wsSt b f0) v]
    cases hs1 : wsSt b f0 with
    | false =>
      rw [hBf]
      have hS := seam_all d1 d2 d3 d4 d5 d6 hv hF1 hF2 hI1 hI2 hI3
        (Or.inl rfl)
      exact ⟨hS.1, hS.2.1, Or.inr hS.2.2⟩
    | true =>
      rw [hBt]
      have hS := seam_all d1 d2 d3 d4 d5 d6 hv hF1 hF2 hI1 hI2 hI3
        (Or.inr ⟨rfl, fun hne => frag_last_sp hOK0 hs1 hF3 hne⟩)
      exact ⟨hS.1, hS.2.1, Or.inr hS.2.2⟩

lemma bJoin_goodC
    (hbg : ∀ v ∈ VALS, ∀ c ∈ blockOf v, goodC c = true) :
    ∀ (pbs : List (Str × Str)) (f0 : Str),
      (∀ p ∈ pbs, p.1 ∈ VALS) →
      (∀ g ∈ frags f0 pbs, fragOK g) →
      ∀ c ∈ bJoin f0 pbs, goodC c = true := by
  intro pbs
  induction pbs with
  | nil =>
    intro f0 _ hfr c hc
    have hc2 : c ∈ f0 := hc
    exact (hfr f0 (by simp [frags])).1 c hc2
  | cons pb pbs2 ih =>
    intro f0 hvals hfr c hc
    obtain ⟨v, fb⟩ := pb
    have hc2 : c ∈ (f0 ++ blockOf v) ++ bJoin fb pbs2 := hc
    rcases List.mem_append.mp hc2 with hc3 | hc3
    · rcases List.mem_append.mp hc3 with hc4 | hc4
      · exact (hfr f0 (by simp [frags])).1 c hc4
      · exact hbg v (hvals (v, fb) (List.mem_cons_self _ _)) c hc4
    · refine ih fb (fun p hp => hvals p (List.mem_cons_of_mem _ hp)) ?_ c hc3
      intro g hg
      refine hfr g ?_
      have he : frags f0 ((v, fb) :: pbs2) = f0 :: fb :: pbs2.map Prod.snd := by
        simp [frags]
      rw [he]
      rcases List.mem_cons.mp hg with rfl | hg2
      · exact List.mem_cons_of_mem _ (List.mem_cons_self _ _)
      · exact List.mem_cons_of_mem _ (List.mem_cons_of_mem _ hg2)

lemma bJoin_noTripleNW
    (hbt : ∀ v ∈ VALS, noTripleB (blockOf v) = true) :
    ∀ (pbs : List (Str × Str)) (f0 : Str),
      (∀ p ∈ pbs, p.1 ∈ VALS) →
      (∀ g ∈ frags f0 pbs, fragOK g) →
      noTripleNW (bJoin f0 pbs) = true := by
  intro pbs
  induction pbs with
  | nil =>
    intro f0 _ hfr
    exact noTripleNW_of_B (hfr f0 (by simp [frags])).2.2
  | cons pb pbs2 ih =>
    intro f0 hvals hfr
    obtain ⟨v, fb⟩ := pb
    have hv : v ∈ VALS := hvals (v, fb) (List.mem_cons_self _ _)
    have hrest : noTripleNW (bJoin fb pbs2) = true := by
      refine ih fb (fun p hp => hvals p (List.mem_cons_of_mem _ hp)) ?_
      intro g hg
      refine hfr g ?_
      have he : frags f0 ((v, fb) :: pbs2) = f0 :: fb :: pbs2.map Prod.snd := by
        simp [frags]
      rw [he]
      rcases List.mem_cons.mp hg with rfl | hg2
      · exact List.mem_cons_of_mem _ (List.mem_cons_self _ _)
      · exact List.mem_cons_of_mem _ (List.mem_cons_of_mem _ hg2)
    have hbjeq : bJoin f0 ((v, fb) :: pbs2) =
        f0 ++ (blockOf v ++ bJoin fb pbs2) :=
      List.append_assoc f0 (blockOf v) (bJoin fb pbs2)
    rw [hbjeq]
    have hbne : blockOf v ≠ [] := by
      rw [show blockOf v = ' ' :: (v ++ [' ']) from rfl]
      exact List.cons_ne_nil _ _
    refine noTripleNW_append_ws_right
      (noTripleNW_of_B (hfr f0 (by simp [frags])).2.2) ?_ ?_
    · refine noTripleNW_append_ws_left (noTripleNW_of_B (hbt v hv)) hrest ?_
      intro x hx
      rw [show blockOf v = (' ' :: v) ++ [' '] from rfl,
        getLast?_append_singleton] at hx
      injection hx with hx2
      rw [← hx2]
      decide
    · intro z hz
      have hzh : headOpt (blockOf v ++ bJoin fb pbs2) = some ' ' := by
        rw [headOpt_append_of_ne (bJoin fb pbs2) hbne]
        rfl
      rw [hzh] at hz
      injection hz with hz2
      rw [← hz2]
      decide

/-- The slang passes and the whitespace collapse leave a clean padded
collapsed text unchanged, up to the final strip. -/
lemma expand_on_clean {W : Str}
    (hW1 : ∀ k ∈ SLANG_KEYS_REV, ∀ q, noLitMatch k q W = true)
    (hW2 : ∀ q, noKmsMatch q W = true)
    (hWnd : noDoubleWs W = true)
    (hWws : ∀ c ∈ W, isWsChar c = true → c = ' ')
    {O : Str} (hpad : W = ' ' :: O ++ [' ']) :
    expandSlang O = stripWs W := by
  have e1 : subLit ("kms".toList) ("kill myself".toList) W = W :=
    subLitGo_id _ _ W none (hW1 _ (by decide) none)
  have e2 : subLit ("k m s".toList) ("kill myself".toList) W = W :=
    subLitGo_id _ _ W none (hW1 _ (by decide) none)
  have ek : subKmsStar SLANG_KMS_VAL W = W :=
    subKmsStarGo_id _ W none (hW2 none)
  have e3 : subLit ("k/ms".toList) ("kill myself".toList) W = W :=
    subLitGo_id _ _ W none (hW1 _ (by decide) none)
  have e4 : subLit ("s/h".toList) ("self harm".toList) W = W :=
    subLitGo_id _ _ W none (hW1 _ (by decide) none)
  have e5 : subLit ("unalive".toList) ("suicide".toList) W = W :=
    subLitGo_id _ _ W none (hW1 _ (by decide) none)
  have e6 : subLit ("end it".toList) ("end my life".toList) W = W :=
    subLitGo_id _ _ W none (hW1 _ (by decide) none)
  have e7 : subLit ("end myself".toList) ("end my life".toList) W = W :=
    subLitGo_id _ _ W none (hW1 _ (by decide) none)
  have e8 : subLit ("off myself".toList) ("kill myself".toList) W = W :=
    subLitGo_id _ _ W none (hW1 _ (by decide) none)
  have e9 : subLit ("i cant go on".toList) ("end my life".toList) W = W :=
    subLitGo_id _ _ W none (hW1 _ (by decide) none)
  have e10 : subLit ("take my life".toList) ("end my life".toList) W = W :=
    subLitGo_id _ _ W none (hW1 _ (by decide) none)
  have hT : slangT3 O = W := by
    unfold slangT3
    rw [← hpad]
    rw [show slangLits1.foldl (fun acc kv => subLit kv.1 kv.2 acc) W =
      subLit ("k m s".toList) ("kill myself".toList)
        (subLit ("kms".toList) ("kill myself".toList) W) from rfl, e1, e2, ek]
    rw [show slangLits2.foldl (fun acc kv => subLit kv.1 kv.2 acc) W =
      subLit ("take my life".toList) ("end my life".toList)
        (subLit ("i cant go on".toList) ("end my life".toList)
          (subLit ("off myself".toList) ("kill myself".toList)
            (subLit ("end myself".toList) ("end my life".toList)
              (subLit ("end it".toList) ("end my life".toList)
                (subLit ("unalive".toList) ("suicide".toList)
                  (subLit ("s/h".toList) ("self harm".toList)
                    (subLit ("k/ms".toList) ("kill myself".toList)
                      W))))))) from rfl, e3, e4, e5, e6, e7, e8, e9, e10]
  rw [expandSlang_eq_slangT3, hT,
    show wsCollapse W = wsCollapseGo false W from rfl,
    (wsCollapseGo_id W hWws hWnd).1]

/-- On a normal string the slang expansion produces a normal string and is
idempotent. -/
lemma expand_fix {y : Str} (hN : isNorm y = true) :
    isNorm (expandSlang y) = true ∧
    expandSlang (expandSlang y) = expandSlang y := by
  by_cases hyne : y = []
  · subst hyne
    exact ⟨by decide, by decide⟩
  · obtain ⟨f0, pbs, hbj, hGP, hhd⟩ := expand_parts hN hyne
    have hOeq : expandSlang y =
        stripWs (wsCollapseGo false (bJoin f0 pbs)) := by
      rw [expandSlang_eq_slangT3, hbj]
      rfl
    obtain ⟨hW1, hW2, hW3⟩ :=
      W_fold SLANG_KEYS_REV (by decide) (by decide) (by decide) (by decide)
        (by decide) (by decide) (by decide) pbs f0 false hGP
    rw [hbj] at hhd
    have hWh : headOpt (wsCollapseGo false (bJoin f0 pbs)) = some ' ' := by
      cases hTq : bJoin f0 pbs with
      | nil =>
        rw [hTq] at hhd
        exact Option.noConfusion hhd
      | cons c t =>
        rw [hTq] at hhd
        have hc : c = ' ' := Option.some_inj.mp hhd
        subst hc
        exact rfl
    have hWlast : (wsCollapseGo false (bJoin f0 pbs)).getLast? = some ' ' := by
      rcases hW3 with h0 | h0
      · rw [h0] at hWh
        exact Option.noConfusion hWh
      · exact h0
    have hWnd := noDoubleWs_wsCollapseGo (bJoin f0 pbs) false
    have hWws : ∀ c ∈ wsCollapseGo false (bJoin f0 pbs),
        isWsChar c = true → c = ' ' := by
      intro c hc hws
      rcases mem_wsCollapseGo (bJoin f0 pbs) false hc with rfl | ⟨-, hnw⟩
      · rfl
      · rw [hws] at hnw
        exact Bool.noConfusion hnw
    by_cases hO0 : stripWs (wsCollapseGo false (bJoin f0 pbs)) = []
    · rw [hOeq, hO0]
      exact ⟨by decide, by decide⟩
    · have hpad := pad_restore hWh hWlast hWnd hO0
      constructor
      · rw [hOeq]
        exact isNorm_strip_collapse
          (fun c hc _ => bJoin_goodC (by decide) pbs f0 hGP.1 hGP.2.2.1 c hc)
          (bJoin_noTripleNW (by decide) pbs f0 hGP.1 hGP.2.2.1)
      · rw [hOeq]
        exact expand_on_clean hW1 hW2 hWnd hWws hpad

/-- C5 (code bug evidence): the normalizer `normalize = _expand_slang ∘
_normalize` is not idempotent.  `_normalize` (safety.py:19-20) runs
`str.lower()` before `unicodedata.normalize("NFKC", ...)`, so a
compatibility character whose NFKC image is an uppercase ASCII letter
escapes lowercasing: normalizing U+1D5A0 (mathematical sans-serif capital
A, on which `lower()` is a no-op) yields `"A"`, and normalizing the result
yields `"a"`. -/
theorem normalize_not_idempotent :
    expandSlang (pyNormalize (expandSlang (pyNormalize [Char.ofNat 0x1D5A0]))) ≠
      expandSlang (pyNormalize [Char.ofNat 0x1D5A0]) ∧
    expandSlang (pyNormalize [Char.ofNat 0x1D5A0]) = ['A'] ∧
    expandSlang (pyNormalize (expandSlang (pyNormalize [Char.ofNat 0x1D5A0]))) =
      ['a'] := by
  refine ⟨by decide, by decide, by decide⟩

end MHC
